import Mathlib

/-!
pcsx2-ipc-tools: a shallow embedding of `ipc.c`.

The batching engine of `ipc.c` is embedded as state-passing functions on an
`Engine` record.  Conventions:

* the three process-wide buffers are byte-addressed stores `Nat → Nat` indexed
  by the offset from the start of the allocation; a cell is read through
  `rd8`, which reduces it modulo 256, so a store holds bytes whatever function
  it is.  Their contents are never reset by the code, so whatever an earlier
  batch (or `malloc`) left behind stays visible;
* pointers into the buffers (`ipc_buffer_top`, `ipc_dest_buffer_top`, `cur`,
  `dest_cur`, `ret_cur`) are offsets from the start of their buffer;
* multi-byte integers are little-endian (the native order of the hosts the
  tools run on);
* `exit(1)` is the `Except.error` outcome; it carries the state reached;
* the socket is a script: `net` lists, per connection still to be made, whether
  `connect` and `write` succeed and the segments in which the response bytes
  arrive.  `sent` logs every buffer handed to `write`, `stores` logs every
  store the demultiplexer performs through a recorded destination pointer;
* the caller's memory is the log `stores` applied (`applyStores`) to the memory
  the caller had: this is what `ipc_write` loads its source bytes from.
-/

namespace PcsxIpc

/-! ## Constants of `ipc.c` -/

def MAX_IPC_SIZE : Nat := 650000
def MAX_IPC_RETURN_SIZE : Nat := 450000

def IPC_OK : Nat := 0
def IPC_FAIL : Nat := 0xff

def MSG_READ8 : Nat := 0
def MSG_READ16 : Nat := 1
def MSG_READ32 : Nat := 2
def MSG_READ64 : Nat := 3
def MSG_WRITE8 : Nat := 4
def MSG_WRITE16 : Nat := 5
def MSG_WRITE32 : Nat := 6
def MSG_WRITE64 : Nat := 7

/-! ## Byte stores -/

/-- A byte-addressed store (a buffer, or the caller's memory). -/
abbrev Bytes := Nat → Nat

/-- Load of one byte: `buf[i]`. -/
def rd8 (m : Bytes) (i : Nat) : Nat := m i % 256

/-- Store of one byte: `buf[i] = v` with `v` converted to `uint8_t`. -/
def wr8 (m : Bytes) (i v : Nat) : Bytes := fun j => if j = i then v % 256 else m j

/-- Load of a little-endian `uint32_t`: `*(uint32_t *) &buf[i]`. -/
def rd32 (m : Bytes) (i : Nat) : Nat :=
  rd8 m i + 256 * rd8 m (i + 1) + 65536 * rd8 m (i + 2) + 16777216 * rd8 m (i + 3)

/-- Store of a little-endian `uint32_t`: `*(uint32_t *) &buf[i] = v`. -/
def wr32 (m : Bytes) (i v : Nat) : Bytes :=
  wr8 (wr8 (wr8 (wr8 m i v) (i + 1) (v / 256)) (i + 2) (v / 65536)) (i + 3) (v / 16777216)

/-- The `n` bytes of a store starting at offset `i`. -/
def rdN (m : Bytes) (i n : Nat) : List Nat := (List.range n).map (fun k => rd8 m (i + k))

/-- Store of a run of bytes starting at offset `i` (what `read(2)` does with the
bytes it delivers). -/
def wrN (m : Bytes) (i : Nat) : List Nat → Bytes
  | [] => m
  | b :: bs => wrN (wr8 m i b) (i + 1) bs

/-! ## The environment: socket script and logs -/

/-- Behaviour of one connection to `pcsx2.sock`: whether `connect` and `write`
succeed, and the segments in which the response arrives.  An empty segment
stands for a `read` that returns zero or an error. -/
structure Conn where
  connectOk : Bool
  writeOk : Bool
  reads : List (List Nat)

/-- The connection met when nobody listens on the socket. -/
def Conn.refused : Conn := ⟨false, false, []⟩

/-- One `read(sock, p, n)` with `0 < n`: the bytes delivered (`none` when the
call returns zero or an error) and the segments still to come. -/
def sockRead : List (List Nat) → Nat → Option (List Nat) × List (List Nat)
  | [], _ => (none, [])
  | [] :: rest, _ => (none, rest)
  | (b :: bs) :: rest, n =>
    if (b :: bs).length ≤ n then (some (b :: bs), rest)
    else (some ((b :: bs).take n), (b :: bs).drop n :: rest)

/-- One store through a recorded destination pointer: the pointer and the bytes
copied to it (`*(uintN_t *) *dest_cur = *(uintN_t *) ret_cur`). -/
structure Store where
  ptr : Nat
  bytes : List Nat
  deriving DecidableEq, Repr

/-- The caller's memory after a sequence of stores. -/
def applyStores (mem : Bytes) : List Store → Bytes
  | [] => mem
  | s :: rest => applyStores (wrN mem s.ptr s.bytes) rest

/-! ## The engine state -/

/-- The static variables of `ipc.c`, with the socket script and the two logs. -/
structure Engine where
  ipc_buffer : Bytes
  ipc_buffer_top : Nat
  ipc_return_buffer : Bytes
  ipc_dest_buffer : Nat → Nat
  ipc_dest_buffer_top : Nat
  net : List Conn
  sent : List (List Nat)
  stores : List Store

/-- The diagnostics after which `ipc.c` calls `exit(1)`. -/
inductive Fatal
  | connectFailed
  | writeFailed
  | remoteFail
  | corrupted
  | invalidFlag
  deriving DecidableEq, Repr

/-- The process ended by `exit(1)`: the diagnostic and the state reached. -/
structure Halt where
  reason : Fatal
  st : Engine

/-- The state an outcome ends in, whether the call returned or exited. -/
def final : Except Halt Engine → Engine
  | .ok st => st
  | .error h => h.st

/-- The diagnostic of an outcome, `none` when the call returned. -/
def fatal : Except Halt Engine → Option Fatal
  | .ok _ => none
  | .error h => some h.reason

/-! ## `ipc_begin` -/

/-- The function `ipc_begin`: the buffers are allocated on first use and kept
(their contents are whatever they were); both cursors are rewound. -/
def ipc_begin (st : Engine) : Engine :=
  { st with ipc_buffer_top := 4, ipc_dest_buffer_top := 0 }

/-! ## `_ipc_payload_size` -/

/-- The function `_ipc_payload_size`; `none` is its `Invalid flag!` exit. -/
def _ipc_payload_size (flag : Nat) : Option Nat :=
  match flag with
  | 0 => some 1
  | 1 => some 2
  | 2 => some 4
  | 3 => some 8
  | 4 => some 1
  | 5 => some 2
  | 6 => some 4
  | 7 => some 8
  | _ => none

/-! ## `ipc_send` -/

/-- The receive loop of `ipc_send` (`while(receive_size < end_size)`), from the
state `(ipc_return_buffer, receive_size, end_size)`; the result is the return
buffer and `receive_size` when the loop is left.  The first argument bounds the
number of iterations. -/
def recvLoop : Nat → List (List Nat) → Bytes → Nat → Nat → Bytes × Nat
  | 0, _, ret, receive_size, _ => (ret, receive_size)
  | fuel + 1, reads, ret, receive_size, end_size =>
    if receive_size < end_size then
      match sockRead reads (end_size - receive_size) with
      | (none, _) => (ret, 0)
      | (some data, reads1) =>
        let ret1 := wrN ret receive_size data
        let receive_size1 := receive_size + data.length
        if end_size = 4 ∧ receive_size1 ≥ 4 then
          let end_size1 := rd32 ret1 0
          if end_size1 > MAX_IPC_RETURN_SIZE then (ret1, 0)
          else recvLoop fuel reads1 ret1 receive_size1 end_size1
        else recvLoop fuel reads1 ret1 receive_size1 end_size
    else (ret, receive_size)

/-- Iterations that always suffice for the receive loop: every iteration that
does not leave the loop advances `receive_size`, which stays below
`max 4 MAX_IPC_RETURN_SIZE`. -/
def recvFuel : Nat := MAX_IPC_RETURN_SIZE + 4

/-- The receive phase of `ipc_send`, from `receive_size = 0`, `end_size = 4`. -/
def recv (reads : List (List Nat)) (ret : Bytes) : Bytes × Nat :=
  recvLoop recvFuel reads ret 0 4

/-- The cursors of the demultiplexing walk and the stores it has made. -/
structure Walk where
  cur : Nat
  dest_cur : Nat
  ret_cur : Nat
  stores : List Store

/-- The walk of `ipc_send` over the command buffer (`for(cur = ipc_buffer + 4;
cur < ipc_buffer_top;)`).  `Except.error` is an exit inside the walk, with the
cursors reached.  The first argument bounds the number of iterations. -/
def demuxLoop (buf : Bytes) (top : Nat) (ret : Bytes) (dest : Nat → Nat) :
    Nat → Walk → Except (Fatal × Walk) Walk
  | 0, w => .ok w
  | fuel + 1, w =>
    if w.cur < top then
      let flag := rd8 buf w.cur
      let cur := w.cur + 1
      match flag with
      | 0 => demuxLoop buf top ret dest fuel
          ⟨cur + 4, w.dest_cur + 1, w.ret_cur + 1,
            w.stores ++ [⟨dest w.dest_cur, rdN ret w.ret_cur 1⟩]⟩
      | 1 => demuxLoop buf top ret dest fuel
          ⟨cur + 4, w.dest_cur + 1, w.ret_cur + 2,
            w.stores ++ [⟨dest w.dest_cur, rdN ret w.ret_cur 2⟩]⟩
      | 2 => demuxLoop buf top ret dest fuel
          ⟨cur + 4, w.dest_cur + 1, w.ret_cur + 4,
            w.stores ++ [⟨dest w.dest_cur, rdN ret w.ret_cur 4⟩]⟩
      | 3 => demuxLoop buf top ret dest fuel
          ⟨cur + 4, w.dest_cur + 1, w.ret_cur + 8,
            w.stores ++ [⟨dest w.dest_cur, rdN ret w.ret_cur 8⟩]⟩
      | 4 | 5 | 6 | 7 =>
        match _ipc_payload_size flag with
        | some n => demuxLoop buf top ret dest fuel
            ⟨cur + 4 + n, w.dest_cur, w.ret_cur, w.stores⟩
        | none => .error (Fatal.invalidFlag, ⟨cur + 4, w.dest_cur, w.ret_cur, w.stores⟩)
      | _ => .error (Fatal.corrupted, ⟨cur, w.dest_cur, w.ret_cur, w.stores⟩)
    else .ok w

/-- The whole walk of `ipc_send`: it starts at offset 4 of the command buffer,
at the first recorded destination and at offset 5 of the return buffer.  Every
iteration advances `cur` by at least 5, so `ipc_buffer_top - 4` iterations
suffice. -/
def demux (st : Engine) : Except (Fatal × Walk) Walk :=
  demuxLoop st.ipc_buffer st.ipc_buffer_top st.ipc_return_buffer st.ipc_dest_buffer
    (st.ipc_buffer_top - 4) ⟨4, 0, 4 + 1, []⟩

/-- The function `ipc_send`.  It leaves both cursors where they are. -/
def ipc_send (st : Engine) : Except Halt Engine :=
  -- *(uint32_t *) ipc_buffer = ipc_buffer_top - ipc_buffer;
  let st1 := { st with ipc_buffer := wr32 st.ipc_buffer 0 st.ipc_buffer_top }
  -- socket(), connect()
  let conn := st.net.headD Conn.refused
  let st2 := { st1 with net := st.net.tail }
  if conn.connectOk = false then .error ⟨Fatal.connectFailed, st2⟩
  else
    -- write(sock, ipc_buffer, ipc_buffer_top - ipc_buffer)
    let st3 := { st2 with sent := st2.sent ++ [rdN st2.ipc_buffer 0 st2.ipc_buffer_top] }
    if conn.writeOk = false then .error ⟨Fatal.writeFailed, st3⟩
    else
      -- the receive loop, then close(sock)
      let st4 := { st3 with ipc_return_buffer := (recv conn.reads st3.ipc_return_buffer).1 }
      if rd8 st4.ipc_return_buffer 4 = IPC_FAIL then .error ⟨Fatal.remoteFail, st4⟩
      else
        match demux st4 with
        | .ok w => .ok { st4 with stores := st4.stores ++ w.stores }
        | .error (reason, w) => .error ⟨reason, { st4 with stores := st4.stores ++ w.stores }⟩

/-! ## The append operations -/

/-- The function `_ipc_check_overflow`. -/
def _ipc_check_overflow (st : Engine) : Except Halt Engine :=
  if st.ipc_buffer_top ≥ MAX_IPC_SIZE - 0x100 then
    match ipc_send st with
    | .ok st1 => .ok (ipc_begin st1)
    | .error h => .error h
  else .ok st

/-- The function `ipc_read8`. -/
def ipc_read8 (st : Engine) (dest src : Nat) : Except Halt Engine :=
  match _ipc_check_overflow st with
  | .error h => .error h
  | .ok st =>
    let top := st.ipc_buffer_top
    .ok { st with
      ipc_buffer := wr32 (wr8 st.ipc_buffer top MSG_READ8) (top + 1) src
      ipc_buffer_top := top + (1 + 4)
      ipc_dest_buffer := fun i => if i = st.ipc_dest_buffer_top then dest else st.ipc_dest_buffer i
      ipc_dest_buffer_top := st.ipc_dest_buffer_top + 1 }

/-- The function `ipc_write8`. -/
def ipc_write8 (st : Engine) (dest value : Nat) : Except Halt Engine :=
  match _ipc_check_overflow st with
  | .error h => .error h
  | .ok st =>
    let top := st.ipc_buffer_top
    .ok { st with
      ipc_buffer := wr8 (wr32 (wr8 st.ipc_buffer top MSG_WRITE8) (top + 1) dest) (top + 5) value
      ipc_buffer_top := top + (1 + 4 + 1) }

/-- The function `ipc_write32`: the only payload store is
`ipc_buffer_top[5] = value`, a store of one byte. -/
def ipc_write32 (st : Engine) (dest value : Nat) : Except Halt Engine :=
  match _ipc_check_overflow st with
  | .error h => .error h
  | .ok st =>
    let top := st.ipc_buffer_top
    .ok { st with
      ipc_buffer := wr8 (wr32 (wr8 st.ipc_buffer top MSG_WRITE32) (top + 1) dest) (top + 5) value
      ipc_buffer_top := top + (1 + 4 + 4) }

/-- The function `_ipc_push8` (defined in `ipc.c`, called nowhere). -/
def _ipc_push8 (st : Engine) (value : Nat) : Engine :=
  { st with
    ipc_buffer := wr8 st.ipc_buffer st.ipc_buffer_top value
    ipc_buffer_top := st.ipc_buffer_top + 1 }

/-- The function `_ipc_push32` (defined in `ipc.c`, called nowhere). -/
def _ipc_push32 (st : Engine) (value : Nat) : Engine :=
  { st with
    ipc_buffer := wr32 st.ipc_buffer st.ipc_buffer_top value
    ipc_buffer_top := st.ipc_buffer_top + 4 }

/-- A `for(uint32_t i = 0; i < size; i++)` loop whose body can exit: `n`
iterations are left and the counter is `i`. -/
def forLoop (body : Engine → Nat → Except Halt Engine) : Nat → Nat → Engine → Except Halt Engine
  | 0, _, st => .ok st
  | n + 1, i, st =>
    match body st i with
    | .error h => .error h
    | .ok st1 => forLoop body n (i + 1) st1

/-- The function `ipc_read`; `src + i` is `uint32_t` arithmetic. -/
def ipc_read (st : Engine) (dest src size : Nat) : Except Halt Engine :=
  forLoop (fun s i => ipc_read8 s (dest + i) ((src + i) % 2 ^ 32)) size 0 st

/-- The function `ipc_write`.  `mem` is the caller's memory when `ipc_write` is
called and `src` the address of the source array in it.  Iteration `i`
evaluates `src[i]` before it calls `ipc_write8`, on the caller's memory as it
is then: `mem` with the stores applied that `ipc_send` has made since the call
(the overflow guard of an earlier iteration may have flushed a batch whose
reads store into the array).  `dest + i` is `uint32_t` arithmetic. -/
def ipc_write (st : Engine) (dest : Nat) (mem : Bytes) (src size : Nat) : Except Halt Engine :=
  forLoop (fun s i => ipc_write8 s ((dest + i) % 2 ^ 32)
    (rd8 (applyStores mem (s.stores.drop st.stores.length)) (src + i))) size 0 st

/-- The byte iteration `i` of `ipc_write(dest, src, size)` loads from `src[i]`
(`i < size`): the byte at `src + i` of the caller's memory after the stores
made during the first `i` iterations, which are the loop run with size `i`. -/
def ipc_write_loaded (st : Engine) (dest : Nat) (mem : Bytes) (src i : Nat) : Nat :=
  rd8 (applyStores mem ((final (ipc_write st dest mem src i)).stores.drop st.stores.length))
    (src + i)

/-- The function `ipc_memset`; `dest + i` is `uint32_t` arithmetic. -/
def ipc_memset (st : Engine) (dest value size : Nat) : Except Halt Engine :=
  forLoop (fun s i => ipc_write8 s ((dest + i) % 2 ^ 32) value) size 0 st

/-! ## The wire format -/

/-- A command of the wire protocol: tag byte, target address, and the payload
bytes that follow the address. -/
structure Cmd where
  tag : Nat
  addr : Nat
  payload : List Nat
  deriving DecidableEq, Repr

/-- The four bytes of a `uint32_t`, least significant first. -/
def le32 (v : Nat) : List Nat := [v % 256, v / 256 % 256, v / 65536 % 256, v / 16777216 % 256]

/-- Width in bytes of the value a tag stands for (tag table of the protocol). -/
def tagWidth (tag : Nat) : Nat := 2 ^ (tag % 4)

/-- Read commands are the tags 0..3. -/
def Cmd.isRead (c : Cmd) : Bool := decide (c.tag < 4)

/-- A well-formed command: a tag of the table, a 32-bit address, no payload after
a read, a payload of the tag's width after a write. -/
def Cmd.WellFormed (c : Cmd) : Prop :=
  c.tag < 8 ∧ c.addr < 2 ^ 32 ∧ c.payload.length = if c.tag < 4 then 0 else tagWidth c.tag

instance (c : Cmd) : Decidable c.WellFormed := by
  unfold Cmd.WellFormed
  exact inferInstance

/-- Bytes of one command: tag, address, payload. -/
def Cmd.encode (c : Cmd) : List Nat := c.tag :: (le32 c.addr ++ c.payload)

/-- Bytes of a sequence of commands. -/
def encodeAll : List Cmd → List Nat
  | [] => []
  | c :: cs => c.encode ++ encodeAll cs

/-- Widths of the Read commands of a sequence, in order. -/
def readWidths : List Cmd → List Nat
  | [] => []
  | c :: cs => if c.tag < 4 then tagWidth c.tag :: readWidths cs else readWidths cs

/-- Stores the walk makes for the reads of widths `ws`, from destination index
`k` and return-buffer offset `off`. -/
def walkStores (dest : Nat → Nat) (ret : Bytes) : List Nat → Nat → Nat → List Store
  | [], _, _ => []
  | w :: ws, k, off => ⟨dest k, rdN ret off w⟩ :: walkStores dest ret ws (k + 1) (off + w)

/-- Decoder of the command section of a request, by the tag table of the
protocol; `none` when the bytes are not a whole number of commands.  The first
argument bounds the number of commands. -/
def decodeAll : Nat → List Nat → Option (List Cmd)
  | _, [] => some []
  | 0, _ :: _ => none
  | fuel + 1, tag :: a0 :: a1 :: a2 :: a3 :: rest =>
    let addr := a0 + 256 * a1 + 65536 * a2 + 16777216 * a3
    if tag < 4 then (decodeAll fuel rest).map (fun cs => ⟨tag, addr, []⟩ :: cs)
    else if tag < 8 then
      if rest.length < tagWidth tag then none
      else (decodeAll fuel (rest.drop (tagWidth tag))).map
        (fun cs => ⟨tag, addr, rest.take (tagWidth tag)⟩ :: cs)
    else none
  | _ + 1, _ => none

/-- The command buffer holds exactly the commands `cmds` between offset 4 and
the write cursor, and the destination list holds exactly `dests`. -/
structure Holds (st : Engine) (cmds : List Cmd) (dests : List Nat) : Prop where
  top_eq : st.ipc_buffer_top = 4 + (encodeAll cmds).length
  buf_eq : rdN st.ipc_buffer 4 (encodeAll cmds).length = encodeAll cmds
  dest_top : st.ipc_dest_buffer_top = dests.length
  dest_eq : ∀ k, k < dests.length → st.ipc_dest_buffer k = dests.getD k 0

/-- The request `ipc_send` hands to `write`: the command buffer up to the write
cursor, with the total size stored in its first four bytes. -/
def request (st : Engine) : List Nat :=
  rdN (wr32 st.ipc_buffer 0 st.ipc_buffer_top) 0 st.ipc_buffer_top

/-- The state `ipc_send` returns in when the buffer holds well-formed commands,
the connection and the transmission succeed and the status byte found after
the receive phase is not `IPC_FAIL`. -/
def sendResult (st : Engine) (conn : Conn) (rest : List Conn) (ws : List Nat) : Engine :=
  { st with
    ipc_buffer := wr32 st.ipc_buffer 0 st.ipc_buffer_top
    net := rest
    sent := st.sent ++ [request st]
    ipc_return_buffer := (recv conn.reads st.ipc_return_buffer).1
    stores := st.stores ++
      walkStores st.ipc_dest_buffer (recv conn.reads st.ipc_return_buffer).1 ws 0 5 }

/-- The Read8 command `ipc_read8` appends. -/
def cmdRead8 (src : Nat) : Cmd := ⟨MSG_READ8, src % 2 ^ 32, []⟩

/-- The Write8 command `ipc_write8` appends. -/
def cmdWrite8 (dest value : Nat) : Cmd := ⟨MSG_WRITE8, dest % 2 ^ 32, [value % 256]⟩

/-- The Write32 command of the protocol for a 32-bit value: the payload is the
four bytes of the value, least significant first. -/
def cmdWrite32 (dest value : Nat) : Cmd := ⟨MSG_WRITE32, dest % 2 ^ 32, le32 value⟩

/-- The bytes `ipc_write32` leaves in the buffer as the Write32 command: the
payload is the low byte of the value, then the three bytes `stale` that were in
the buffer before the call. -/
def cmdWrite32Stale (dest value : Nat) (stale : List Nat) : Cmd :=
  ⟨MSG_WRITE32, dest % 2 ^ 32, value % 256 :: stale⟩

/-- Two states that differ in the command buffer and the destination list only:
same socket script, same logs, same return buffer. -/
structure SameWorld (s t : Engine) : Prop where
  net_eq : t.net = s.net
  sent_eq : t.sent = s.sent
  stores_eq : t.stores = s.stores
  ret_eq : t.ipc_return_buffer = s.ipc_return_buffer

/-! ## The simulated remote of the end-to-end scenarios -/

/-- A remote that applies the commands of a request, in order, to its memory:
a read returns the bytes found at its address, a write stores its payload
there.  The result is the read results in request order and the memory left. -/
def remoteRun (mem : Bytes) : List Cmd → List Nat × Bytes
  | [] => ([], mem)
  | c :: cs =>
    if c.tag < 4 then
      let r := remoteRun mem cs
      (rdN mem c.addr (tagWidth c.tag) ++ r.1, r.2)
    else remoteRun (wrN mem c.addr c.payload) cs

/-- Response of the simulated remote to a request: total size, status `IPC_OK`,
then the read results; `IPC_FAIL` when the request is not a whole number of
commands. -/
def remoteRespond (mem : Bytes) (req : List Nat) : List Nat :=
  match decodeAll req.length (req.drop 4) with
  | some cmds => le32 (5 + (remoteRun mem cmds).1.length) ++ IPC_OK :: (remoteRun mem cmds).1
  | none => le32 5 ++ [IPC_FAIL]

/-- The batch `ipc_begin; ipc_write8(a, v); ipc_read8(&x, a); ipc_send`. -/
def batchWrite8Read8 (st : Engine) (a v x : Nat) : Except Halt Engine :=
  ipc_write8 (ipc_begin st) a v >>= fun s1 => ipc_read8 s1 x a >>= ipc_send

/-- The request of the batch `Write8(a, v); Read8(a)`: 15 bytes. -/
def requestWrite8Read8 (a v : Nat) : List Nat :=
  le32 15 ++ ((cmdWrite8 a v).encode ++ (cmdRead8 a).encode)

/-! ## Sequences of append operations -/

/-- The append operations of the engine.  For `write`, `mem` is the caller's
memory when the operation is called and `src` the address of the source array
(see `ipc_write`). -/
inductive Op
  | read8 (dest src : Nat)
  | write8 (dest value : Nat)
  | write32 (dest value : Nat)
  | read (dest src size : Nat)
  | write (dest : Nat) (mem : Bytes) (src size : Nat)
  | memset (dest value size : Nat)

/-- One append operation on a state. -/
def Op.apply (st : Engine) : Op → Except Halt Engine
  | .read8 d s => ipc_read8 st d s
  | .write8 d v => ipc_write8 st d v
  | .write32 d v => ipc_write32 st d v
  | .read d s n => ipc_read st d s n
  | .write d m s n => ipc_write st d m s n
  | .memset d v n => ipc_memset st d v n

/-- A sequence of append operations, stopped by the first exit. -/
def run : List Op → Engine → Except Halt Engine
  | [], st => .ok st
  | op :: ops, st =>
    match op.apply st with
    | .error h => .error h
    | .ok st1 => run ops st1

/-- The threshold of `_ipc_check_overflow`, as an offset. -/
def FLUSH_AT : Nat := MAX_IPC_SIZE - 0x100

/-- The state of an engine that is building a batch: the buffer holds
well-formed commands `cmds` up to the write cursor, the destination list holds
`dests`, one per Read command, and the cursor is at most 8 bytes past the
threshold of the overflow guard. -/
structure Building (st : Engine) (cmds : List Cmd) (dests : List Nat) : Prop where
  holds : Holds st cmds dests
  wf : ∀ c ∈ cmds, c.WellFormed
  count : dests.length = (readWidths cmds).length
  bound : st.ipc_buffer_top ≤ FLUSH_AT + 8

/-- Command bytes transmitted so far (the command sections of the requests
sent, in order) followed by those pending in the buffer. -/
def emittedBytes (st : Engine) : List Nat :=
  (st.sent.map (fun r => r.drop 4)).flatten ++ rdN st.ipc_buffer 4 (st.ipc_buffer_top - 4)

/-- Destinations stored through so far, followed by those pending in the
destination list. -/
def emittedDests (st : Engine) : List Nat :=
  st.stores.map Store.ptr ++ (List.range st.ipc_dest_buffer_top).map st.ipc_dest_buffer

/-- The commands and destinations an append operation adds to the batch.  The
address of the `i`-th command of a range operation is `start + i` reduced to 32
bits (see `cmdRead8`, `cmdWrite8`); the three high payload bytes of a Write32
are whatever the buffer held; the payload of the `i`-th command of `ipc_write`
is the byte iteration `i` loads from the source array (`ipc_write_loaded`),
which depends on the state the operation starts in and on the responses
received during it, so that it is left open here. -/
def Op.Emits : Op → List Cmd → List Nat → Prop
  | .read8 d a, cs, ds => cs = [cmdRead8 a] ∧ ds = [d]
  | .write8 a v, cs, ds => cs = [cmdWrite8 a v] ∧ ds = []
  | .write32 a v, cs, ds => (∃ stale, stale.length = 3 ∧ cs = [cmdWrite32Stale a v stale]) ∧ ds = []
  | .read d s n, cs, ds =>
    cs = (List.range n).map (fun i => cmdRead8 (s + i)) ∧ ds = (List.range n).map (fun i => d + i)
  | .write a _ _ n, cs, ds =>
    (∃ vals : Nat → Nat, cs = (List.range n).map (fun i => cmdWrite8 (a + i) (vals i))) ∧ ds = []
  | .memset a v n, cs, ds => cs = (List.range n).map (fun i => cmdWrite8 (a + i) v) ∧ ds = []

/-- The commands and destinations a sequence of append operations adds. -/
def RunEmits : List Op → List Cmd → List Nat → Prop
  | [], cs, ds => cs = [] ∧ ds = []
  | op :: ops, cs, ds =>
    ∃ c1 d1 c2 d2, op.Emits c1 d1 ∧ RunEmits ops c2 d2 ∧ cs = c1 ++ c2 ∧ ds = d1 ++ d2

/-- Bytes an append operation adds to the command buffer: per command the tag,
the 4-byte address and, for a write, the payload. -/
def Op.bytes : Op → Nat
  | .read8 _ _ => 1 + 4
  | .write8 _ _ => 1 + 4 + 1
  | .write32 _ _ => 1 + 4 + 4
  | .read _ _ n => n * (1 + 4)
  | .write _ _ _ n => n * (1 + 4 + 1)
  | .memset _ _ n => n * (1 + 4 + 1)

/-- The three operations that append one command. -/
def Op.isSingle : Op → Bool
  | .read8 _ _ => true
  | .write8 _ _ => true
  | .write32 _ _ => true
  | _ => false

/-- The size a response declares in its first four bytes (little-endian). -/
def u32le : List Nat → Nat
  | a :: b :: c :: d :: _ => a % 256 + 256 * (b % 256) + 65536 * (c % 256) + 16777216 * (d % 256)
  | _ => 0

/-- A request: the total size in four bytes, then the commands. -/
def frame (cmds : List Cmd) : List Nat := le32 (4 + (encodeAll cmds).length) ++ encodeAll cmds

/-- The history of a batch session since the state `st0`: the requests sent
since then are the frames of the batches `bs` (commands and destinations of
each flushed batch), the stores made since then went through the destinations
of those batches, in order, every flushed batch is made of well-formed commands
with one destination per Read, and `cmds`, `dests` are under construction. -/
structure Tracks (st0 st : Engine) (bs : List (List Cmd × List Nat)) (cmds : List Cmd)
    (dests : List Nat) : Prop where
  building : Building st cmds dests
  sent_eq : st.sent = st0.sent ++ bs.map (fun b => frame b.1)
  stores_eq : st.stores.map Store.ptr = st0.stores.map Store.ptr ++ (bs.map Prod.snd).flatten
  wf : ∀ b ∈ bs, (∀ c ∈ b.1, c.WellFormed) ∧ b.2.length = (readWidths b.1).length

/-- All commands of a session: those of the flushed batches, then the pending ones. -/
def allCmds (bs : List (List Cmd × List Nat)) (cmds : List Cmd) : List Cmd :=
  (bs.map Prod.fst).flatten ++ cmds

/-- All destinations of a session: those of the flushed batches, then the pending ones. -/
def allDests (bs : List (List Cmd × List Nat)) (dests : List Nat) : List Nat :=
  (bs.map Prod.snd).flatten ++ dests

/-! ## `ipc_read32` -/

/-- Modelled from the spec: `ipc_read32`, which `ipc.h` declares and `ipc.c` does
not define.  By the spec's contract of the Command Encoder an append first
invokes the overflow guard, then appends the Read command of its width (tag
byte and 4-byte address, no payload) and records the destination at the tail of
the destination list; this is `ipc_read8` with the tag `MSG_READ32`. -/
def ipc_read32 (st : Engine) (dest src : Nat) : Except Halt Engine :=
  match _ipc_check_overflow st with
  | .error h => .error h
  | .ok st =>
    let top := st.ipc_buffer_top
    .ok { st with
      ipc_buffer := wr32 (wr8 st.ipc_buffer top MSG_READ32) (top + 1) src
      ipc_buffer_top := top + (1 + 4)
      ipc_dest_buffer := fun i => if i = st.ipc_dest_buffer_top then dest else st.ipc_dest_buffer i
      ipc_dest_buffer_top := st.ipc_dest_buffer_top + 1 }

/-- The Read32 command of the protocol. -/
def cmdRead32 (src : Nat) : Cmd := ⟨MSG_READ32, src % 2 ^ 32, []⟩

/-- The batch `ipc_begin; ipc_read32(&x, a); ipc_send`. -/
def batchRead32 (st : Engine) (x a : Nat) : Except Halt Engine :=
  ipc_read32 (ipc_begin st) x a >>= ipc_send

/-- The batch `ipc_begin; ipc_read8(&x, a); ipc_send` (the body of the peek tool). -/
def batchRead8 (st : Engine) (x a : Nat) : Except Halt Engine :=
  ipc_read8 (ipc_begin st) x a >>= ipc_send

/-! ## Concrete states used to instantiate the theorems -/

/-- The batch `Write8; Read32; Write32; Read8` with its two destinations and a
response of 5 + 4 + 1 bytes. -/
def demoWalkState : Engine :=
  { ipc_buffer := wrN (fun _ => 0) 4
      ([4, 0, 16, 0, 0, 127] ++ [2, 0, 0, 32, 0] ++ [6, 4, 0, 0, 0, 1, 2, 3, 4] ++ [0, 9, 0, 0, 0])
    ipc_buffer_top := 29
    ipc_return_buffer := wrN (fun _ => 0) 0 [10, 0, 0, 0, 0, 11, 22, 33, 44, 55]
    ipc_dest_buffer := fun i => if i = 0 then 1000 else 2000
    ipc_dest_buffer_top := 2
    net := []
    sent := []
    stores := [] }

/-- An engine before its first batch: zeroed buffers, nobody on the socket. -/
def demoIdle : Engine :=
  { ipc_buffer := fun _ => 0
    ipc_buffer_top := 0
    ipc_return_buffer := fun _ => 0
    ipc_dest_buffer := fun _ => 0
    ipc_dest_buffer_top := 0
    net := []
    sent := []
    stores := [] }

/-- An idle engine facing a remote that answers `06 00 00 00 00 7F` in two reads
of three bytes. -/
def demoRoundtripState : Engine :=
  { demoIdle with net := [⟨true, true, [[6, 0, 0], [0, 0, 0x7F]]⟩] }

/-- A short sequence of appends: a write, a 3-byte range read, a 32-bit write
and a read. -/
def demoOps : List Op :=
  [.write8 0x1000 0x7F, .read 500 0x2000 3, .write32 0x3000 0xAABBCCDD, .read8 77 0x1000]

/-- An idle engine facing a remote that answers its next two requests with
`05 00 00 00 00` (status OK, no read result). -/
def demoListening : Engine :=
  { demoIdle with net := [⟨true, true, [[5, 0, 0, 0, 0]]⟩, ⟨true, true, [[5, 0, 0, 0, 0]]⟩] }

/-- The engine `demoListening` after `ipc_begin` and `i` calls of
`ipc_write8(0, 0)`, as long as no flush has occurred: the buffer holds `i`
commands `04 00 00 00 00 00`. -/
def fillState (i : Nat) : Engine :=
  { ipc_buffer := fun j => if 4 ≤ j ∧ j < 4 + 6 * i ∧ (j - 4) % 6 = 0 then MSG_WRITE8 else 0
    ipc_buffer_top := 4 + 6 * i
    ipc_return_buffer := fun _ => 0
    ipc_dest_buffer := fun _ => 0
    ipc_dest_buffer_top := 0
    net := [⟨true, true, [[5, 0, 0, 0, 0]]⟩, ⟨true, true, [[5, 0, 0, 0, 0]]⟩]
    sent := []
    stores := [] }

/-- An engine whose batch has reached the threshold of the overflow guard:
108290 commands `Write8(0, 0)`, cursor at offset `650000 - 256`. -/
def demoFull : Engine := fillState 108290

/-- The batch of `demoWalkState` facing a remote that answers with status
`IPC_FAIL`: `07 00 00 00 FF 01 02`, in two reads. -/
def demoFailState : Engine :=
  { demoWalkState with net := [⟨true, true, [[7, 0, 0], [0, 0xFF, 1, 2]]⟩] }

/-! ## Properties kept along a session -/

/-- What one call of `ipc_read8`, `ipc_write8` or `ipc_write32` leaves in the
buffer and in the destination list: a Read8 command and its destination, a
Write8 command, or a Write32 command whose last three payload bytes are
whatever the buffer held. -/
def Appended (c : Cmd) (ds : List Nat) : Prop :=
  (∃ d a, c = cmdRead8 a ∧ ds = [d]) ∨ (∃ a v, c = cmdWrite8 a v ∧ ds = []) ∨
    (∃ a v stale, stale.length = 3 ∧ c = cmdWrite32Stale a v stale ∧ ds = [])

/-- The bytes of the command buffer from the write cursor of `st1` on, and the
entries of the destination list from its destination cursor on, are in `st1`
what they were in `s1`. -/
def Untouched (s1 st1 : Engine) : Prop :=
  (∀ j, st1.ipc_buffer_top ≤ j → st1.ipc_buffer j = s1.ipc_buffer j) ∧
    (∀ i, st1.ipc_dest_buffer_top ≤ i → st1.ipc_dest_buffer i = s1.ipc_dest_buffer i)

/-- A property `J` of the engine state and of the batch it holds is kept by the
engine when it holds again after the send-and-reset of the overflow guard (for
the empty batch) and after each single append made below the threshold (an append changes
nothing to the socket and the logs, and stores below the new cursors only). -/
structure Kept (J : Engine → List Cmd → List Nat → Prop) : Prop where
  flush : ∀ (st : Engine) (cmds : List Cmd) (dests : List Nat) (conn : Conn) (rest : List Conn),
    Building st cmds dests → J st cmds dests →
    J (ipc_begin (sendResult st conn rest (readWidths cmds))) [] []
  push : ∀ (s1 st1 : Engine) (cmds1 : List Cmd) (dests1 : List Nat) (c : Cmd) (ds : List Nat),
    Building s1 cmds1 dests1 → J s1 cmds1 dests1 → s1.ipc_buffer_top < FLUSH_AT →
    Building st1 (cmds1 ++ [c]) (dests1 ++ ds) → SameWorld s1 st1 → Untouched s1 st1 →
    Appended c ds →
    J st1 (cmds1 ++ [c]) (dests1 ++ ds)

/-! ## Receive failures -/

/-- An idle engine facing two connections: the first answers `06 00 00 00 00 7F`
in one read, the second delivers the size `06 00 00 00` and then its next
`read` returns 0 (the peer closed the socket). -/
def demoShortRead : Engine :=
  { demoIdle with net := [⟨true, true, [[6, 0, 0, 0, 0, 0x7F]]⟩, ⟨true, true, [[6, 0, 0, 0], []]⟩] }

/-- An idle engine facing two connections: the first answers `06 00 00 00 00 7F`
in one read, the second declares a response of 450001 bytes
(`D1 DD 06 00`) and goes on with `00 2A`. -/
def demoOversized : Engine :=
  { demoIdle with
    net := [⟨true, true, [[6, 0, 0, 0, 0, 0x7F]]⟩, ⟨true, true, [[0xD1, 0xDD, 0x06, 0x00], [0, 0x2A]]⟩] }

/-! ## The receive loop with a record of its `read` calls -/

/-- The receive loop of `ipc_send` as `recvLoop`, returning in addition the
arguments of every `read(sock, &ipc_return_buffer[receive_size], end_size -
receive_size)` it makes: the offset `receive_size` and the byte count. -/
def recvTrace : Nat → List (List Nat) → Bytes → Nat → Nat → (Bytes × Nat) × List (Nat × Nat)
  | 0, _, ret, receive_size, _ => ((ret, receive_size), [])
  | fuel + 1, reads, ret, receive_size, end_size =>
    if receive_size < end_size then
      match sockRead reads (end_size - receive_size) with
      | (none, _) => ((ret, 0), [(receive_size, end_size - receive_size)])
      | (some data, reads1) =>
        let ret1 := wrN ret receive_size data
        let receive_size1 := receive_size + data.length
        if end_size = 4 ∧ receive_size1 ≥ 4 then
          let end_size1 := rd32 ret1 0
          if end_size1 > MAX_IPC_RETURN_SIZE then
            ((ret1, 0), [(receive_size, end_size - receive_size)])
          else
            ((recvTrace fuel reads1 ret1 receive_size1 end_size1).1,
              (receive_size, end_size - receive_size) ::
                (recvTrace fuel reads1 ret1 receive_size1 end_size1).2)
        else
          ((recvTrace fuel reads1 ret1 receive_size1 end_size).1,
            (receive_size, end_size - receive_size) ::
              (recvTrace fuel reads1 ret1 receive_size1 end_size).2)
    else ((ret, receive_size), [])

/-! ## The walk with a record of the tag bytes it reads -/

/-- The walk of `ipc_send` as `demuxLoop`, returning in addition every byte it
takes as a tag (`flag = *cur++`): its offset in the command buffer and its
value. -/
def demuxTrace (buf : Bytes) (top : Nat) (ret : Bytes) (dest : Nat → Nat) :
    Nat → Walk → Except (Fatal × Walk) Walk × List (Nat × Nat)
  | 0, w => (.ok w, [])
  | fuel + 1, w =>
    if w.cur < top then
      let flag := rd8 buf w.cur
      let cur := w.cur + 1
      match flag with
      | 0 =>
        let r := demuxTrace buf top ret dest fuel
          ⟨cur + 4, w.dest_cur + 1, w.ret_cur + 1,
            w.stores ++ [⟨dest w.dest_cur, rdN ret w.ret_cur 1⟩]⟩
        (r.1, (w.cur, flag) :: r.2)
      | 1 =>
        let r := demuxTrace buf top ret dest fuel
          ⟨cur + 4, w.dest_cur + 1, w.ret_cur + 2,
            w.stores ++ [⟨dest w.dest_cur, rdN ret w.ret_cur 2⟩]⟩
        (r.1, (w.cur, flag) :: r.2)
      | 2 =>
        let r := demuxTrace buf top ret dest fuel
          ⟨cur + 4, w.dest_cur + 1, w.ret_cur + 4,
            w.stores ++ [⟨dest w.dest_cur, rdN ret w.ret_cur 4⟩]⟩
        (r.1, (w.cur, flag) :: r.2)
      | 3 =>
        let r := demuxTrace buf top ret dest fuel
          ⟨cur + 4, w.dest_cur + 1, w.ret_cur + 8,
            w.stores ++ [⟨dest w.dest_cur, rdN ret w.ret_cur 8⟩]⟩
        (r.1, (w.cur, flag) :: r.2)
      | 4 | 5 | 6 | 7 =>
        match _ipc_payload_size flag with
        | some n =>
          let r := demuxTrace buf top ret dest fuel ⟨cur + 4 + n, w.dest_cur, w.ret_cur, w.stores⟩
          (r.1, (w.cur, flag) :: r.2)
        | none =>
          (.error (Fatal.invalidFlag, ⟨cur + 4, w.dest_cur, w.ret_cur, w.stores⟩), [(w.cur, flag)])
      | _ => (.error (Fatal.corrupted, ⟨cur, w.dest_cur, w.ret_cur, w.stores⟩), [(w.cur, flag)])
    else (.ok w, [])

/-- Offsets and values of the tag bytes of a sequence of commands encoded from
offset `off`. -/
def tagOffsets : List Cmd → Nat → List (Nat × Nat)
  | [], _ => []
  | c :: cs, off => (off, c.tag) :: tagOffsets cs (off + c.encode.length)

/-- The `main` of `pcxmemsetr.c` from the point where its three arguments have
been parsed: `a1`, `a2`, `a3` are the (non-negative) results of `strtol` on
`argv[1..3]`; they are converted to `PS2Ptr start`, `uint32_t end` and
`uint8_t value`, and `end - start` is `uint32_t` arithmetic.  Then `ipc_begin();
ipc_memset(start, value, end - start); ipc_send();`. -/
def pcxmemsetr_main (st : Engine) (a1 a2 a3 : Nat) : Except Halt Engine :=
  let start := a1 % 2 ^ 32
  let end_ := a2 % 2 ^ 32
  let value := a3 % 256
  ipc_memset (ipc_begin st) start value ((end_ + 2 ^ 32 - start) % 2 ^ 32) >>= ipc_send

/-! ## Capacity of the buffers -/

/-- Since the state `st0`: no byte of the command buffer at or beyond offset
`MAX_IPC_SIZE - 0x100 + 8` has changed, and every request sent is at least 4 and
at most `MAX_IPC_SIZE - 0x100 + 8` bytes long and declares its own length in its
first four bytes. -/
def CapacityKept (st0 st : Engine) (_ : List Cmd) (_ : List Nat) : Prop :=
  (∀ j, MAX_IPC_SIZE - 0x100 + 8 ≤ j → st.ipc_buffer j = st0.ipc_buffer j) ∧
    ∃ l, st.sent = st0.sent ++ l ∧
      ∀ r ∈ l, 4 ≤ r.length ∧ r.length ≤ MAX_IPC_SIZE - 0x100 + 8 ∧ u32le r = r.length

/-- Since the state `st0`: at most 129948 destinations are recorded, and no
entry of the destination list at or beyond index 129948 has changed. -/
def DestCapacityKept (st0 st : Engine) (_ : List Cmd) (dests : List Nat) : Prop :=
  dests.length ≤ 129948 ∧ ∀ i, 129948 ≤ i → st.ipc_dest_buffer i = st0.ipc_dest_buffer i

/-- Since the state `st0`: every Read command of the batch is a Read8, and
every request sent is the frame of well-formed commands whose response, of
`4 + 1 +` the widths of their reads bytes, fits the return buffer. -/
def ResponseKept (st0 st : Engine) (cmds : List Cmd) (_ : List Nat) : Prop :=
  (∀ c ∈ cmds, c.tag < 4 → c.tag = MSG_READ8) ∧
    ∃ l : List (List Cmd), st.sent = st0.sent ++ l.map frame ∧
      ∀ b ∈ l, (∀ c ∈ b, c.WellFormed) ∧ 4 + 1 + (readWidths b).sum ≤ MAX_IPC_RETURN_SIZE

/-! ## A source array that a flush stores into -/

/-- An idle engine facing a remote that answers its next request with
`06 00 00 00 00 7F`. -/
def demoAliasing : Engine :=
  { demoIdle with net := [⟨true, true, [[6, 0, 0, 0, 0, 0x7F]]⟩] }

/-- A caller's memory that holds the two bytes `AA BB` at address 5000 and zero
elsewhere. -/
def demoSource : Bytes := wrN (fun _ => 0) 5000 [0xAA, 0xBB]

/-! # Theorems -/


/-! ## Byte stores and the wire format: basic facts -/

theorem rdN_length (m : Bytes) (i n : Nat) : (rdN m i n).length = n := by
  simp [rdN]

theorem rdN_add (m : Bytes) (i a b : Nat) :
    rdN m i (a + b) = rdN m i a ++ rdN m (i + a) b := by
  simp [rdN, List.range_add, List.map_append, List.map_map, Function.comp, Nat.add_assoc]

theorem rdN_succ_left (m : Bytes) (i n : Nat) :
    rdN m i (n + 1) = rd8 m i :: rdN m (i + 1) n := by
  rw [Nat.add_comm n 1, rdN_add]
  rfl

theorem encode_length (c : Cmd) : c.encode.length = 5 + c.payload.length := by
  simp [Cmd.encode, le32]; omega

theorem rd8_wr8_same (m : Bytes) (i v : Nat) : rd8 (wr8 m i v) i = v % 256 := by
  simp [rd8, wr8]

theorem rd8_wr8_ne (m : Bytes) (i j v : Nat) (h : j ≠ i) : rd8 (wr8 m i v) j = rd8 m j := by
  simp [rd8, wr8, h]

theorem rd8_wr32_ne (m : Bytes) (i j v : Nat) (h : j < i ∨ i + 4 ≤ j) :
    rd8 (wr32 m i v) j = rd8 m j := by
  unfold wr32
  rw [rd8_wr8_ne _ _ _ _ (by omega), rd8_wr8_ne _ _ _ _ (by omega), rd8_wr8_ne _ _ _ _ (by omega),
    rd8_wr8_ne _ _ _ _ (by omega)]

theorem rdN_congr (m1 m2 : Bytes) (i n : Nat) (h : ∀ j, i ≤ j → j < i + n → rd8 m1 j = rd8 m2 j) :
    rdN m1 i n = rdN m2 i n := by
  unfold rdN
  apply List.map_congr_left
  intro k hk
  exact h (i + k) (by omega) (by have := List.mem_range.1 hk; omega)

theorem rdN_wr32 (m : Bytes) (i v : Nat) : rdN (wr32 m i v) i 4 = le32 v := by
  simp [rdN, List.range_succ, wr32, rd8, wr8, le32]

theorem rd32_wr32 (m : Bytes) (i v : Nat) : rd32 (wr32 m i v) i = v % 2 ^ 32 := by
  simp [rd32, wr32, rd8, wr8]
  omega

theorem wrN_append (m : Bytes) : ∀ (a b : List Nat) (i : Nat),
    wrN m i (a ++ b) = wrN (wrN m i a) (i + a.length) b := by
  intro a
  induction a generalizing m with
  | nil => intro b i; simp [wrN]
  | cons x xs ih => intro b i; simp [wrN, ih, Nat.add_assoc, Nat.add_comm 1]

theorem rd8_wrN_lt (m : Bytes) : ∀ (bs : List Nat) (i j : Nat), j < i → rd8 (wrN m i bs) j = rd8 m j := by
  intro bs
  induction bs generalizing m with
  | nil => intro i j _; rfl
  | cons b bs ih =>
    intro i j h
    rw [wrN, ih _ _ _ (by omega), rd8_wr8_ne _ _ _ _ (by omega)]

theorem rd8_wrN_ge (m : Bytes) : ∀ (bs : List Nat) (i j : Nat), i + bs.length ≤ j →
    rd8 (wrN m i bs) j = rd8 m j := by
  intro bs
  induction bs generalizing m with
  | nil => intro i j _; rfl
  | cons b bs ih =>
    intro i j h
    simp only [List.length_cons] at h
    rw [wrN, ih _ _ _ (by omega), rd8_wr8_ne _ _ _ _ (by omega)]

theorem rdN_wrN (m : Bytes) : ∀ (bs : List Nat) (i : Nat),
    rdN (wrN m i bs) i bs.length = bs.map (· % 256) := by
  intro bs
  induction bs generalizing m with
  | nil => intro i; rfl
  | cons b bs ih =>
    intro i
    rw [List.length_cons, rdN_succ_left, wrN, ih, rd8_wrN_lt _ _ _ _ (by omega), rd8_wr8_same]
    rfl

/-! ## The caller's memory after a sequence of stores -/

theorem applyStores_frame (a : Nat) : ∀ (ss : List Store) (mem : Bytes),
    (∀ s ∈ ss, a < s.ptr ∨ s.ptr + s.bytes.length ≤ a) →
    rd8 (applyStores mem ss) a = rd8 mem a := by
  intro ss
  induction ss with
  | nil => intro mem _; rfl
  | cons s rest ih =>
    intro mem h
    rw [applyStores, ih _ (fun t ht => h t (List.mem_cons_of_mem _ ht))]
    rcases h s (List.mem_cons_self _ _) with h1 | h1
    · exact rd8_wrN_lt _ _ _ _ h1
    · exact rd8_wrN_ge _ _ _ _ h1

/-- After stores to pairwise disjoint ranges, every range holds what was stored
to it. -/
theorem applyStores_get : ∀ (ss : List Store) (mem : Bytes),
    ss.Pairwise (fun s t => s.ptr + s.bytes.length ≤ t.ptr ∨ t.ptr + t.bytes.length ≤ s.ptr) →
    ∀ s ∈ ss, rdN (applyStores mem ss) s.ptr s.bytes.length = s.bytes.map (· % 256) := by
  intro ss
  induction ss with
  | nil => intro mem _ s hs; simp at hs
  | cons s0 rest ih =>
    intro mem hp s hs
    obtain ⟨h0, hrest⟩ := List.pairwise_cons.1 hp
    rw [applyStores]
    rcases List.mem_cons.1 hs with h | h
    · subst h
      rw [← rdN_wrN mem s.bytes s.ptr]
      apply rdN_congr
      intro j hj1 hj2
      apply applyStores_frame
      intro t ht
      rcases h0 t ht with h1 | h1
      · left; omega
      · right; omega
    · exact ih _ hrest s h

theorem rdN_map_mod (m : Bytes) (i n : Nat) : (rdN m i n).map (· % 256) = rdN m i n := by
  simp [rdN, rd8]

/-! ## The demultiplexing walk over well-formed commands -/

/-- A walk over a buffer that holds well-formed commands from `cur` to `top`
visits them one by one and stops at `top`. -/
theorem demuxLoop_encodeAll (buf : Bytes) (top : Nat) (ret : Bytes) (dest : Nat → Nat) :
    ∀ (cmds : List Cmd) (fuel : Nat) (w : Walk),
      (∀ c ∈ cmds, c.WellFormed) →
      rdN buf w.cur (top - w.cur) = encodeAll cmds → w.cur ≤ top → top - w.cur ≤ fuel →
      demuxLoop buf top ret dest fuel w = .ok
        ⟨top, w.dest_cur + (readWidths cmds).length, w.ret_cur + (readWidths cmds).sum,
          w.stores ++ walkStores dest ret (readWidths cmds) w.dest_cur w.ret_cur⟩ := by
  intro cmds
  induction cmds with
  | nil =>
    intro fuel w _ hbuf hle _
    have hlen := congrArg List.length hbuf
    simp [rdN_length, encodeAll] at hlen
    have hcur : w.cur = top := by omega
    cases fuel with
    | zero => simp [demuxLoop, readWidths, walkStores, ← hcur]
    | succ f => simp [demuxLoop, readWidths, walkStores, ← hcur]
  | cons c cs ih =>
    intro fuel w hwf hbuf hle hfuel
    obtain ⟨htag, _, hpay⟩ := hwf c (List.mem_cons_self _ _)
    have hwfs : ∀ c ∈ cs, c.WellFormed := fun x hx => hwf x (List.mem_cons_of_mem _ hx)
    have hlen := congrArg List.length hbuf
    simp only [rdN_length, encodeAll, List.length_append, encode_length] at hlen
    have hsplit : top - w.cur = (5 + c.payload.length) + (top - (w.cur + (5 + c.payload.length))) := by
      omega
    rw [hsplit, rdN_add] at hbuf
    have hparts := List.append_inj hbuf (by simp [rdN_length, encode_length])
    obtain ⟨hhead, hrest⟩ := hparts
    have hflag : rd8 buf w.cur = c.tag := by
      rw [show 5 + c.payload.length = (c.payload.length + 4) + 1 by omega, rdN_succ_left] at hhead
      simp only [Cmd.encode] at hhead
      exact (List.cons.inj hhead).1
    obtain ⟨f, rfl⟩ : ∃ f, fuel = f + 1 := ⟨fuel - 1, by omega⟩
    have hlt : w.cur < top := by omega
    obtain ⟨tag, addr, payload⟩ := c
    simp only at htag hpay hflag hrest hlen
    interval_cases tag
    all_goals
      simp only [tagWidth] at hpay
      norm_num at hpay
      rw [demuxLoop]
      simp only [hlt, if_true, hflag, _ipc_payload_size]
      rw [ih f _ hwfs (by simpa [hpay, Nat.add_assoc] using hrest) (by simp; omega) (by simp; omega)]
      simp [readWidths, walkStores, tagWidth, hpay, Nat.add_assoc, Nat.add_comm, Nat.add_left_comm]

theorem walkStores_eq_map (dest : Nat → Nat) (ret : Bytes) :
    ∀ (ws : List Nat) (k off : Nat),
      walkStores dest ret ws k off =
        (List.range ws.length).map
          (fun i => Store.mk (dest (k + i)) (rdN ret (off + (ws.take i).sum) (ws.getD i 0))) := by
  intro ws
  induction ws with
  | nil => intro k off; simp [walkStores]
  | cons w ws ih =>
    intro k off
    simp only [walkStores, List.length_cons, List.range_succ_eq_map, List.map_cons, List.map_map]
    rw [ih]
    simp [Function.comp, Nat.add_assoc, Nat.add_comm 1]

theorem take_sum_add_getD_le : ∀ (ws : List Nat) (k : Nat),
    (ws.take k).sum + ws.getD k 0 ≤ ws.sum := by
  intro ws
  induction ws with
  | nil => intro k; simp
  | cons w ws ih =>
    intro k
    cases k with
    | zero => simp
    | succ k =>
      have := ih k
      simp only [List.take_succ_cons, List.sum_cons, List.getD_cons_succ]
      omega

theorem rdN_eq_drop_take (m : Bytes) (resp : List Nat) (off w : Nat)
    (hresp : rdN m 0 resp.length = resp) (hle : off + w ≤ resp.length) :
    rdN m off w = (resp.drop off).take w := by
  have hsplit : resp.length = off + (w + (resp.length - (off + w))) := by omega
  have h := hresp
  rw [hsplit, rdN_add, rdN_add] at h
  rw [← h]
  rw [List.drop_left' (by simp [rdN_length]), List.take_left' (by simp [rdN_length])]
  simp

/-! ## C1: ordering invariant of the demultiplexer -/

/-- C1 (ordering invariant of the demultiplexer).  When the command buffer holds,
from offset 4 to the write cursor, any concatenation of well-formed commands
(tags 0..7, reads and writes interleaved at will), the destination list holds
`dests`, one entry per Read command, and the return buffer holds a response
`resp` of 5 bytes plus one value per Read command, the walk of `ipc_send`
returns, stops exactly at the write cursor, and the stores it makes are, in
order, one per Read command and no other: the `k`-th goes to `dests[k]` and
copies the `W_k` bytes of the response at offset `5 +` (the widths of the
earlier reads), `W_k` being the width of the `k`-th read.  Writes consume
neither destination nor response bytes.  When no two destinations overlap
(for 1-byte reads: when they are pairwise distinct), the caller's memory ends
with exactly those bytes at each destination and is unchanged elsewhere. -/
theorem demux_ordering (st : Engine) (cmds : List Cmd) (dests resp : List Nat)
    (hwf : ∀ c ∈ cmds, c.WellFormed)
    (htop : 4 ≤ st.ipc_buffer_top)
    (hbuf : rdN st.ipc_buffer 4 (st.ipc_buffer_top - 4) = encodeAll cmds)
    (hdests : dests.length = (readWidths cmds).length)
    (hdest : ∀ k, k < dests.length → st.ipc_dest_buffer k = dests.getD k 0)
    (hlen : resp.length = 5 + (readWidths cmds).sum)
    (hresp : rdN st.ipc_return_buffer 0 resp.length = resp) :
    ∃ w, demux st = .ok w ∧ w.cur = st.ipc_buffer_top ∧ w.dest_cur = dests.length ∧
      w.ret_cur = resp.length ∧
      w.stores = (List.range dests.length).map (fun k =>
        Store.mk (dests.getD k 0)
          ((resp.drop (5 + ((readWidths cmds).take k).sum)).take ((readWidths cmds).getD k 0))) ∧
      ((∀ i j, i < j → j < dests.length →
          dests.getD i 0 + (readWidths cmds).getD i 0 ≤ dests.getD j 0 ∨
          dests.getD j 0 + (readWidths cmds).getD j 0 ≤ dests.getD i 0) →
        ∀ mem : Bytes,
          (∀ k, k < dests.length →
            rdN (applyStores mem w.stores) (dests.getD k 0) ((readWidths cmds).getD k 0) =
              (resp.drop (5 + ((readWidths cmds).take k).sum)).take ((readWidths cmds).getD k 0)) ∧
          (∀ a, (∀ k, k < dests.length →
              a < dests.getD k 0 ∨ dests.getD k 0 + (readWidths cmds).getD k 0 ≤ a) →
            rd8 (applyStores mem w.stores) a = rd8 mem a)) := by
  have h := demuxLoop_encodeAll st.ipc_buffer st.ipc_buffer_top st.ipc_return_buffer
    st.ipc_dest_buffer cmds (st.ipc_buffer_top - 4) ⟨4, 0, 4 + 1, []⟩ hwf hbuf htop (le_refl _)
  have hchunk : ∀ k, k < dests.length →
      rdN st.ipc_return_buffer (5 + ((readWidths cmds).take k).sum) ((readWidths cmds).getD k 0) =
        (resp.drop (5 + ((readWidths cmds).take k).sum)).take ((readWidths cmds).getD k 0) := by
    intro k hk
    have hle := take_sum_add_getD_le (readWidths cmds) k
    exact rdN_eq_drop_take _ resp _ _ hresp (by omega)
  have hstores : ([] : List Store) ++ walkStores st.ipc_dest_buffer st.ipc_return_buffer
      (readWidths cmds) 0 (4 + 1) = (List.range dests.length).map (fun k =>
        Store.mk (dests.getD k 0)
          (rdN st.ipc_return_buffer (5 + ((readWidths cmds).take k).sum)
            ((readWidths cmds).getD k 0))) := by
    simp only [List.nil_append, walkStores_eq_map, hdests]
    apply List.map_congr_left
    intro k hk
    have hk2 : k < (readWidths cmds).length := by simpa using hk
    rw [Nat.zero_add, hdest k (by omega)]
  refine ⟨_, h, rfl, by simp [hdests], by simp [hlen], ?_, ?_⟩
  · simp only [hstores]
    apply List.map_congr_left
    intro k hk
    rw [hchunk k (by simpa using hk)]
  · intro hdisj mem
    simp only [hstores]
    refine ⟨?_, ?_⟩
    · intro k hk
      have hp : ((List.range dests.length).map (fun k =>
          Store.mk (dests.getD k 0)
            (rdN st.ipc_return_buffer (5 + ((readWidths cmds).take k).sum)
              ((readWidths cmds).getD k 0)))).Pairwise
          (fun s t => s.ptr + s.bytes.length ≤ t.ptr ∨ t.ptr + t.bytes.length ≤ s.ptr) := by
        rw [List.pairwise_map]
        refine List.Pairwise.imp_of_mem ?_ (List.pairwise_lt_range dests.length)
        intro i j _ hj hij
        simp only [rdN_length]
        exact hdisj i j hij (List.mem_range.1 hj)
      have hget := applyStores_get _ mem hp
        ⟨dests.getD k 0, rdN st.ipc_return_buffer (5 + ((readWidths cmds).take k).sum)
          ((readWidths cmds).getD k 0)⟩
        (List.mem_map.2 ⟨k, List.mem_range.2 hk, rfl⟩)
      simp only [rdN_length, rdN_map_mod] at hget
      rw [hget, hchunk k hk]
    · intro a ha
      apply applyStores_frame
      intro s hs
      obtain ⟨k, hk, rfl⟩ := List.mem_map.1 hs
      simp only [rdN_length]
      exact ha k (List.mem_range.1 hk)

/-- Instance of `demux_ordering` on the batch `Write8; Read32; Write32; Read8`:
the four bytes `11 22 33 44` go to address 1000 and the byte `55` to address
2000. -/
theorem demux_ordering_witness :
    ∃ w, demux demoWalkState = .ok w ∧ w.cur = 29 ∧ w.dest_cur = 2 ∧ w.ret_cur = 10 ∧
      w.stores = [⟨1000, [11, 22, 33, 44]⟩, ⟨2000, [55]⟩] ∧
      rdN (applyStores (fun _ => 0) w.stores) 1000 4 = [11, 22, 33, 44] ∧
      rdN (applyStores (fun _ => 0) w.stores) 2000 1 = [55] := by
  obtain ⟨w, h1, h2, h3, h4, h5, h6⟩ := demux_ordering demoWalkState
    [⟨4, 0x1000, [127]⟩, ⟨2, 0x200000, []⟩, ⟨6, 4, [1, 2, 3, 4]⟩, ⟨0, 9, []⟩]
    [1000, 2000] [10, 0, 0, 0, 0, 11, 22, 33, 44, 55]
    (by decide) (by decide) (by decide) (by decide) (by decide) (by decide) (by decide)
  have hm := (h6 (by
    intro i j hij hj
    have hj1 : j = 1 := by simp at hj; omega
    have hi0 : i = 0 := by omega
    subst hj1 hi0
    decide) (fun _ => 0)).1
  exact ⟨w, h1, h2, h3, h4, h5, hm 0 (by decide), hm 1 (by decide)⟩

/-! ## The receive loop on a response that arrives whole -/

/-- A `read` on a socket that still has bytes to deliver returns between one
byte and the number asked for, taken from the front of the stream. -/
theorem sockRead_spec (segs : List (List Nat)) (n : Nat) (hne : ∀ s ∈ segs, s ≠ [])
    (hn : 0 < n) (hj : segs.flatten ≠ []) :
    ∃ data segs1, sockRead segs n = (some data, segs1) ∧ 0 < data.length ∧ data.length ≤ n ∧
      data ++ segs1.flatten = segs.flatten ∧ (∀ s ∈ segs1, s ≠ []) := by
  cases segs with
  | nil => simp at hj
  | cons s rest =>
    cases s with
    | nil => exact absurd rfl (hne [] (List.mem_cons_self _ _))
    | cons b bs =>
      have hrest : ∀ s ∈ rest, s ≠ [] := fun x hx => hne x (List.mem_cons_of_mem _ hx)
      by_cases hlen : (b :: bs).length ≤ n
      · refine ⟨b :: bs, rest, ?_, by simp, hlen, by simp, hrest⟩
        rw [sockRead, if_pos hlen]
      · refine ⟨(b :: bs).take n, (b :: bs).drop n :: rest, ?_, ?_, ?_, ?_, ?_⟩
        · rw [sockRead, if_neg hlen]
        · rw [List.length_take]; simp at hlen ⊢; omega
        · rw [List.length_take]; omega
        · rw [List.flatten_cons, ← List.append_assoc, List.take_append_drop, List.flatten_cons]
        · intro s hs
          rcases List.mem_cons.1 hs with h | h
          · subst h
            intro h0
            have := congrArg List.length h0
            simp at this hlen
            omega
          · exact hrest s h

/-- Second phase of the receive loop (the declared size is known): the loop
stores the next `end_size - receive_size` bytes of the stream and ends with
`receive_size = end_size`, however the stream is cut into reads. -/
theorem recvLoop_body (fuel : Nat) : ∀ (segs : List (List Nat)) (ret : Bytes) (rs es : Nat),
    (∀ s ∈ segs, s ≠ []) → rs ≤ es → (es ≠ 4 ∨ rs = es) → es - rs ≤ segs.flatten.length →
    es - rs ≤ fuel →
    recvLoop fuel segs ret rs es = (wrN ret rs (segs.flatten.take (es - rs)), es) := by
  induction fuel with
  | zero =>
    intro segs ret rs es _ hle _ _ hfuel
    have : rs = es := by omega
    subst this
    simp [recvLoop, wrN]
  | succ f ih =>
    intro segs ret rs es hne hle hphase hlen hfuel
    rw [recvLoop]
    by_cases hlt : rs < es
    · have hes : es ≠ 4 := by
        rcases hphase with h | h
        · exact h
        · omega
      have hj : segs.flatten ≠ [] := by
        intro h0
        rw [h0] at hlen
        simp at hlen
        omega
      obtain ⟨data, segs1, hread, hpos, hdl, hcat, hne1⟩ :=
        sockRead_spec segs (es - rs) hne (by omega) hj
      have hlen1 : es - (rs + data.length) ≤ segs1.flatten.length := by
        have := congrArg List.length hcat
        simp only [List.length_append] at this
        omega
      simp only [hlt, if_true, hread, hes, false_and, if_false]
      rw [ih segs1 _ _ _ hne1 (by omega) (Or.inl hes) hlen1 (by omega)]
      rw [← hcat, ← wrN_append, List.take_append_eq_append_take, List.take_of_length_le hdl]
      rw [Nat.sub_add_eq]
    · have : rs = es := by omega
      subst this
      simp [wrN]

theorem wrN_take_step (ret : Bytes) (rs k : Nat) (data rest : List Nat) (h : data.length ≤ k) :
    wrN (wrN ret rs data) (rs + data.length) (rest.take (k - data.length)) =
      wrN ret rs ((data ++ rest).take k) := by
  rw [← wrN_append, List.take_append_eq_append_take, List.take_of_length_le h]

/-- First phase of the receive loop (`end_size = 4`): whatever the cuts, the
loop assembles the 4-byte header, takes the declared size `n` from it and, when
`4 ≤ n ≤ MAX_IPC_RETURN_SIZE` and the stream holds `n` bytes, ends with exactly
the first `n` bytes of the stream stored and `receive_size = n`. -/
theorem recvLoop_header (fuel : Nat) : ∀ (segs : List (List Nat)) (ret : Bytes) (rs n : Nat),
    (∀ s ∈ segs, s ≠ []) → rs < 4 → 4 - rs ≤ segs.flatten.length →
    rd32 (wrN ret rs (segs.flatten.take (4 - rs))) 0 = n →
    4 ≤ n → n ≤ MAX_IPC_RETURN_SIZE → n - rs ≤ segs.flatten.length → n - rs ≤ fuel →
    recvLoop fuel segs ret rs 4 = (wrN ret rs (segs.flatten.take (n - rs)), n) := by
  induction fuel with
  | zero =>
    intro segs ret rs n _ hrs _ _ hn4 _ _ hfuel
    omega
  | succ f ih =>
    intro segs ret rs n hne hrs hlen4 hn hn4 hmax hlen hfuel
    rw [recvLoop]
    have hj : segs.flatten ≠ [] := by
      intro h0
      rw [h0] at hlen4
      simp at hlen4
      omega
    obtain ⟨data, segs1, hread, hpos, hdl, hcat, hne1⟩ :=
      sockRead_spec segs (4 - rs) hne (by omega) hj
    have hJ := congrArg List.length hcat
    simp only [List.length_append] at hJ
    simp only [hrs, if_true, hread, true_and]
    by_cases hdone : rs + data.length ≥ 4
    · have h4 : rd32 (wrN ret rs data) 0 = n := by
        rw [← hn, ← hcat, List.take_left' (by omega)]
      simp only [hdone, if_true, h4, gt_iff_lt, Nat.not_lt.2 hmax, if_false]
      have hrs4 : rs + data.length = 4 := by omega
      rw [hrs4]
      rw [recvLoop_body f segs1 _ 4 n hne1 hn4 (by omega) (by omega) (by omega)]
      rw [← hrs4, show n - (rs + data.length) = (n - rs) - data.length by omega,
        wrN_take_step _ _ _ _ _ (by omega), hcat]
    · simp only [hdone, if_false]
      have hn1 : rd32 (wrN (wrN ret rs data) (rs + data.length)
          (segs1.flatten.take (4 - (rs + data.length)))) 0 = n := by
        rw [show 4 - (rs + data.length) = (4 - rs) - data.length by omega,
          wrN_take_step _ _ _ _ _ hdl, hcat, hn]
      rw [ih segs1 _ _ n hne1 (by omega) (by omega) hn1 hn4 hmax (by omega) (by omega)]
      rw [show n - (rs + data.length) = (n - rs) - data.length by omega,
        wrN_take_step _ _ _ _ _ (by omega), hcat]

/-- The receive phase on a response that arrives whole: when the stream's first
four bytes declare a size `n` with `4 ≤ n ≤ MAX_IPC_RETURN_SIZE` and the stream
holds at least `n` bytes, cut into non-empty reads in any way, `recv` leaves
the first `n` bytes of the stream at offsets `[0, n)` of the return buffer and
`receive_size = n`. -/
theorem recv_complete (segs : List (List Nat)) (ret : Bytes) (n : Nat)
    (hne : ∀ s ∈ segs, s ≠ [])
    (hn : rd32 (wrN ret 0 (segs.flatten.take 4)) 0 = n)
    (hn4 : 4 ≤ n) (hmax : n ≤ MAX_IPC_RETURN_SIZE) (hlen : n ≤ segs.flatten.length) :
    recv segs ret = (wrN ret 0 (segs.flatten.take n), n) := by
  unfold recv
  exact recvLoop_header recvFuel segs ret 0 n hne (by omega) (by omega) hn hn4 hmax (by omega)
    (by simp only [recvFuel]; omega)

/-! ## The encoder and `ipc_send` on a buffer that holds commands -/

theorem encodeAll_append : ∀ (a b : List Cmd), encodeAll (a ++ b) = encodeAll a ++ encodeAll b := by
  intro a
  induction a with
  | nil => intro b; rfl
  | cons c cs ih => intro b; simp [encodeAll, ih]

theorem readWidths_append : ∀ (a b : List Cmd), readWidths (a ++ b) = readWidths a ++ readWidths b := by
  intro a
  induction a with
  | nil => intro b; rfl
  | cons c cs ih =>
    intro b
    by_cases h : c.tag < 4 <;> simp [readWidths, h, ih]

theorem holds_begin (st : Engine) : Holds (ipc_begin st) [] [] :=
  ⟨rfl, rfl, rfl, fun k hk => by simp at hk⟩

/-- Finalising the header leaves the command section as it is. -/
theorem rdN_header (buf : Bytes) (v n : Nat) : rdN (wr32 buf 0 v) 4 n = rdN buf 4 n :=
  rdN_congr _ _ _ _ (fun j h1 _ => rd8_wr32_ne _ _ _ _ (Or.inr (by omega)))

/-- The walk of `ipc_send` over a buffer that holds well-formed commands. -/
theorem demux_holds (st : Engine) (cmds : List Cmd) (dests : List Nat)
    (hwf : ∀ c ∈ cmds, c.WellFormed) (hH : Holds st cmds dests) :
    demux st = .ok ⟨st.ipc_buffer_top, (readWidths cmds).length, 5 + (readWidths cmds).sum,
      walkStores st.ipc_dest_buffer st.ipc_return_buffer (readWidths cmds) 0 5⟩ := by
  have htop := hH.top_eq
  have h := demuxLoop_encodeAll st.ipc_buffer st.ipc_buffer_top st.ipc_return_buffer
    st.ipc_dest_buffer cmds (st.ipc_buffer_top - 4) ⟨4, 0, 4 + 1, []⟩ hwf
    (by rw [htop]; simpa using hH.buf_eq) (by simp; omega) (le_refl _)
  simpa [demux] using h

theorem ipc_send_holds (st : Engine) (cmds : List Cmd) (dests : List Nat) (conn : Conn)
    (rest : List Conn) (hwf : ∀ c ∈ cmds, c.WellFormed) (hH : Holds st cmds dests)
    (hnet : st.net = conn :: rest) (hc : conn.connectOk = true) (hw : conn.writeOk = true)
    (hstat : rd8 (recv conn.reads st.ipc_return_buffer).1 4 ≠ IPC_FAIL) :
    ipc_send st = .ok (sendResult st conn rest (readWidths cmds)) := by
  have hH4 : Holds { st with
      ipc_buffer := wr32 st.ipc_buffer 0 st.ipc_buffer_top
      net := rest
      sent := st.sent ++ [request st]
      ipc_return_buffer := (recv conn.reads st.ipc_return_buffer).1 } cmds dests :=
    ⟨hH.top_eq, by simpa [rdN_header] using hH.buf_eq, hH.dest_top, hH.dest_eq⟩
  have hd := demux_holds _ cmds dests hwf hH4
  simp only [ipc_send, hnet, List.headD_cons, List.tail_cons, hc, hw, Bool.true_eq_false,
    if_false, hstat]
  simp only [request] at hd
  rw [hd]
  rfl

theorem le32_mod_lit (a : Nat) : le32 (a % 4294967296) = le32 a := by
  simp only [le32]
  norm_num
  refine ⟨?_, ?_, ?_⟩ <;> omega

theorem le32_mod (a : Nat) : le32 (a % 2 ^ 32) = le32 a := le32_mod_lit a

theorem buf_push (buf buf1 : Bytes) (cmds : List Cmd) (c : Cmd)
    (hbuf : rdN buf 4 (encodeAll cmds).length = encodeAll cmds)
    (hframe : ∀ j, 4 ≤ j → j < 4 + (encodeAll cmds).length → rd8 buf1 j = rd8 buf j)
    (hnew : rdN buf1 (4 + (encodeAll cmds).length) c.encode.length = c.encode) :
    rdN buf1 4 (encodeAll (cmds ++ [c])).length = encodeAll (cmds ++ [c]) := by
  rw [encodeAll_append, List.length_append, rdN_add]
  simp only [encodeAll, List.append_nil]
  rw [hnew, rdN_congr buf1 buf 4 _ hframe, hbuf]

theorem dest_push (dest : Nat → Nat) (dests : List Nat) (d n : Nat) (hn : n = dests.length)
    (hd : ∀ k, k < dests.length → dest k = dests.getD k 0) :
    ∀ k, k < (dests ++ [d]).length →
      (fun i => if i = n then d else dest i) k = (dests ++ [d]).getD k 0 := by
  intro k hk
  simp only [List.length_append, List.length_singleton] at hk
  by_cases h : k = dests.length
  · subst hn
    simp [h, List.getD_eq_getElem?_getD]
  · have hlt : k < dests.length := by omega
    subst hn
    simp [h, hd k hlt, List.getD_eq_getElem?_getD, List.getElem?_append_left hlt]

/-- Below the threshold the overflow guard does nothing. -/
theorem check_overflow_below (st : Engine) (h : st.ipc_buffer_top < MAX_IPC_SIZE - 0x100) :
    _ipc_check_overflow st = .ok st := by
  simp [_ipc_check_overflow, Nat.not_le.2 h]

/-- At the threshold the overflow guard is one `ipc_send` followed by `ipc_begin`. -/
theorem check_overflow_above (st : Engine) (h : MAX_IPC_SIZE - 0x100 ≤ st.ipc_buffer_top) :
    _ipc_check_overflow st =
      match ipc_send st with
      | .ok st1 => .ok (ipc_begin st1)
      | .error e => .error e := by
  simp [_ipc_check_overflow, h]

theorem cmdRead8_wf (a : Nat) : (cmdRead8 a).WellFormed := by
  refine ⟨by simp [cmdRead8, MSG_READ8], Nat.mod_lt _ (by norm_num), by simp [cmdRead8, MSG_READ8]⟩

theorem cmdWrite8_wf (a v : Nat) : (cmdWrite8 a v).WellFormed := by
  refine ⟨by simp [cmdWrite8, MSG_WRITE8], Nat.mod_lt _ (by norm_num),
    by simp [cmdWrite8, MSG_WRITE8, tagWidth]⟩

theorem cmdWrite32Stale_wf (a v : Nat) (stale : List Nat) (h : stale.length = 3) :
    (cmdWrite32Stale a v stale).WellFormed := by
  refine ⟨by simp [cmdWrite32Stale, MSG_WRITE32], Nat.mod_lt _ (by norm_num), ?_⟩
  simp [cmdWrite32Stale, MSG_WRITE32, tagWidth, h]

/-- What `ipc_read8` does once the overflow guard has returned. -/
theorem ipc_read8_push (st s1 : Engine) (cmds : List Cmd) (dests : List Nat) (d a : Nat)
    (hchk : _ipc_check_overflow st = .ok s1) (hH : Holds s1 cmds dests) :
    ∃ st1, ipc_read8 st d a = .ok st1 ∧ Holds st1 (cmds ++ [cmdRead8 a]) (dests ++ [d]) ∧
      SameWorld s1 st1 := by
  have hres : ipc_read8 st d a = .ok { s1 with
      ipc_buffer := wr32 (wr8 s1.ipc_buffer s1.ipc_buffer_top MSG_READ8) (s1.ipc_buffer_top + 1) a
      ipc_buffer_top := s1.ipc_buffer_top + (1 + 4)
      ipc_dest_buffer := fun i => if i = s1.ipc_dest_buffer_top then d else s1.ipc_dest_buffer i
      ipc_dest_buffer_top := s1.ipc_dest_buffer_top + 1 } := by
    simp only [ipc_read8, hchk]
  refine ⟨_, hres, ?_, ⟨rfl, rfl, rfl, rfl⟩⟩
  have htop := hH.top_eq
  refine ⟨?_, ?_, ?_, ?_⟩
  · simp only [encodeAll_append, List.length_append, encodeAll, encode_length, cmdRead8, htop]
    simp; omega
  · apply buf_push _ _ _ _ hH.buf_eq
    · intro j h1 h2
      rw [rd8_wr32_ne _ _ _ _ (Or.inl (by omega)), rd8_wr8_ne _ _ _ _ (by omega)]
    · rw [← htop]
      show rdN _ _ (4 + 1) = _
      rw [rdN_succ_left, rdN_wr32, rd8_wr32_ne _ _ _ _ (Or.inl (by omega)), rd8_wr8_same]
      simp [Cmd.encode, cmdRead8, le32_mod_lit, MSG_READ8]
  · simp [hH.dest_top]
  · exact dest_push _ _ _ _ hH.dest_top hH.dest_eq

/-- What `ipc_write8` does once the overflow guard has returned. -/
theorem ipc_write8_push (st s1 : Engine) (cmds : List Cmd) (dests : List Nat) (a v : Nat)
    (hchk : _ipc_check_overflow st = .ok s1) (hH : Holds s1 cmds dests) :
    ∃ st1, ipc_write8 st a v = .ok st1 ∧ Holds st1 (cmds ++ [cmdWrite8 a v]) dests ∧
      SameWorld s1 st1 := by
  have hres : ipc_write8 st a v = .ok { s1 with
      ipc_buffer := wr8 (wr32 (wr8 s1.ipc_buffer s1.ipc_buffer_top MSG_WRITE8)
        (s1.ipc_buffer_top + 1) a) (s1.ipc_buffer_top + 5) v
      ipc_buffer_top := s1.ipc_buffer_top + (1 + 4 + 1) } := by
    simp only [ipc_write8, hchk]
  refine ⟨_, hres, ?_, ⟨rfl, rfl, rfl, rfl⟩⟩
  have htop := hH.top_eq
  refine ⟨?_, ?_, hH.dest_top, hH.dest_eq⟩
  · simp only [encodeAll_append, List.length_append, encodeAll, encode_length, cmdWrite8, htop]
    simp; omega
  · apply buf_push _ _ _ _ hH.buf_eq
    · intro j h1 h2
      rw [rd8_wr8_ne _ _ _ _ (by omega), rd8_wr32_ne _ _ _ _ (Or.inl (by omega)),
        rd8_wr8_ne _ _ _ _ (by omega)]
    · rw [← htop]
      show rdN _ _ (1 + (4 + 1)) = _
      rw [rdN_add, rdN_add, rdN_congr _ (wr32 (wr8 s1.ipc_buffer s1.ipc_buffer_top MSG_WRITE8)
        (s1.ipc_buffer_top + 1) a) (s1.ipc_buffer_top + 1) 4
        (fun j h1 h2 => rd8_wr8_ne _ _ _ _ (by omega)), rdN_wr32]
      simp [rdN, List.range_succ, rd8_wr8_same, rd8_wr8_ne, rd8_wr32_ne, Cmd.encode, cmdWrite8,
        le32_mod_lit, MSG_WRITE8, Nat.add_assoc]

/-- What `ipc_write32` does once the overflow guard has returned: of the four
payload bytes only the first is stored, the other three stay as they were. -/
theorem ipc_write32_push (st s1 : Engine) (cmds : List Cmd) (dests : List Nat) (a v : Nat)
    (hchk : _ipc_check_overflow st = .ok s1) (hH : Holds s1 cmds dests) :
    ∃ st1, ipc_write32 st a v = .ok st1 ∧
      Holds st1 (cmds ++ [cmdWrite32Stale a v (rdN s1.ipc_buffer (s1.ipc_buffer_top + 6) 3)]) dests ∧
      SameWorld s1 st1 := by
  have hres : ipc_write32 st a v = .ok { s1 with
      ipc_buffer := wr8 (wr32 (wr8 s1.ipc_buffer s1.ipc_buffer_top MSG_WRITE32)
        (s1.ipc_buffer_top + 1) a) (s1.ipc_buffer_top + 5) v
      ipc_buffer_top := s1.ipc_buffer_top + (1 + 4 + 4) } := by
    simp only [ipc_write32, hchk]
  refine ⟨_, hres, ?_, ⟨rfl, rfl, rfl, rfl⟩⟩
  have htop := hH.top_eq
  refine ⟨?_, ?_, hH.dest_top, hH.dest_eq⟩
  · simp only [encodeAll_append, List.length_append, encodeAll, encode_length, cmdWrite32Stale,
      htop]
    simp [rdN_length]; omega
  · apply buf_push _ _ _ _ hH.buf_eq
    · intro j h1 h2
      rw [rd8_wr8_ne _ _ _ _ (by omega), rd8_wr32_ne _ _ _ _ (Or.inl (by omega)),
        rd8_wr8_ne _ _ _ _ (by omega)]
    · rw [← htop]
      show rdN _ _ (1 + (4 + (1 + 3))) = _
      rw [rdN_add, rdN_add, rdN_add, rdN_congr _ (wr32 (wr8 s1.ipc_buffer s1.ipc_buffer_top MSG_WRITE32)
        (s1.ipc_buffer_top + 1) a) (s1.ipc_buffer_top + 1) 4
        (fun j h1 h2 => rd8_wr8_ne _ _ _ _ (by omega)), rdN_wr32,
        rdN_congr _ s1.ipc_buffer (s1.ipc_buffer_top + 1 + 4 + 1) 3
        (fun j h1 h2 => by
          rw [rd8_wr8_ne _ _ _ _ (by omega), rd8_wr32_ne _ _ _ _ (Or.inr (by omega)),
            rd8_wr8_ne _ _ _ _ (by omega)])]
      simp [rdN, List.range_succ, rd8_wr8_same, rd8_wr8_ne, rd8_wr32_ne, Cmd.encode,
        cmdWrite32Stale, le32_mod_lit, MSG_WRITE32, Nat.add_assoc]

theorem ipc_read8_of_check (st s1 : Engine) (d a : Nat) (hchk : _ipc_check_overflow st = .ok s1) :
    ipc_read8 st d a = .ok { s1 with
      ipc_buffer := wr32 (wr8 s1.ipc_buffer s1.ipc_buffer_top MSG_READ8) (s1.ipc_buffer_top + 1) a
      ipc_buffer_top := s1.ipc_buffer_top + (1 + 4)
      ipc_dest_buffer := fun i => if i = s1.ipc_dest_buffer_top then d else s1.ipc_dest_buffer i
      ipc_dest_buffer_top := s1.ipc_dest_buffer_top + 1 } := by
  simp only [ipc_read8, hchk]

theorem ipc_write8_of_check (st s1 : Engine) (a v : Nat) (hchk : _ipc_check_overflow st = .ok s1) :
    ipc_write8 st a v = .ok { s1 with
      ipc_buffer := wr8 (wr32 (wr8 s1.ipc_buffer s1.ipc_buffer_top MSG_WRITE8)
        (s1.ipc_buffer_top + 1) a) (s1.ipc_buffer_top + 5) v
      ipc_buffer_top := s1.ipc_buffer_top + (1 + 4 + 1) } := by
  simp only [ipc_write8, hchk]

theorem ipc_write32_of_check (st s1 : Engine) (a v : Nat) (hchk : _ipc_check_overflow st = .ok s1) :
    ipc_write32 st a v = .ok { s1 with
      ipc_buffer := wr8 (wr32 (wr8 s1.ipc_buffer s1.ipc_buffer_top MSG_WRITE32)
        (s1.ipc_buffer_top + 1) a) (s1.ipc_buffer_top + 5) v
      ipc_buffer_top := s1.ipc_buffer_top + (1 + 4 + 4) } := by
  simp only [ipc_write32, hchk]

/-- The helper `_ipc_push32`, which no append calls, stores all four bytes of
its argument. -/
theorem ipc_push32_bytes (st : Engine) (v : Nat) :
    rdN (_ipc_push32 st v).ipc_buffer st.ipc_buffer_top 4 = le32 v ∧
      (_ipc_push32 st v).ipc_buffer_top = st.ipc_buffer_top + 4 :=
  ⟨rdN_wr32 _ _ _, rfl⟩

/-! ## C2: end-to-end 8-bit round trip -/

theorem request_holds (st : Engine) (cmds : List Cmd) (dests : List Nat) (hH : Holds st cmds dests) :
    request st = le32 st.ipc_buffer_top ++ encodeAll cmds := by
  unfold request
  rw [hH.top_eq, rdN_add, rdN_wr32, Nat.zero_add, rdN_header, hH.buf_eq]

theorem applyStores_append (mem : Bytes) : ∀ (a b : List Store),
    applyStores mem (a ++ b) = applyStores (applyStores mem a) b := by
  intro a
  induction a generalizing mem with
  | nil => intro b; rfl
  | cons s ss ih => intro b; simp [applyStores, ih]

theorem rdN_one (m : Bytes) (i : Nat) : rdN m i 1 = [rd8 m i] := rfl

theorem le32_decode (a : Nat) (ha : a < 2 ^ 32) :
    a % 256 + 256 * (a / 256 % 256) + 65536 * (a / 65536 % 256) +
      16777216 * (a / 16777216 % 256) = a := by
  norm_num at ha
  omega

/-- What the simulated remote answers to the request `Write8(a, v); Read8(a)`. -/
theorem remoteRespond_write8_read8 (rmem : Bytes) (a v : Nat) (ha : a < 2 ^ 32) (hv : v < 256) :
    remoteRespond rmem (requestWrite8Read8 a v) = [6, 0, 0, 0, 0, v] := by
  have hdec : decodeAll 15 ((requestWrite8Read8 a v).drop 4) = some [cmdWrite8 a v, cmdRead8 a] := by
    have h1 : a % 2 ^ 32 = a := Nat.mod_eq_of_lt ha
    simp only [requestWrite8Read8, le32, cmdWrite8, cmdRead8, Cmd.encode, MSG_WRITE8, MSG_READ8,
      h1, List.cons_append, List.nil_append, List.drop_succ_cons, List.drop_zero, decodeAll]
    simp [tagWidth, le32_decode a ha, List.take]
  have hlen : (requestWrite8Read8 a v).length = 15 := by
    simp [requestWrite8Read8, le32, Cmd.encode, cmdWrite8, cmdRead8]
  unfold remoteRespond
  rw [hlen, hdec]
  simp [remoteRun, cmdWrite8, cmdRead8, MSG_WRITE8, MSG_READ8, tagWidth, wrN, rdN_one,
    rd8_wr8_same, le32, IPC_OK, Nat.mod_eq_of_lt hv]

/-- C2 (end-to-end 8-bit round trip).  For every address `a` and byte `v`, the
simulated remote answers the request of the batch `ipc_begin; ipc_write8(a, v);
ipc_read8(&x, a); ipc_send` with status OK and the payload byte `v`; and when
that answer arrives whole, cut into reads in any way, the batch returns, has
sent exactly that request, has made the single store of `v` through `&x`, and
leaves `x == v` in the caller's memory. -/
theorem roundtrip_write8_read8 (rmem : Bytes) (a v x : Nat) (st : Engine) (conn : Conn)
    (rest : List Conn) (ha : a < 2 ^ 32) (hv : v < 256)
    (hnet : st.net = conn :: rest) (hc : conn.connectOk = true) (hw : conn.writeOk = true)
    (hne : ∀ s ∈ conn.reads, s ≠ [])
    (hflat : conn.reads.flatten = remoteRespond rmem (requestWrite8Read8 a v)) :
    remoteRespond rmem (requestWrite8Read8 a v) = [6, 0, 0, 0, IPC_OK, v] ∧
    ∃ st1, batchWrite8Read8 st a v x = .ok st1 ∧
      st1.sent = st.sent ++ [requestWrite8Read8 a v] ∧
      st1.stores = st.stores ++ [⟨x, [v]⟩] ∧
      ∀ mem, rd8 (applyStores mem st1.stores) x = v := by
  have hresp := remoteRespond_write8_read8 rmem a v ha hv
  refine ⟨hresp, ?_⟩
  rw [hresp] at hflat
  -- the two appends
  obtain ⟨s1, h1, hH1, hW1⟩ := ipc_write8_push (ipc_begin st) (ipc_begin st) [] [] a v
    (check_overflow_below _ (by simp [ipc_begin, MAX_IPC_SIZE])) (holds_begin st)
  have htop1 : s1.ipc_buffer_top < MAX_IPC_SIZE - 0x100 := by
    rw [hH1.top_eq]; simp [encodeAll, Cmd.encode, cmdWrite8, le32, MAX_IPC_SIZE]
  obtain ⟨s2, h2, hH2, hW2⟩ := ipc_read8_push s1 s1 _ _ x a (check_overflow_below _ htop1) hH1
  have hwf : ∀ c ∈ [cmdWrite8 a v, cmdRead8 a], c.WellFormed := by
    intro c hc
    simp only [List.mem_cons, List.mem_singleton, List.not_mem_nil, or_false] at hc
    rcases hc with rfl | rfl
    · exact cmdWrite8_wf a v
    · exact cmdRead8_wf a
  -- the receive phase
  have hnet2 : s2.net = conn :: rest := by rw [hW2.net_eq, hW1.net_eq]; exact hnet
  have hrecv : recv conn.reads s2.ipc_return_buffer =
      (wrN s2.ipc_return_buffer 0 [6, 0, 0, 0, 0, v], 6) := by
    have := recv_complete conn.reads s2.ipc_return_buffer 6 hne
      (by rw [hflat]; simp [rd32, wrN, rd8_wr8_same, rd8_wr8_ne])
      (by decide) (by decide) (by rw [hflat]; simp)
    rw [this, hflat]
    rfl
  have hstat : rd8 (recv conn.reads s2.ipc_return_buffer).1 4 ≠ IPC_FAIL := by
    rw [hrecv]
    simp [wrN, rd8_wr8_same, rd8_wr8_ne, IPC_FAIL]
  have hsend := ipc_send_holds s2 _ _ conn rest hwf hH2 hnet2 hc hw hstat
  have hstores : (sendResult s2 conn rest (readWidths [cmdWrite8 a v, cmdRead8 a])).stores =
      st.stores ++ [⟨x, [v]⟩] := by
    have hd : s2.ipc_dest_buffer 0 = x := by
      rw [hH2.dest_eq 0 (by simp)]; rfl
    simp only [sendResult, hrecv, hW2.stores_eq, hW1.stores_eq, readWidths, cmdWrite8, cmdRead8,
      MSG_WRITE8, MSG_READ8, walkStores, hd, tagWidth]
    simp [ipc_begin, rdN_one, wrN, rd8_wr8_same, rd8_wr8_ne, Nat.mod_eq_of_lt hv]
  refine ⟨_, ?_, ?_, hstores, ?_⟩
  · simp only [batchWrite8Read8, h1, h2, bind, Except.bind]
    exact hsend
  · have hreq := request_holds s2 _ _ hH2
    rw [hH2.top_eq] at hreq
    simp only [sendResult, hW2.sent_eq, hW1.sent_eq, hreq]
    simp [ipc_begin, requestWrite8Read8, encodeAll, Cmd.encode, cmdWrite8, cmdRead8, le32]
  · intro mem
    rw [hstores, applyStores_append]
    simp [applyStores, wrN, rd8_wr8_same, Nat.mod_eq_of_lt hv]

/-- The literal scenario of C2: `a = 0x1000`, `v = 0x7F`, the answer arriving in
two reads of three bytes; `x` is at address 77. -/
theorem roundtrip_write8_read8_witness :
    remoteRespond (fun _ => 0) (requestWrite8Read8 0x1000 0x7F) = [6, 0, 0, 0, IPC_OK, 0x7F] ∧
    ∃ st1, batchWrite8Read8 demoRoundtripState 0x1000 0x7F 77 = .ok st1 ∧
      st1.sent = demoRoundtripState.sent ++ [requestWrite8Read8 0x1000 0x7F] ∧
      st1.stores = demoRoundtripState.stores ++ [⟨77, [0x7F]⟩] ∧
      ∀ mem, rd8 (applyStores mem st1.stores) 77 = 0x7F :=
  roundtrip_write8_read8 (fun _ => 0) 0x1000 0x7F 77 demoRoundtripState
    ⟨true, true, [[6, 0, 0], [0, 0, 0x7F]]⟩ [] (by decide) (by decide) rfl rfl rfl
    (by decide) (by decide)

/-! ## `ipc_send` in full on a buffer that holds commands -/

/-- Whatever the outcome, `ipc_send` finalises the header and moves no cursor. -/
theorem ipc_send_final_buffer (st : Engine) :
    (final (ipc_send st)).ipc_buffer = wr32 st.ipc_buffer 0 st.ipc_buffer_top ∧
    (final (ipc_send st)).ipc_buffer_top = st.ipc_buffer_top ∧
    (final (ipc_send st)).ipc_dest_buffer = st.ipc_dest_buffer ∧
    (final (ipc_send st)).ipc_dest_buffer_top = st.ipc_dest_buffer_top ∧
    (final (ipc_send st)).net = st.net.tail := by
  unfold ipc_send
  simp only
  split_ifs
  · exact ⟨rfl, rfl, rfl, rfl, rfl⟩
  · exact ⟨rfl, rfl, rfl, rfl, rfl⟩
  · exact ⟨rfl, rfl, rfl, rfl, rfl⟩
  · split
    · exact ⟨rfl, rfl, rfl, rfl, rfl⟩
    · exact ⟨rfl, rfl, rfl, rfl, rfl⟩

/-- The outcome of `ipc_send` on a buffer that holds well-formed commands: the
three exits by the connection, the transmission and the status byte, and
otherwise the return after one store per Read command. -/
theorem ipc_send_of_holds (st : Engine) (cmds : List Cmd) (dests : List Nat)
    (hwf : ∀ c ∈ cmds, c.WellFormed) (hH : Holds st cmds dests) :
    ipc_send st =
      if (st.net.headD Conn.refused).connectOk = false then
        .error ⟨Fatal.connectFailed,
          { st with ipc_buffer := wr32 st.ipc_buffer 0 st.ipc_buffer_top, net := st.net.tail }⟩
      else if (st.net.headD Conn.refused).writeOk = false then
        .error ⟨Fatal.writeFailed,
          { st with ipc_buffer := wr32 st.ipc_buffer 0 st.ipc_buffer_top, net := st.net.tail,
                    sent := st.sent ++ [request st] }⟩
      else if rd8 (recv (st.net.headD Conn.refused).reads st.ipc_return_buffer).1 4 = IPC_FAIL then
        .error ⟨Fatal.remoteFail,
          { st with ipc_buffer := wr32 st.ipc_buffer 0 st.ipc_buffer_top, net := st.net.tail,
                    sent := st.sent ++ [request st],
                    ipc_return_buffer :=
                      (recv (st.net.headD Conn.refused).reads st.ipc_return_buffer).1 }⟩
      else .ok (sendResult st (st.net.headD Conn.refused) st.net.tail (readWidths cmds)) := by
  have hH4 : Holds { st with
      ipc_buffer := wr32 st.ipc_buffer 0 st.ipc_buffer_top
      net := st.net.tail
      sent := st.sent ++ [request st]
      ipc_return_buffer := (recv (st.net.headD Conn.refused).reads st.ipc_return_buffer).1 }
      cmds dests :=
    ⟨hH.top_eq, by simpa [rdN_header] using hH.buf_eq, hH.dest_top, hH.dest_eq⟩
  have hd := demux_holds _ cmds dests hwf hH4
  simp only [request] at hd
  unfold ipc_send
  simp only
  split_ifs
  · rfl
  · rfl
  · rfl
  · rw [hd]
    rfl

/-! ## The overflow guard and the appends on a batch under construction -/

theorem map_range_getD (dest : Nat → Nat) : ∀ (dests : List Nat),
    (∀ k, k < dests.length → dest k = dests.getD k 0) →
    (List.range dests.length).map dest = dests := by
  intro dests h
  apply List.ext_getElem
  · simp
  · intro n h1 h2
    simp only [List.length_map, List.length_range] at h1
    simp [h n h1, List.getD_eq_getElem?_getD, List.getElem?_eq_getElem h1]

theorem emittedBytes_holds (st : Engine) (cmds : List Cmd) (dests : List Nat)
    (hH : Holds st cmds dests) :
    emittedBytes st = (st.sent.map (fun r => r.drop 4)).flatten ++ encodeAll cmds := by
  unfold emittedBytes
  rw [hH.top_eq, Nat.add_sub_cancel_left, hH.buf_eq]

theorem emittedDests_holds (st : Engine) (cmds : List Cmd) (dests : List Nat)
    (hH : Holds st cmds dests) :
    emittedDests st = st.stores.map Store.ptr ++ dests := by
  unfold emittedDests
  rw [hH.dest_top, map_range_getD _ _ hH.dest_eq]

theorem walkStores_ptr (dest : Nat → Nat) (ret : Bytes) : ∀ (ws : List Nat) (k off : Nat),
    (walkStores dest ret ws k off).map Store.ptr = (List.range ws.length).map (fun i => dest (k + i)) := by
  intro ws k off
  rw [walkStores_eq_map, List.map_map]
  rfl

/-- The overflow guard on a batch under construction, when it returns: the
buffer is then below the threshold, and nothing emitted is lost or added. -/
theorem check_overflow_building (st s1 : Engine) (cmds : List Cmd) (dests : List Nat)
    (hB : Building st cmds dests) (hchk : _ipc_check_overflow st = .ok s1) :
    ∃ cmds1 dests1, Building s1 cmds1 dests1 ∧ s1.ipc_buffer_top < FLUSH_AT ∧
      emittedBytes s1 = emittedBytes st ∧ emittedDests s1 = emittedDests st := by
  by_cases hlt : st.ipc_buffer_top < MAX_IPC_SIZE - 0x100
  · rw [check_overflow_below st hlt] at hchk
    cases hchk
    exact ⟨cmds, dests, hB, hlt, rfl, rfl⟩
  · rw [check_overflow_above st (Nat.not_lt.1 hlt), ipc_send_of_holds st cmds dests hB.wf hB.holds]
      at hchk
    split_ifs at hchk
    simp only at hchk
    cases hchk
    refine ⟨[], [], ⟨holds_begin _, by simp, rfl, by simp [ipc_begin, FLUSH_AT]⟩,
      by simp [ipc_begin, FLUSH_AT, MAX_IPC_SIZE], ?_, ?_⟩
    · rw [emittedBytes_holds _ _ _ (holds_begin _), emittedBytes_holds _ _ _ hB.holds]
      simp [ipc_begin, sendResult, encodeAll, request_holds st cmds dests hB.holds, le32]
    · rw [emittedDests_holds _ _ _ (holds_begin _), emittedDests_holds _ _ _ hB.holds]
      simp only [ipc_begin, sendResult, List.map_append, walkStores_ptr, List.append_nil,
        ← hB.count, Nat.zero_add]
      rw [map_range_getD _ _ hB.holds.dest_eq]

theorem push_building (s1 st1 : Engine) (cmds1 : List Cmd) (dests1 : List Nat) (c : Cmd)
    (ds : List Nat) (hB : Building s1 cmds1 dests1) (hlt : s1.ipc_buffer_top < FLUSH_AT)
    (hH : Holds st1 (cmds1 ++ [c]) (dests1 ++ ds)) (hW : SameWorld s1 st1)
    (hc : c.WellFormed) (hp : c.payload.length ≤ 4) (hds : ds.length = (readWidths [c]).length) :
    Building st1 (cmds1 ++ [c]) (dests1 ++ ds) ∧
      emittedBytes st1 = emittedBytes s1 ++ c.encode ∧
      emittedDests st1 = emittedDests s1 ++ ds := by
  refine ⟨⟨hH, ?_, ?_, ?_⟩, ?_, ?_⟩
  · intro x hx
    rcases List.mem_append.1 hx with h | h
    · exact hB.wf x h
    · rw [List.mem_singleton.1 h]; exact hc
  · rw [readWidths_append, List.length_append, List.length_append, hB.count, hds]
  · have h1 := hH.top_eq
    have h2 := hB.holds.top_eq
    rw [encodeAll_append, List.length_append] at h1
    simp only [encodeAll, List.append_nil, encode_length] at h1
    omega
  · rw [emittedBytes_holds _ _ _ hH, emittedBytes_holds _ _ _ hB.holds, hW.sent_eq,
      encodeAll_append]
    simp [encodeAll]
  · rw [emittedDests_holds _ _ _ hH, emittedDests_holds _ _ _ hB.holds, hW.stores_eq]
    simp

/-- The function `ipc_read8` on a batch under construction. -/
theorem ipc_read8_building (st st1 : Engine) (cmds : List Cmd) (dests : List Nat) (d a : Nat)
    (hB : Building st cmds dests) (h : ipc_read8 st d a = .ok st1) :
    ∃ cmds1 dests1, Building st1 cmds1 dests1 ∧
      emittedBytes st1 = emittedBytes st ++ (cmdRead8 a).encode ∧
      emittedDests st1 = emittedDests st ++ [d] := by
  cases hchk : _ipc_check_overflow st with
  | error e => simp [ipc_read8, hchk] at h
  | ok s1 =>
    obtain ⟨cmds1, dests1, hB1, hlt, hb, hd⟩ := check_overflow_building st s1 cmds dests hB hchk
    obtain ⟨s2, h2, hH2, hW2⟩ := ipc_read8_push st s1 cmds1 dests1 d a hchk hB1.holds
    rw [h2] at h
    cases h
    obtain ⟨hB2, hb2, hd2⟩ := push_building s1 _ cmds1 dests1 _ [d] hB1 hlt hH2 hW2
      (cmdRead8_wf a) (by simp [cmdRead8]) (by simp [readWidths, cmdRead8, MSG_READ8])
    exact ⟨_, _, hB2, by rw [hb2, hb], by rw [hd2, hd]⟩

/-- The function `ipc_write8` on a batch under construction. -/
theorem ipc_write8_building (st st1 : Engine) (cmds : List Cmd) (dests : List Nat) (a v : Nat)
    (hB : Building st cmds dests) (h : ipc_write8 st a v = .ok st1) :
    ∃ cmds1 dests1, Building st1 cmds1 dests1 ∧
      emittedBytes st1 = emittedBytes st ++ (cmdWrite8 a v).encode ∧
      emittedDests st1 = emittedDests st := by
  cases hchk : _ipc_check_overflow st with
  | error e => simp [ipc_write8, hchk] at h
  | ok s1 =>
    obtain ⟨cmds1, dests1, hB1, hlt, hb, hd⟩ := check_overflow_building st s1 cmds dests hB hchk
    obtain ⟨s2, h2, hH2, hW2⟩ := ipc_write8_push st s1 cmds1 dests1 a v hchk hB1.holds
    rw [h2] at h
    cases h
    obtain ⟨hB2, hb2, hd2⟩ := push_building s1 _ cmds1 dests1 _ [] hB1 hlt
      (by simpa using hH2) hW2
      (cmdWrite8_wf a v) (by simp [cmdWrite8]) (by simp [readWidths, cmdWrite8, MSG_WRITE8])
    exact ⟨_, _, hB2, by rw [hb2, hb], by rw [hd2, hd]; simp⟩

/-- The function `ipc_write32` on a batch under construction: the command it
leaves in the buffer has the low byte of the value as first payload byte and
three bytes it did not store. -/
theorem ipc_write32_building (st st1 : Engine) (cmds : List Cmd) (dests : List Nat) (a v : Nat)
    (hB : Building st cmds dests) (h : ipc_write32 st a v = .ok st1) :
    ∃ cmds1 dests1 stale, stale.length = 3 ∧ Building st1 cmds1 dests1 ∧
      emittedBytes st1 = emittedBytes st ++ (cmdWrite32Stale a v stale).encode ∧
      emittedDests st1 = emittedDests st := by
  cases hchk : _ipc_check_overflow st with
  | error e => simp [ipc_write32, hchk] at h
  | ok s1 =>
    obtain ⟨cmds1, dests1, hB1, hlt, hb, hd⟩ := check_overflow_building st s1 cmds dests hB hchk
    obtain ⟨s2, h2, hH2, hW2⟩ := ipc_write32_push st s1 cmds1 dests1 a v hchk hB1.holds
    rw [h2] at h
    cases h
    obtain ⟨hB2, hb2, hd2⟩ := push_building s1 _ cmds1 dests1 _ [] hB1 hlt
      (by simpa using hH2) hW2
      (cmdWrite32Stale_wf a v _ (rdN_length _ _ _)) (by simp [cmdWrite32Stale, rdN_length])
      (by simp [readWidths, cmdWrite32Stale, MSG_WRITE32])
    exact ⟨_, _, _, rdN_length _ _ 3, hB2, by rw [hb2, hb], by rw [hd2, hd]; simp⟩

/-- A counted loop of appends on a batch under construction. -/
theorem forLoop_building (body : Engine → Nat → Except Halt Engine) (c : Nat → Cmd)
    (ds : Nat → List Nat)
    (hbody : ∀ (st st1 : Engine) (cmds : List Cmd) (dests : List Nat) (i : Nat),
      Building st cmds dests → body st i = .ok st1 →
      ∃ cmds1 dests1, Building st1 cmds1 dests1 ∧
        emittedBytes st1 = emittedBytes st ++ (c i).encode ∧
        emittedDests st1 = emittedDests st ++ ds i) :
    ∀ (n i : Nat) (st st1 : Engine) (cmds : List Cmd) (dests : List Nat),
      Building st cmds dests → forLoop body n i st = .ok st1 →
      ∃ cmds1 dests1, Building st1 cmds1 dests1 ∧
        emittedBytes st1 = emittedBytes st ++ encodeAll ((List.range n).map (fun k => c (i + k))) ∧
        emittedDests st1 = emittedDests st ++ ((List.range n).map (fun k => ds (i + k))).flatten := by
  intro n
  induction n with
  | zero =>
    intro i st st1 cmds dests hB h
    simp only [forLoop] at h
    cases h
    exact ⟨cmds, dests, hB, by simp [encodeAll], by simp⟩
  | succ n ih =>
    intro i st st1 cmds dests hB h
    rw [forLoop] at h
    cases hb : body st i with
    | error e => simp [hb] at h
    | ok s1 =>
      simp only [hb] at h
      obtain ⟨cmds1, dests1, hB1, he1, hd1⟩ := hbody st s1 cmds dests i hB hb
      obtain ⟨cmds2, dests2, hB2, he2, hd2⟩ := ih (i + 1) s1 st1 cmds1 dests1 hB1 h
      have hc : (fun k => c (i + 1 + k)) = (fun k => c (i + k)) ∘ Nat.succ := by
        funext k
        simp [Nat.add_assoc, Nat.add_comm 1]
      have hds : (fun k => ds (i + 1 + k)) = (fun k => ds (i + k)) ∘ Nat.succ := by
        funext k
        simp [Nat.add_assoc, Nat.add_comm 1]
      refine ⟨cmds2, dests2, hB2, ?_, ?_⟩
      · rw [he2, he1, List.range_succ_eq_map, List.map_cons, List.map_map, encodeAll, hc,
          List.append_assoc]
        rfl
      · rw [hd2, hd1, List.range_succ_eq_map, List.map_cons, List.map_map, List.flatten_cons, hds,
          List.append_assoc]
        rfl

theorem flatten_map_singleton (f : Nat → Nat) : ∀ (l : List Nat),
    (l.map (fun k => [f k])).flatten = l.map f := by
  intro l
  induction l with
  | nil => rfl
  | cons x xs ih => simp [ih]

theorem cmdRead8_mod (a : Nat) : cmdRead8 (a % 2 ^ 32) = cmdRead8 a := by
  simp [cmdRead8]

theorem cmdWrite8_mod (a v : Nat) : cmdWrite8 (a % 2 ^ 32) v = cmdWrite8 a v := by
  simp [cmdWrite8]

theorem forLoop_succ_ok (body : Engine → Nat → Except Halt Engine) (k i : Nat) (st s1 : Engine)
    (hb : body st i = .ok s1) : forLoop body (k + 1) i st = forLoop body k (i + 1) s1 := by
  rw [forLoop]
  simp only [hb]

/-- A counted loop of appends on a batch under construction, when the command
an iteration appends depends on the state the iteration starts in: the `k`-th
command is the one appended from the state the first `k` iterations end in. -/
theorem forLoop_building_dep (body : Engine → Nat → Except Halt Engine) (c : Engine → Nat → Cmd)
    (ds : Nat → List Nat)
    (hbody : ∀ (st st1 : Engine) (cmds : List Cmd) (dests : List Nat) (i : Nat),
      Building st cmds dests → body st i = .ok st1 →
      ∃ cmds1 dests1, Building st1 cmds1 dests1 ∧
        emittedBytes st1 = emittedBytes st ++ (c st i).encode ∧
        emittedDests st1 = emittedDests st ++ ds i) :
    ∀ (n i : Nat) (st st1 : Engine) (cmds : List Cmd) (dests : List Nat),
      Building st cmds dests → forLoop body n i st = .ok st1 →
      ∃ cmds1 dests1, Building st1 cmds1 dests1 ∧
        emittedBytes st1 = emittedBytes st ++
          encodeAll ((List.range n).map (fun k => c (final (forLoop body k i st)) (i + k))) ∧
        emittedDests st1 = emittedDests st ++ ((List.range n).map (fun k => ds (i + k))).flatten := by
  intro n
  induction n with
  | zero =>
    intro i st st1 cmds dests hB h
    simp only [forLoop] at h
    cases h
    exact ⟨cmds, dests, hB, by simp [encodeAll], by simp⟩
  | succ n ih =>
    intro i st st1 cmds dests hB h
    rw [forLoop] at h
    cases hb : body st i with
    | error e => simp [hb] at h
    | ok s1 =>
      simp only [hb] at h
      obtain ⟨cmds1, dests1, hB1, he1, hd1⟩ := hbody st s1 cmds dests i hB hb
      obtain ⟨cmds2, dests2, hB2, he2, hd2⟩ := ih (i + 1) s1 st1 cmds1 dests1 hB1 h
      have hc : (fun k => c (final (forLoop body k (i + 1) s1)) (i + 1 + k)) =
          (fun k => c (final (forLoop body k i st)) (i + k)) ∘ Nat.succ := by
        funext k
        simp only [Function.comp, Nat.succ_eq_add_one, forLoop_succ_ok body k i st s1 hb]
        rw [Nat.add_assoc, Nat.add_comm 1]
      have hds : (fun k => ds (i + 1 + k)) = (fun k => ds (i + k)) ∘ Nat.succ := by
        funext k
        simp [Nat.add_assoc, Nat.add_comm 1]
      refine ⟨cmds2, dests2, hB2, ?_, ?_⟩
      · rw [he2, he1, List.range_succ_eq_map, List.map_cons, List.map_map, encodeAll, hc,
          List.append_assoc]
        rfl
      · rw [hd2, hd1, List.range_succ_eq_map, List.map_cons, List.map_map, List.flatten_cons, hds,
          List.append_assoc]
        rfl

/-- The function `ipc_write` on a batch under construction: the `i`-th command
it emits is a Write8 to `dest + i` that carries the byte iteration `i` loaded
from the source array. -/
theorem ipc_write_building (st st1 : Engine) (cmds : List Cmd) (dests : List Nat)
    (a : Nat) (mem : Bytes) (src n : Nat)
    (hB : Building st cmds dests) (h : ipc_write st a mem src n = .ok st1) :
    ∃ cmds1 dests1, Building st1 cmds1 dests1 ∧
      emittedBytes st1 = emittedBytes st ++
        encodeAll ((List.range n).map
          (fun i => cmdWrite8 (a + i) (ipc_write_loaded st a mem src i))) ∧
      emittedDests st1 = emittedDests st := by
  obtain ⟨cmds1, dests1, hB1, he, hd⟩ := forLoop_building_dep _
    (fun s i => cmdWrite8 (a + i)
      (rd8 (applyStores mem (s.stores.drop st.stores.length)) (src + i)))
    (fun _ => [])
    (fun s s1 cmds dests i hB h => by
      have := ipc_write8_building s s1 cmds dests ((a + i) % 2 ^ 32) _ hB h
      rw [cmdWrite8_mod] at this
      simpa using this)
    n 0 st st1 cmds dests hB h
  refine ⟨cmds1, dests1, hB1, ?_, by simpa using hd⟩
  simpa [ipc_write_loaded, ipc_write] using he

/-- Every append operation on a batch under construction, when it returns,
leaves a batch under construction and adds to what has been emitted exactly
its own commands and destinations. -/
theorem apply_building (op : Op) (st st1 : Engine) (cmds : List Cmd) (dests : List Nat)
    (hB : Building st cmds dests) (h : op.apply st = .ok st1) :
    ∃ cmds1 dests1 cs ds, Building st1 cmds1 dests1 ∧ op.Emits cs ds ∧
      emittedBytes st1 = emittedBytes st ++ encodeAll cs ∧
      emittedDests st1 = emittedDests st ++ ds := by
  cases op with
  | read8 d a =>
    obtain ⟨cmds1, dests1, hB1, he, hd⟩ := ipc_read8_building st st1 cmds dests d a hB h
    exact ⟨cmds1, dests1, _, _, hB1, ⟨rfl, rfl⟩, by simpa [encodeAll] using he, hd⟩
  | write8 a v =>
    obtain ⟨cmds1, dests1, hB1, he, hd⟩ := ipc_write8_building st st1 cmds dests a v hB h
    exact ⟨cmds1, dests1, _, _, hB1, ⟨rfl, rfl⟩, by simpa [encodeAll] using he, by simpa using hd⟩
  | write32 a v =>
    obtain ⟨cmds1, dests1, stale, hs, hB1, he, hd⟩ :=
      ipc_write32_building st st1 cmds dests a v hB h
    exact ⟨cmds1, dests1, _, _, hB1, ⟨⟨stale, hs, rfl⟩, rfl⟩, by simpa [encodeAll] using he,
      by simpa using hd⟩
  | read d s n =>
    obtain ⟨cmds1, dests1, hB1, he, hd⟩ := forLoop_building _ (fun i => cmdRead8 (s + i))
      (fun i => [d + i])
      (fun st st1 cmds dests i hB h => by
        have := ipc_read8_building st st1 cmds dests (d + i) ((s + i) % 2 ^ 32) hB h
        rw [cmdRead8_mod] at this
        exact this)
      n 0 st st1 cmds dests hB h
    refine ⟨cmds1, dests1, _, _, hB1, ⟨rfl, rfl⟩, by simpa using he, ?_⟩
    rw [hd]
    simp [flatten_map_singleton]
  | write a mem src n =>
    obtain ⟨cmds1, dests1, hB1, he, hd⟩ := ipc_write_building st st1 cmds dests a mem src n hB h
    exact ⟨cmds1, dests1, _, _, hB1, ⟨⟨_, rfl⟩, rfl⟩, he, by simpa using hd⟩
  | memset a v n =>
    obtain ⟨cmds1, dests1, hB1, he, hd⟩ := forLoop_building _ (fun i => cmdWrite8 (a + i) v)
      (fun _ => [])
      (fun st st1 cmds dests i hB h => by
        have := ipc_write8_building st st1 cmds dests ((a + i) % 2 ^ 32) v hB h
        rw [cmdWrite8_mod] at this
        simpa using this)
      n 0 st st1 cmds dests hB h
    refine ⟨cmds1, dests1, _, _, hB1, ⟨rfl, rfl⟩, by simpa using he, ?_⟩
    rw [hd]
    simp

/-- A sequence of append operations on a batch under construction. -/
theorem run_building : ∀ (ops : List Op) (st st1 : Engine) (cmds : List Cmd) (dests : List Nat),
    Building st cmds dests → run ops st = .ok st1 →
    ∃ cmds1 dests1 cs ds, Building st1 cmds1 dests1 ∧ RunEmits ops cs ds ∧
      emittedBytes st1 = emittedBytes st ++ encodeAll cs ∧
      emittedDests st1 = emittedDests st ++ ds := by
  intro ops
  induction ops with
  | nil =>
    intro st st1 cmds dests hB h
    simp only [run] at h
    cases h
    exact ⟨cmds, dests, [], [], hB, ⟨rfl, rfl⟩, by simp [encodeAll], by simp⟩
  | cons op ops ih =>
    intro st st1 cmds dests hB h
    rw [run] at h
    cases ha : op.apply st with
    | error e => simp [ha] at h
    | ok s1 =>
      simp only [ha] at h
      obtain ⟨cmds1, dests1, c1, d1, hB1, hE1, hb1, hd1⟩ := apply_building op st s1 cmds dests hB ha
      obtain ⟨cmds2, dests2, c2, d2, hB2, hE2, hb2, hd2⟩ := ih s1 st1 cmds1 dests1 hB1 h
      exact ⟨cmds2, dests2, c1 ++ c2, d1 ++ d2, hB2, ⟨c1, d1, c2, d2, hE1, hE2, rfl, rfl⟩,
        by rw [hb2, hb1, encodeAll_append, List.append_assoc],
        by rw [hd2, hd1, List.append_assoc]⟩

theorem building_begin (st : Engine) : Building (ipc_begin st) [] [] :=
  ⟨holds_begin st, by simp, rfl, by simp [ipc_begin, FLUSH_AT]⟩

/-- The decoder reads back what `encodeAll` wrote. -/
theorem decodeAll_encodeAll : ∀ (cmds : List Cmd) (fuel : Nat),
    (∀ c ∈ cmds, c.WellFormed) → cmds.length ≤ fuel →
    decodeAll fuel (encodeAll cmds) = some cmds := by
  intro cmds
  induction cmds with
  | nil => intro fuel _ _; cases fuel <;> rfl
  | cons c cs ih =>
    intro fuel hwf hfuel
    obtain ⟨f, rfl⟩ : ∃ f, fuel = f + 1 := ⟨fuel - 1, by simp at hfuel; omega⟩
    obtain ⟨htag, haddr, hpay⟩ := hwf c (List.mem_cons_self _ _)
    have hwfs : ∀ c ∈ cs, c.WellFormed := fun x hx => hwf x (List.mem_cons_of_mem _ hx)
    have hih := ih f hwfs (by simpa using hfuel)
    obtain ⟨tag, addr, payload⟩ := c
    simp only at htag haddr hpay
    have henc : encodeAll (⟨tag, addr, payload⟩ :: cs) =
        tag :: (addr % 256) :: (addr / 256 % 256) :: (addr / 65536 % 256) ::
          (addr / 16777216 % 256) :: (payload ++ encodeAll cs) := by
      simp [encodeAll, Cmd.encode, le32]
    rw [henc, decodeAll]
    simp only [le32_decode addr haddr]
    by_cases hr : tag < 4
    · simp only [hr, if_true] at hpay ⊢
      rw [List.length_eq_zero.1 hpay, List.nil_append, hih]
      rfl
    · simp only [hr, if_false] at hpay ⊢
      simp only [htag, if_true, List.length_append, ← hpay]
      rw [if_neg (by omega), List.drop_left, List.take_left, hih]
      rfl

/-! ## C3: width fidelity of the write encoding -/

/-- C3 (width fidelity), evaluated at the failing input `ipc_begin;
ipc_write32(0x1000, 0x12345678)` on zeroed buffers.  The command left in the
buffer is `06 00 10 00 00 78 00 00 00` and the cursor advances by 9: of the four
payload bytes only the low byte of the value is stored, where the protocol's
Write32 command carries `78 56 34 12`.  A remote that stores this payload and
is read back over four bytes returns `78 00 00 00`. -/
theorem ipc_write32_payload_truncated :
    rdN (final (ipc_write32 (ipc_begin demoIdle) 0x1000 0x12345678)).ipc_buffer 4 9 =
      [6, 0, 0x10, 0, 0, 0x78, 0, 0, 0] ∧
    (final (ipc_write32 (ipc_begin demoIdle) 0x1000 0x12345678)).ipc_buffer_top = 4 + 9 ∧
    (cmdWrite32 0x1000 0x12345678).encode = [6, 0, 0x10, 0, 0, 0x78, 0x56, 0x34, 0x12] ∧
    decodeAll 9 (rdN (final (ipc_write32 (ipc_begin demoIdle) 0x1000 0x12345678)).ipc_buffer 4 9) =
      some [⟨MSG_WRITE32, 0x1000, [0x78, 0, 0, 0]⟩] ∧
    (remoteRun (fun _ => 0) [⟨MSG_WRITE32, 0x1000, [0x78, 0, 0, 0]⟩, ⟨MSG_READ32, 0x1000, []⟩]).1 =
      [0x78, 0, 0, 0] := by
  decide

/-! ## C4: count invariant of the encoder -/

theorem length_le_encodeAll : ∀ (cmds : List Cmd), cmds.length ≤ (encodeAll cmds).length := by
  intro cmds
  induction cmds with
  | nil => simp [encodeAll]
  | cons c cs ih => simp [encodeAll, encode_length]; omega

theorem filter_isRead_length : ∀ (cmds : List Cmd),
    (cmds.filter Cmd.isRead).length = (readWidths cmds).length := by
  intro cmds
  induction cmds with
  | nil => rfl
  | cons c cs ih =>
    by_cases h : c.tag < 4 <;> simp [List.filter_cons, Cmd.isRead, readWidths, h, ih]

/-- A batch under construction decodes to its commands, and has one recorded
destination per Read command. -/
theorem building_decode (st : Engine) (cmds : List Cmd) (dests : List Nat)
    (hB : Building st cmds dests) :
    decodeAll (st.ipc_buffer_top - 4) (rdN st.ipc_buffer 4 (st.ipc_buffer_top - 4)) = some cmds ∧
      st.ipc_dest_buffer_top = (cmds.filter Cmd.isRead).length := by
  have htop : st.ipc_buffer_top - 4 = (encodeAll cmds).length := by
    rw [hB.holds.top_eq]; simp
  rw [htop, hB.holds.buf_eq, decodeAll_encodeAll cmds _ hB.wf (length_le_encodeAll cmds),
    hB.holds.dest_top, hB.count, filter_isRead_length]
  exact ⟨rfl, rfl⟩

/-- C4 (count invariant).  In every state reached from `ipc_begin` by a finite
sequence of append operations (`ipc_read8`, `ipc_write8`, `ipc_write32`,
`ipc_read`, `ipc_write`, `ipc_memset`), with or without automatic flushes on
the way, the bytes between offset 4 and the write cursor decode to a sequence
of commands, and the number of entries of the destination list is the number
of Read commands among them. -/
theorem count_invariant (st0 : Engine) (ops : List Op) (st : Engine)
    (h : run ops (ipc_begin st0) = .ok st) :
    ∃ cmds, decodeAll (st.ipc_buffer_top - 4) (rdN st.ipc_buffer 4 (st.ipc_buffer_top - 4)) =
        some cmds ∧
      st.ipc_dest_buffer_top = (cmds.filter Cmd.isRead).length := by
  obtain ⟨cmds, dests, _, _, hB, _, _, _⟩ := run_building ops _ st [] [] (building_begin st0) h
  exact ⟨cmds, building_decode st cmds dests hB⟩

/-- Instance of `count_invariant` on a short sequence of appends. -/
theorem count_invariant_witness :
    ∃ cmds, decodeAll ((final (run demoOps (ipc_begin demoIdle))).ipc_buffer_top - 4)
        (rdN (final (run demoOps (ipc_begin demoIdle))).ipc_buffer 4
          ((final (run demoOps (ipc_begin demoIdle))).ipc_buffer_top - 4)) = some cmds ∧
      (final (run demoOps (ipc_begin demoIdle))).ipc_dest_buffer_top =
        (cmds.filter Cmd.isRead).length :=
  count_invariant demoIdle demoOps (final (run demoOps (ipc_begin demoIdle))) rfl

/-! ## C5: read serialisation -/

/-- The log of requests after `ipc_send`, in every outcome: one more request
when the connection is made, none otherwise. -/
theorem ipc_send_final_sent (st : Engine) :
    (final (ipc_send st)).sent =
      if (st.net.headD Conn.refused).connectOk = true then st.sent ++ [request st] else st.sent := by
  unfold ipc_send
  simp only
  split_ifs with h1 h2 h3 h4 h5
  all_goals first
    | rfl
    | (simp_all; done)
    | (split <;> rfl)

/-- What `ipc_read32` does once the overflow guard has returned. -/
theorem ipc_read32_push (st s1 : Engine) (cmds : List Cmd) (dests : List Nat) (d a : Nat)
    (hchk : _ipc_check_overflow st = .ok s1) (hH : Holds s1 cmds dests) :
    ∃ st1, ipc_read32 st d a = .ok st1 ∧ Holds st1 (cmds ++ [cmdRead32 a]) (dests ++ [d]) ∧
      SameWorld s1 st1 := by
  have hres : ipc_read32 st d a = .ok { s1 with
      ipc_buffer := wr32 (wr8 s1.ipc_buffer s1.ipc_buffer_top MSG_READ32) (s1.ipc_buffer_top + 1) a
      ipc_buffer_top := s1.ipc_buffer_top + (1 + 4)
      ipc_dest_buffer := fun i => if i = s1.ipc_dest_buffer_top then d else s1.ipc_dest_buffer i
      ipc_dest_buffer_top := s1.ipc_dest_buffer_top + 1 } := by
    simp only [ipc_read32, hchk]
  refine ⟨_, hres, ?_, ⟨rfl, rfl, rfl, rfl⟩⟩
  have htop := hH.top_eq
  refine ⟨?_, ?_, ?_, ?_⟩
  · simp only [encodeAll_append, List.length_append, encodeAll, encode_length, cmdRead32, htop]
    simp; omega
  · apply buf_push _ _ _ _ hH.buf_eq
    · intro j h1 h2
      rw [rd8_wr32_ne _ _ _ _ (Or.inl (by omega)), rd8_wr8_ne _ _ _ _ (by omega)]
    · rw [← htop]
      show rdN _ _ (4 + 1) = _
      rw [rdN_succ_left, rdN_wr32, rd8_wr32_ne _ _ _ _ (Or.inl (by omega)), rd8_wr8_same]
      simp [Cmd.encode, cmdRead32, le32_mod_lit, MSG_READ32]
  · simp [hH.dest_top]
  · exact dest_push _ _ _ _ hH.dest_top hH.dest_eq

/-- The finalised buffer of a batch that holds one command. -/
theorem single_command_request (s2 : Engine) (c : Cmd) (dests : List Nat)
    (hH : Holds s2 [c] dests) :
    rdN (final (ipc_send s2)).ipc_buffer 0 (final (ipc_send s2)).ipc_buffer_top =
        le32 (4 + c.encode.length) ++ c.encode ∧
      (final (ipc_send s2)).ipc_buffer_top = 4 + c.encode.length ∧
      request s2 = le32 (4 + c.encode.length) ++ c.encode := by
  obtain ⟨hb, ht, _, _, _⟩ := ipc_send_final_buffer s2
  have hreq := request_holds s2 _ _ hH
  have htop := hH.top_eq
  simp only [encodeAll, List.append_nil] at hreq htop
  rw [hb, ht]
  exact ⟨by rw [← htop]; simpa [request, htop] using hreq, htop, by rw [hreq, htop]⟩

/-- C5 (read serialisation).  For every address `A`, the finalised request
buffer of the batch holding a single Read32 at `A` is 9 bytes long and reads
`09 00 00 00`, the tag byte 2, then the four bytes of `A`, least significant
first; it is the request handed to `write` when the connection is made.  For
`A = 0x00200000` this is `09 00 00 00 02 00 00 20 00`.  The batch holding a
single `ipc_read8` gives the same layout with tag 0. -/
theorem read32_serialisation (st : Engine) (x A : Nat) :
    (rdN (final (batchRead32 st x A)).ipc_buffer 0 (final (batchRead32 st x A)).ipc_buffer_top =
        [9, 0, 0, 0, 2] ++ le32 A ∧
      (final (batchRead32 st x A)).ipc_buffer_top = 9 ∧
      ((st.net.headD Conn.refused).connectOk = true →
        (final (batchRead32 st x A)).sent = st.sent ++ [[9, 0, 0, 0, 2] ++ le32 A])) ∧
    rdN (final (batchRead32 st x 0x00200000)).ipc_buffer 0 9 =
      [0x09, 0x00, 0x00, 0x00, 0x02, 0x00, 0x00, 0x20, 0x00] ∧
    (rdN (final (batchRead8 st x A)).ipc_buffer 0 (final (batchRead8 st x A)).ipc_buffer_top =
        [9, 0, 0, 0, 0] ++ le32 A ∧
      (final (batchRead8 st x A)).ipc_buffer_top = 9 ∧
      ((st.net.headD Conn.refused).connectOk = true →
        (final (batchRead8 st x A)).sent = st.sent ++ [[9, 0, 0, 0, 0] ++ le32 A])) := by
  have hchk := check_overflow_below (ipc_begin st) (by simp [ipc_begin, MAX_IPC_SIZE])
  have key32 : ∀ a, rdN (final (batchRead32 st x a)).ipc_buffer 0
        (final (batchRead32 st x a)).ipc_buffer_top = [9, 0, 0, 0, 2] ++ le32 a ∧
      (final (batchRead32 st x a)).ipc_buffer_top = 9 ∧
      ((st.net.headD Conn.refused).connectOk = true →
        (final (batchRead32 st x a)).sent = st.sent ++ [[9, 0, 0, 0, 2] ++ le32 a]) := by
    intro a
    obtain ⟨s2, h2, hH2, hW2⟩ := ipc_read32_push (ipc_begin st) (ipc_begin st) [] [] x a hchk
      (holds_begin st)
    obtain ⟨hbuf, htop, hreq⟩ := single_command_request s2 _ _ hH2
    have hrun : batchRead32 st x a = ipc_send s2 := by
      simp only [batchRead32, h2, bind, Except.bind]
    have henc : le32 (4 + (cmdRead32 a).encode.length) ++ (cmdRead32 a).encode =
        [9, 0, 0, 0, 2] ++ le32 a := by
      have he : (cmdRead32 a).encode = 2 :: le32 a := by
        simp only [Cmd.encode, cmdRead32, MSG_READ32, le32_mod, List.append_nil]
      rw [he, List.length_cons, show (le32 _).length = 4 from rfl]
      rfl
    rw [hrun, hbuf, htop, henc]
    refine ⟨rfl, by simp [Cmd.encode, cmdRead32, le32], ?_⟩
    intro hc
    have hnet : s2.net = st.net := by rw [hW2.net_eq]; rfl
    have hsent : s2.sent = st.sent := by rw [hW2.sent_eq]; rfl
    rw [ipc_send_final_sent, hnet, if_pos hc, hreq, henc, hsent]
  have key8 : rdN (final (batchRead8 st x A)).ipc_buffer 0
        (final (batchRead8 st x A)).ipc_buffer_top = [9, 0, 0, 0, 0] ++ le32 A ∧
      (final (batchRead8 st x A)).ipc_buffer_top = 9 ∧
      ((st.net.headD Conn.refused).connectOk = true →
        (final (batchRead8 st x A)).sent = st.sent ++ [[9, 0, 0, 0, 0] ++ le32 A]) := by
    obtain ⟨s2, h2, hH2, hW2⟩ := ipc_read8_push (ipc_begin st) (ipc_begin st) [] [] x A hchk
      (holds_begin st)
    obtain ⟨hbuf, htop, hreq⟩ := single_command_request s2 _ _ hH2
    have hrun : batchRead8 st x A = ipc_send s2 := by
      simp only [batchRead8, h2, bind, Except.bind]
    have henc : le32 (4 + (cmdRead8 A).encode.length) ++ (cmdRead8 A).encode =
        [9, 0, 0, 0, 0] ++ le32 A := by
      have he : (cmdRead8 A).encode = 0 :: le32 A := by
        simp only [Cmd.encode, cmdRead8, MSG_READ8, le32_mod, List.append_nil]
      rw [he, List.length_cons, show (le32 _).length = 4 from rfl]
      rfl
    rw [hrun, hbuf, htop, henc]
    refine ⟨rfl, by simp [Cmd.encode, cmdRead8, le32], ?_⟩
    intro hc
    have hnet : s2.net = st.net := by rw [hW2.net_eq]; rfl
    have hsent : s2.sent = st.sent := by rw [hW2.sent_eq]; rfl
    rw [ipc_send_final_sent, hnet, if_pos hc, hreq, henc, hsent]
  refine ⟨key32 A, ?_, key8⟩
  have h := key32 0x00200000
  rw [h.2.1] at h
  rw [h.1]
  rfl

/-! ## C6: header finalisation -/

theorem encodeAll_map_length (f : Nat → Cmd) (k : Nat) (hf : ∀ i, (f i).encode.length = k) :
    ∀ (l : List Nat), (encodeAll (l.map f)).length = l.length * k := by
  intro l
  induction l with
  | nil => simp [encodeAll]
  | cons x xs ih =>
    simp only [List.map_cons, encodeAll, List.length_append, hf, ih, List.length_cons]
    rw [Nat.add_mul, Nat.one_mul, Nat.add_comm]

theorem emits_length (op : Op) (cs : List Cmd) (ds : List Nat) (h : op.Emits cs ds) :
    (encodeAll cs).length = op.bytes := by
  cases op with
  | read8 d a => obtain ⟨rfl, _⟩ := h; rfl
  | write8 a v => obtain ⟨rfl, _⟩ := h; rfl
  | write32 a v =>
    obtain ⟨⟨stale, hs, rfl⟩, _⟩ := h
    simp [encodeAll, Cmd.encode, cmdWrite32Stale, le32, hs, Op.bytes]
  | read d s n =>
    obtain ⟨rfl, _⟩ := h
    rw [encodeAll_map_length (fun i => cmdRead8 (s + i)) 5 (fun i => rfl)]
    simp [Op.bytes]
  | write a mem src n =>
    obtain ⟨⟨vals, rfl⟩, _⟩ := h
    rw [encodeAll_map_length (fun i => cmdWrite8 (a + i) (vals i)) 6 (fun i => rfl)]
    simp [Op.bytes]
  | memset a v n =>
    obtain ⟨rfl, _⟩ := h
    rw [encodeAll_map_length (fun i => cmdWrite8 (a + i) v) 6 (fun i => rfl)]
    simp [Op.bytes]

theorem runEmits_length : ∀ (ops : List Op) (cs : List Cmd) (ds : List Nat),
    RunEmits ops cs ds → (encodeAll cs).length = (ops.map Op.bytes).sum := by
  intro ops
  induction ops with
  | nil => intro cs ds h; obtain ⟨rfl, _⟩ := h; rfl
  | cons op ops ih =>
    intro cs ds h
    obtain ⟨c1, d1, c2, d2, h1, h2, rfl, _⟩ := h
    rw [encodeAll_append, List.length_append, emits_length op c1 d1 h1, ih c2 d2 h2]
    simp

/-- C6 (header finalisation).  For every batch built by `ipc_begin` and a
sequence of appends during which no request was transmitted (no overflow
flush), `ipc_send` stores in bytes `[0, 4)` of the command buffer, as a
little-endian `u32`, the position of the write cursor, which is 4 plus the sum
over the appended commands of 1 + 4 + payload width; the request handed to
`write` has exactly that many bytes and begins with that header; and the bytes
from offset 4 to the cursor are as they were before the call. -/
theorem header_finalisation (st0 : Engine) (ops : List Op) (st : Engine)
    (hrun : run ops (ipc_begin st0) = .ok st) (hnoflush : st.sent = st0.sent) :
    rd32 (final (ipc_send st)).ipc_buffer 0 = st.ipc_buffer_top ∧
    st.ipc_buffer_top = 4 + (ops.map Op.bytes).sum ∧
    ((st.net.headD Conn.refused).connectOk = true →
      (final (ipc_send st)).sent = st.sent ++ [request st] ∧
      (request st).length = st.ipc_buffer_top ∧
      (request st).take 4 = le32 st.ipc_buffer_top) ∧
    rdN (final (ipc_send st)).ipc_buffer 4 (st.ipc_buffer_top - 4) =
      rdN st.ipc_buffer 4 (st.ipc_buffer_top - 4) := by
  obtain ⟨cmds, dests, cs, ds, hB, hE, hb, _⟩ :=
    run_building ops _ st [] [] (building_begin st0) hrun
  obtain ⟨hbuf, _, _, _, _⟩ := ipc_send_final_buffer st
  have hlt : st.ipc_buffer_top < 2 ^ 32 := by
    have := hB.bound
    simp only [FLUSH_AT, MAX_IPC_SIZE] at this
    norm_num
    omega
  have hlen := congrArg List.length hb
  simp only [emittedBytes, List.length_append, rdN_length, hnoflush, ipc_begin] at hlen
  have h4 : 4 ≤ st.ipc_buffer_top := by rw [hB.holds.top_eq]; omega
  rw [runEmits_length ops cs ds hE] at hlen
  have hreq : (request st).length = st.ipc_buffer_top := by simp [request, rdN_length]
  refine ⟨?_, by omega, ?_, ?_⟩
  · rw [hbuf, rd32_wr32, Nat.mod_eq_of_lt hlt]
  · intro hc
    refine ⟨by rw [ipc_send_final_sent, if_pos hc], hreq, ?_⟩
    rw [request_holds st cmds dests hB.holds]
    exact List.take_left' rfl
  · rw [hbuf, rdN_header]

/-- Instance of `header_finalisation` on a short sequence of appends: 35 bytes
of commands, header `27 00 00 00` in hexadecimal. -/
theorem header_finalisation_witness :
    rd32 (final (ipc_send (final (run demoOps (ipc_begin demoRoundtripState))))).ipc_buffer 0 =
      (final (run demoOps (ipc_begin demoRoundtripState))).ipc_buffer_top ∧
    (final (run demoOps (ipc_begin demoRoundtripState))).ipc_buffer_top = 4 + (demoOps.map Op.bytes).sum ∧
    (((final (run demoOps (ipc_begin demoRoundtripState))).net.headD Conn.refused).connectOk = true →
      (final (ipc_send (final (run demoOps (ipc_begin demoRoundtripState))))).sent =
        (final (run demoOps (ipc_begin demoRoundtripState))).sent ++
          [request (final (run demoOps (ipc_begin demoRoundtripState)))] ∧
      (request (final (run demoOps (ipc_begin demoRoundtripState)))).length =
        (final (run demoOps (ipc_begin demoRoundtripState))).ipc_buffer_top ∧
      (request (final (run demoOps (ipc_begin demoRoundtripState)))).take 4 =
        le32 (final (run demoOps (ipc_begin demoRoundtripState))).ipc_buffer_top) ∧
    rdN (final (ipc_send (final (run demoOps (ipc_begin demoRoundtripState))))).ipc_buffer 4
        ((final (run demoOps (ipc_begin demoRoundtripState))).ipc_buffer_top - 4) =
      rdN (final (run demoOps (ipc_begin demoRoundtripState))).ipc_buffer 4
        ((final (run demoOps (ipc_begin demoRoundtripState))).ipc_buffer_top - 4) :=
  header_finalisation demoRoundtripState demoOps (final (run demoOps (ipc_begin demoRoundtripState))) rfl rfl

/-! ## C7: the overflow guard -/

/-- What a returning `ipc_send` has done to the logs and the cursors. -/
theorem ipc_send_ok (st s : Engine) (h : ipc_send st = .ok s) :
    s.sent = st.sent ++ [request st] ∧ s.net = st.net.tail ∧
      s.ipc_buffer_top = st.ipc_buffer_top ∧ s.ipc_dest_buffer_top = st.ipc_dest_buffer_top ∧
      s.ipc_buffer = wr32 st.ipc_buffer 0 st.ipc_buffer_top := by
  obtain ⟨hb, ht, _, hdt, hn⟩ := ipc_send_final_buffer st
  have hs := ipc_send_final_sent st
  have hc : (st.net.headD Conn.refused).connectOk = true := by
    by_contra hc
    have hc2 : (st.net.headD Conn.refused).connectOk = false := by simpa using hc
    unfold ipc_send at h
    simp only at h
    rw [if_pos hc2] at h
    cases h
  rw [if_pos hc] at hs
  rw [h] at hb ht hdt hn hs
  exact ⟨hs, hn, ht, hdt, hb⟩

theorem fillState_rd8 (i n k : Nat) (hn : n < i) (hk : k < 6) :
    rd8 (fillState i).ipc_buffer (4 + 6 * n + k) = if k = 0 then 4 else 0 := by
  simp only [rd8, fillState, MSG_WRITE8]
  have h1 : (4 + 6 * n + k - 4) % 6 = k := by omega
  by_cases hk0 : k = 0
  · subst hk0
    rw [if_pos ⟨by omega, by omega, by omega⟩]
    rfl
  · rw [if_neg (by rintro ⟨_, _, h⟩; omega), if_neg hk0]

theorem fillState_buffer (i : Nat) : ∀ (n : Nat), n ≤ i →
    rdN (fillState i).ipc_buffer 4 (6 * n) = encodeAll (List.replicate n (cmdWrite8 0 0)) := by
  intro n
  induction n with
  | zero => intro _; rfl
  | succ n ih =>
    intro hn
    rw [Nat.mul_succ, rdN_add, ih (by omega), List.replicate_succ', encodeAll_append]
    congr 1
    have h := fun k hk => fillState_rd8 i n k (by omega) hk
    have h0 := h 0 (by omega)
    rw [Nat.add_zero] at h0
    simp only [rdN_succ_left, Nat.add_assoc] at h ⊢
    rw [h0, h 1 (by omega), h 2 (by omega), h 3 (by omega), h 4 (by omega), h 5 (by omega)]
    rfl

theorem fillState_holds (i : Nat) : Holds (fillState i) (List.replicate i (cmdWrite8 0 0)) [] := by
  have hlen : (encodeAll (List.replicate i (cmdWrite8 0 0))).length = 6 * i := by
    rw [← fillState_buffer i i (le_refl _), rdN_length]
  refine ⟨by rw [hlen]; rfl, by rw [hlen]; exact fillState_buffer i i (le_refl _), rfl, ?_⟩
  intro k hk
  simp at hk

/-- One more `ipc_write8(0, 0)` below the threshold. -/
theorem fillState_step (i : Nat) (hi : i < 108290) :
    ipc_write8 (fillState i) 0 0 = .ok (fillState (i + 1)) := by
  have hchk := check_overflow_below (fillState i)
    (by simp only [fillState, MAX_IPC_SIZE]; omega)
  rw [ipc_write8_of_check _ _ 0 0 hchk]
  congr 1
  simp only [fillState, Engine.mk.injEq, and_true, true_and]
  refine ⟨?_, by omega⟩
  funext j
  simp only [wr8, wr32, MSG_WRITE8]
  split_ifs <;> first | rfl | omega

/-- The engine reaches the threshold by `ipc_begin` and 108290 calls of
`ipc_write8(0, 0)`, without any flush. -/
theorem fillState_reached : ∀ (n i : Nat), i + n ≤ 108290 →
    run (List.replicate n (.write8 0 0)) (fillState i) = .ok (fillState (i + n)) := by
  intro n
  induction n with
  | zero => intro i _; rfl
  | succ n ih =>
    intro i h
    rw [List.replicate_succ, run]
    simp only [Op.apply, fillState_step i (by omega)]
    rw [ih (i + 1) (by omega), Nat.add_assoc, Nat.add_comm 1]

theorem demoFull_reached :
    run (List.replicate 108290 (.write8 0 0)) (ipc_begin demoListening) = .ok demoFull := by
  have h0 : ipc_begin demoListening = fillState 0 := by
    simp only [ipc_begin, demoListening, demoIdle, fillState, Engine.mk.injEq, and_true, true_and]
    funext j
    rw [if_neg (by omega)]
  rw [h0]
  exact fillState_reached 108290 0 (by omega)

theorem demoFull_holds : Holds demoFull (List.replicate 108290 (cmdWrite8 0 0)) [] :=
  fillState_holds 108290

theorem replicate_wf (n : Nat) (c : Cmd) (hc : c.WellFormed) :
    ∀ x ∈ List.replicate n c, x.WellFormed := by
  intro x hx
  rw [(List.mem_replicate.1 hx).2]
  exact hc

/-- The engine at the threshold, facing a remote that answers OK: `ipc_send`
returns. -/
theorem demoFull_send :
    ipc_send demoFull = .ok (sendResult demoFull ⟨true, true, [[5, 0, 0, 0, 0]]⟩
      [⟨true, true, [[5, 0, 0, 0, 0]]⟩] (readWidths (List.replicate 108290 (cmdWrite8 0 0)))) := by
  rw [ipc_send_of_holds demoFull _ _ (replicate_wf _ _ (cmdWrite8_wf 0 0)) demoFull_holds]
  have h1 : (demoFull.net.headD Conn.refused) = ⟨true, true, [[5, 0, 0, 0, 0]]⟩ := rfl
  have h2 : demoFull.net.tail = [⟨true, true, [[5, 0, 0, 0, 0]]⟩] := rfl
  have h3 : ¬ rd8 (recv [[5, 0, 0, 0, 0]] demoFull.ipc_return_buffer).1 4 = IPC_FAIL := by decide
  rw [h1, h2]
  simp only [Bool.true_eq_false, if_false, h3]

/-- C7 (overflow guard).  For every engine state and each of `ipc_read8`,
`ipc_write8`, `ipc_write32`: below the threshold `650000 - 256` the guard does
nothing, no request is sent and the command is appended at the cursor; at or
above it the guard is exactly one `ipc_send` of the batch accumulated so far,
and when that call returns (it has then sent that one request) the buffer is
header-only right after the guard (cursor at offset 4, destination list empty),
the append then leaves its command as the only command in the buffer, with its
destination as the only destination, and nothing else is sent or received;
when that `ipc_send` exits, the append exits the same way. -/
theorem overflow_guard (st : Engine) (op : Op) (hop : op.isSingle = true) :
    (st.ipc_buffer_top < MAX_IPC_SIZE - 0x100 →
      _ipc_check_overflow st = .ok st ∧
      ∃ st1, op.apply st = .ok st1 ∧ SameWorld st st1 ∧
        st1.ipc_buffer_top = st.ipc_buffer_top + op.bytes) ∧
    (MAX_IPC_SIZE - 0x100 ≤ st.ipc_buffer_top →
      (∀ e, ipc_send st = .error e → _ipc_check_overflow st = .error e ∧ op.apply st = .error e) ∧
      (∀ s, ipc_send st = .ok s →
        s.sent = st.sent ++ [request st] ∧ s.net = st.net.tail ∧
        _ipc_check_overflow st = .ok (ipc_begin s) ∧
        (ipc_begin s).ipc_buffer_top = 4 ∧ (ipc_begin s).ipc_dest_buffer_top = 0 ∧
        ∃ st1 c ds, op.apply st = .ok st1 ∧ op.Emits [c] ds ∧ Holds st1 [c] ds ∧
          SameWorld (ipc_begin s) st1)) := by
  refine ⟨?_, ?_⟩
  · intro hlt
    have hchk := check_overflow_below st hlt
    refine ⟨hchk, ?_⟩
    cases op with
    | read8 d a => exact ⟨_, ipc_read8_of_check st st d a hchk, ⟨rfl, rfl, rfl, rfl⟩, rfl⟩
    | write8 a v => exact ⟨_, ipc_write8_of_check st st a v hchk, ⟨rfl, rfl, rfl, rfl⟩, rfl⟩
    | write32 a v => exact ⟨_, ipc_write32_of_check st st a v hchk, ⟨rfl, rfl, rfl, rfl⟩, rfl⟩
    | read d s n => simp [Op.isSingle] at hop
    | write a mem src n => simp [Op.isSingle] at hop
    | memset a v n => simp [Op.isSingle] at hop
  · intro hge
    have hchk := check_overflow_above st hge
    refine ⟨?_, ?_⟩
    · intro e he
      rw [he] at hchk
      refine ⟨hchk, ?_⟩
      cases op with
      | read8 d a => simp only [Op.apply, ipc_read8, hchk]
      | write8 a v => simp only [Op.apply, ipc_write8, hchk]
      | write32 a v => simp only [Op.apply, ipc_write32, hchk]
      | read d s n => simp [Op.isSingle] at hop
      | write a mem src n => simp [Op.isSingle] at hop
      | memset a v n => simp [Op.isSingle] at hop
    · intro s hs
      rw [hs] at hchk
      obtain ⟨hsent, hnet, _, _, _⟩ := ipc_send_ok st s hs
      refine ⟨hsent, hnet, hchk, rfl, rfl, ?_⟩
      cases op with
      | read8 d a =>
        obtain ⟨st1, h1, hH, hW⟩ := ipc_read8_push st _ [] [] d a hchk (holds_begin s)
        exact ⟨st1, _, _, h1, ⟨rfl, rfl⟩, hH, hW⟩
      | write8 a v =>
        obtain ⟨st1, h1, hH, hW⟩ := ipc_write8_push st _ [] [] a v hchk (holds_begin s)
        exact ⟨st1, _, _, h1, ⟨rfl, rfl⟩, hH, hW⟩
      | write32 a v =>
        obtain ⟨st1, h1, hH, hW⟩ := ipc_write32_push st _ [] [] a v hchk (holds_begin s)
        exact ⟨st1, _, _, h1, ⟨⟨_, rdN_length _ _ 3, rfl⟩, rfl⟩, hH, hW⟩
      | read d s n => simp [Op.isSingle] at hop
      | write a mem src n => simp [Op.isSingle] at hop
      | memset a v n => simp [Op.isSingle] at hop

/-- Instance of `overflow_guard` at the threshold: on a buffer filled up to
offset `650000 - 256`, `ipc_read8(&x, 0x1000)` sends the one request of the
full batch and leaves the Read8 alone in the buffer. -/
theorem overflow_guard_witness :
    ∃ st1, (Op.read8 77 0x1000).apply demoFull = .ok st1 ∧
      st1.sent = [request demoFull] ∧ st1.net = [⟨true, true, [[5, 0, 0, 0, 0]]⟩] ∧
      Holds st1 [cmdRead8 0x1000] [77] := by
  obtain ⟨st1, c, ds, h1, hE, hH, hW⟩ :=
    (((overflow_guard demoFull (.read8 77 0x1000) rfl).2 (by decide)).2 _ demoFull_send).2.2.2.2.2
  obtain ⟨hc, hd⟩ := hE
  cases hc
  cases hd
  exact ⟨st1, h1, by rw [hW.sent_eq]; rfl, by rw [hW.net_eq]; rfl, hH⟩

/-! ## C8: flush transparency -/

theorem request_building (st : Engine) (cmds : List Cmd) (dests : List Nat)
    (hH : Holds st cmds dests) : request st = frame cmds := by
  rw [request_holds st cmds dests hH, hH.top_eq]
  rfl

/-- The overflow guard on a tracked session: when it returns, either nothing
happened or the pending batch became the last flushed batch. -/
theorem tracks_check (st0 st s1 : Engine) (bs : List (List Cmd × List Nat)) (cmds : List Cmd)
    (dests : List Nat) (hT : Tracks st0 st bs cmds dests) (hchk : _ipc_check_overflow st = .ok s1) :
    ∃ bs1 cmds1 dests1, Tracks st0 s1 bs1 cmds1 dests1 ∧ s1.ipc_buffer_top < FLUSH_AT ∧
      allCmds bs1 cmds1 = allCmds bs cmds ∧ allDests bs1 dests1 = allDests bs dests := by
  have hB := hT.building
  by_cases hlt : st.ipc_buffer_top < MAX_IPC_SIZE - 0x100
  · rw [check_overflow_below st hlt] at hchk
    cases hchk
    exact ⟨bs, cmds, dests, hT, hlt, rfl, rfl⟩
  · rw [check_overflow_above st (Nat.not_lt.1 hlt), ipc_send_of_holds st cmds dests hB.wf hB.holds]
      at hchk
    split_ifs at hchk
    simp only at hchk
    cases hchk
    refine ⟨bs ++ [(cmds, dests)], [], [], ⟨building_begin _, ?_, ?_, ?_⟩,
      by simp [ipc_begin, FLUSH_AT, MAX_IPC_SIZE], by simp [allCmds], by simp [allDests]⟩
    · simp [ipc_begin, sendResult, hT.sent_eq, request_building st cmds dests hB.holds]
    · simp only [ipc_begin, sendResult, List.map_append, hT.stores_eq, walkStores_ptr,
        ← hB.count, Nat.zero_add, List.flatten_append, List.map_cons, List.map_nil,
        List.flatten_cons, List.flatten_nil, List.append_nil, List.append_assoc]
      rw [map_range_getD _ _ hB.holds.dest_eq]
    · intro b hb
      rcases List.mem_append.1 hb with h | h
      · exact hT.wf b h
      · rw [List.mem_singleton.1 h]
        exact ⟨hB.wf, hB.count⟩

theorem tracks_push (st0 s1 st1 : Engine) (bs : List (List Cmd × List Nat)) (cmds1 : List Cmd)
    (dests1 : List Nat) (c : Cmd) (ds : List Nat) (hT : Tracks st0 s1 bs cmds1 dests1)
    (hlt : s1.ipc_buffer_top < FLUSH_AT)
    (hH : Holds st1 (cmds1 ++ [c]) (dests1 ++ ds)) (hW : SameWorld s1 st1)
    (hc : c.WellFormed) (hp : c.payload.length ≤ 4) (hds : ds.length = (readWidths [c]).length) :
    Tracks st0 st1 bs (cmds1 ++ [c]) (dests1 ++ ds) :=
  ⟨(push_building s1 st1 cmds1 dests1 c ds hT.building hlt hH hW hc hp hds).1,
    by rw [hW.sent_eq, hT.sent_eq], by rw [hW.stores_eq, hT.stores_eq], hT.wf⟩

/-- The three single appends on a tracked session. -/
theorem tracks_single (op : Op) (hop : op.isSingle = true) (st0 st st1 : Engine)
    (bs : List (List Cmd × List Nat)) (cmds : List Cmd) (dests : List Nat)
    (hT : Tracks st0 st bs cmds dests) (h : op.apply st = .ok st1) :
    ∃ bs1 cmds1 dests1 c ds, Tracks st0 st1 bs1 cmds1 dests1 ∧ op.Emits [c] ds ∧
      allCmds bs1 cmds1 = allCmds bs cmds ++ [c] ∧
      allDests bs1 dests1 = allDests bs dests ++ ds := by
  cases hchk : _ipc_check_overflow st with
  | error e =>
    cases op <;> simp [Op.isSingle] at hop <;>
      simp [Op.apply, ipc_read8, ipc_write8, ipc_write32, hchk] at h
  | ok s1 =>
    obtain ⟨bs1, cmds1, dests1, hT1, hlt, hc1, hd1⟩ := tracks_check st0 st s1 bs cmds dests hT hchk
    cases op with
    | read8 d a =>
      obtain ⟨s2, h2, hH2, hW2⟩ := ipc_read8_push st s1 cmds1 dests1 d a hchk hT1.building.holds
      have hs : s2 = st1 := Except.ok.inj (h2.symm.trans h)
      subst hs
      refine ⟨bs1, _, _, _, _, tracks_push st0 s1 _ bs1 cmds1 dests1 _ [d] hT1 hlt hH2 hW2
        (cmdRead8_wf a) (by simp [cmdRead8]) (by simp [readWidths, cmdRead8, MSG_READ8]),
        ⟨rfl, rfl⟩, ?_, ?_⟩
      · simp only [allCmds] at hc1 ⊢; rw [← List.append_assoc, hc1]
      · simp only [allDests] at hd1 ⊢; rw [← List.append_assoc, hd1]
    | write8 a v =>
      obtain ⟨s2, h2, hH2, hW2⟩ := ipc_write8_push st s1 cmds1 dests1 a v hchk hT1.building.holds
      have hs : s2 = st1 := Except.ok.inj (h2.symm.trans h)
      subst hs
      refine ⟨bs1, _, _, _, _, tracks_push st0 s1 _ bs1 cmds1 dests1 _ [] hT1 hlt
        (by simpa using hH2) hW2
        (cmdWrite8_wf a v) (by simp [cmdWrite8]) (by simp [readWidths, cmdWrite8, MSG_WRITE8]),
        ⟨rfl, rfl⟩, ?_, ?_⟩
      · simp only [allCmds] at hc1 ⊢; rw [← List.append_assoc, hc1]
      · simp only [allDests] at hd1 ⊢; rw [← List.append_assoc, hd1]
    | write32 a v =>
      obtain ⟨s2, h2, hH2, hW2⟩ := ipc_write32_push st s1 cmds1 dests1 a v hchk hT1.building.holds
      have hs : s2 = st1 := Except.ok.inj (h2.symm.trans h)
      subst hs
      refine ⟨bs1, _, _, cmdWrite32Stale a v (rdN s1.ipc_buffer (s1.ipc_buffer_top + 6) 3), [],
        tracks_push st0 s1 _ bs1 cmds1 dests1 _ [] hT1 hlt
        (by simpa using hH2) hW2
        (cmdWrite32Stale_wf a v _ (rdN_length _ _ _)) (by simp [cmdWrite32Stale, rdN_length])
        (by simp [readWidths, cmdWrite32Stale, MSG_WRITE32]),
        ⟨⟨_, rdN_length _ _ 3, rfl⟩, rfl⟩, ?_, ?_⟩
      · simp only [allCmds] at hc1 ⊢; rw [← List.append_assoc, hc1]
      · simp only [allDests] at hd1 ⊢; rw [← List.append_assoc, hd1]
    | read d s n => simp [Op.isSingle] at hop
    | write a mem src n => simp [Op.isSingle] at hop
    | memset a v n => simp [Op.isSingle] at hop

/-- A counted loop of single appends on a tracked session. -/
theorem tracks_forLoop (st0 : Engine) (body : Engine → Nat → Except Halt Engine) (c : Nat → Cmd)
    (ds : Nat → List Nat)
    (hbody : ∀ (st st1 : Engine) (bs : List (List Cmd × List Nat)) (cmds : List Cmd)
      (dests : List Nat) (i : Nat),
      Tracks st0 st bs cmds dests → body st i = .ok st1 →
      ∃ bs1 cmds1 dests1, Tracks st0 st1 bs1 cmds1 dests1 ∧
        allCmds bs1 cmds1 = allCmds bs cmds ++ [c i] ∧
        allDests bs1 dests1 = allDests bs dests ++ ds i) :
    ∀ (n i : Nat) (st st1 : Engine) (bs : List (List Cmd × List Nat)) (cmds : List Cmd)
      (dests : List Nat),
      Tracks st0 st bs cmds dests → forLoop body n i st = .ok st1 →
      ∃ bs1 cmds1 dests1, Tracks st0 st1 bs1 cmds1 dests1 ∧
        allCmds bs1 cmds1 = allCmds bs cmds ++ (List.range n).map (fun k => c (i + k)) ∧
        allDests bs1 dests1 =
          allDests bs dests ++ ((List.range n).map (fun k => ds (i + k))).flatten := by
  intro n
  induction n with
  | zero =>
    intro i st st1 bs cmds dests hT h
    simp only [forLoop] at h
    cases h
    exact ⟨bs, cmds, dests, hT, by simp, by simp⟩
  | succ n ih =>
    intro i st st1 bs cmds dests hT h
    rw [forLoop] at h
    cases hb : body st i with
    | error e => simp [hb] at h
    | ok s1 =>
      simp only [hb] at h
      obtain ⟨bs1, cmds1, dests1, hT1, he1, hd1⟩ := hbody st s1 bs cmds dests i hT hb
      obtain ⟨bs2, cmds2, dests2, hT2, he2, hd2⟩ := ih (i + 1) s1 st1 bs1 cmds1 dests1 hT1 h
      have hc : (fun k => c (i + 1 + k)) = (fun k => c (i + k)) ∘ Nat.succ := by
        funext k
        simp [Nat.add_assoc, Nat.add_comm 1]
      have hds : (fun k => ds (i + 1 + k)) = (fun k => ds (i + k)) ∘ Nat.succ := by
        funext k
        simp [Nat.add_assoc, Nat.add_comm 1]
      refine ⟨bs2, cmds2, dests2, hT2, ?_, ?_⟩
      · rw [he2, he1, List.range_succ_eq_map, List.map_cons, List.map_map, hc, List.append_assoc]
        rfl
      · rw [hd2, hd1, List.range_succ_eq_map, List.map_cons, List.map_map, List.flatten_cons, hds,
          List.append_assoc]
        rfl

/-- A counted loop of single appends on a tracked session, when the command an
iteration appends depends on the state the iteration starts in. -/
theorem tracks_forLoop_dep (st0 : Engine) (body : Engine → Nat → Except Halt Engine)
    (c : Engine → Nat → Cmd) (ds : Nat → List Nat)
    (hbody : ∀ (st st1 : Engine) (bs : List (List Cmd × List Nat)) (cmds : List Cmd)
      (dests : List Nat) (i : Nat),
      Tracks st0 st bs cmds dests → body st i = .ok st1 →
      ∃ bs1 cmds1 dests1, Tracks st0 st1 bs1 cmds1 dests1 ∧
        allCmds bs1 cmds1 = allCmds bs cmds ++ [c st i] ∧
        allDests bs1 dests1 = allDests bs dests ++ ds i) :
    ∀ (n i : Nat) (st st1 : Engine) (bs : List (List Cmd × List Nat)) (cmds : List Cmd)
      (dests : List Nat),
      Tracks st0 st bs cmds dests → forLoop body n i st = .ok st1 →
      ∃ bs1 cmds1 dests1, Tracks st0 st1 bs1 cmds1 dests1 ∧
        allCmds bs1 cmds1 = allCmds bs cmds ++
          (List.range n).map (fun k => c (final (forLoop body k i st)) (i + k)) ∧
        allDests bs1 dests1 =
          allDests bs dests ++ ((List.range n).map (fun k => ds (i + k))).flatten := by
  intro n
  induction n with
  | zero =>
    intro i st st1 bs cmds dests hT h
    simp only [forLoop] at h
    cases h
    exact ⟨bs, cmds, dests, hT, by simp, by simp⟩
  | succ n ih =>
    intro i st st1 bs cmds dests hT h
    rw [forLoop] at h
    cases hb : body st i with
    | error e => simp [hb] at h
    | ok s1 =>
      simp only [hb] at h
      obtain ⟨bs1, cmds1, dests1, hT1, he1, hd1⟩ := hbody st s1 bs cmds dests i hT hb
      obtain ⟨bs2, cmds2, dests2, hT2, he2, hd2⟩ := ih (i + 1) s1 st1 bs1 cmds1 dests1 hT1 h
      have hc : (fun k => c (final (forLoop body k (i + 1) s1)) (i + 1 + k)) =
          (fun k => c (final (forLoop body k i st)) (i + k)) ∘ Nat.succ := by
        funext k
        simp only [Function.comp, Nat.succ_eq_add_one, forLoop_succ_ok body k i st s1 hb]
        rw [Nat.add_assoc, Nat.add_comm 1]
      have hds : (fun k => ds (i + 1 + k)) = (fun k => ds (i + k)) ∘ Nat.succ := by
        funext k
        simp [Nat.add_assoc, Nat.add_comm 1]
      refine ⟨bs2, cmds2, dests2, hT2, ?_, ?_⟩
      · rw [he2, he1, List.range_succ_eq_map, List.map_cons, List.map_map, hc, List.append_assoc]
        rfl
      · rw [hd2, hd1, List.range_succ_eq_map, List.map_cons, List.map_map, List.flatten_cons, hds,
          List.append_assoc]
        rfl

/-- Every append operation on a tracked session, when it returns, adds exactly
its commands and destinations to the session, whole commands only. -/
theorem tracks_apply (op : Op) (st0 st st1 : Engine) (bs : List (List Cmd × List Nat))
    (cmds : List Cmd) (dests : List Nat)
    (hT : Tracks st0 st bs cmds dests) (h : op.apply st = .ok st1) :
    ∃ bs1 cmds1 dests1 cs ds, Tracks st0 st1 bs1 cmds1 dests1 ∧ op.Emits cs ds ∧
      allCmds bs1 cmds1 = allCmds bs cmds ++ cs ∧
      allDests bs1 dests1 = allDests bs dests ++ ds := by
  cases op with
  | read8 d a =>
    obtain ⟨bs1, cmds1, dests1, c, ds, hT1, hE, hc, hd⟩ :=
      tracks_single (.read8 d a) rfl st0 st st1 bs cmds dests hT h
    exact ⟨bs1, cmds1, dests1, [c], ds, hT1, hE, hc, hd⟩
  | write8 a v =>
    obtain ⟨bs1, cmds1, dests1, c, ds, hT1, hE, hc, hd⟩ :=
      tracks_single (.write8 a v) rfl st0 st st1 bs cmds dests hT h
    exact ⟨bs1, cmds1, dests1, [c], ds, hT1, hE, hc, hd⟩
  | write32 a v =>
    obtain ⟨bs1, cmds1, dests1, c, ds, hT1, hE, hc, hd⟩ :=
      tracks_single (.write32 a v) rfl st0 st st1 bs cmds dests hT h
    exact ⟨bs1, cmds1, dests1, [c], ds, hT1, hE, hc, hd⟩
  | read d s n =>
    obtain ⟨bs1, cmds1, dests1, hT1, hc, hd⟩ := tracks_forLoop st0 _ (fun i => cmdRead8 (s + i))
      (fun i => [d + i])
      (fun st st1 bs cmds dests i hT h => by
        obtain ⟨bs1, cmds1, dests1, c, ds, hT1, hE, hc, hd⟩ :=
          tracks_single (.read8 (d + i) ((s + i) % 2 ^ 32)) rfl st0 st st1 bs cmds dests hT h
        obtain ⟨hcc, hdd⟩ := hE
        cases hcc
        cases hdd
        rw [cmdRead8_mod] at hc
        exact ⟨bs1, cmds1, dests1, hT1, hc, hd⟩)
      n 0 st st1 bs cmds dests hT h
    refine ⟨bs1, cmds1, dests1, _, _, hT1, ⟨rfl, rfl⟩, by simpa using hc, ?_⟩
    rw [hd]
    simp [flatten_map_singleton]
  | write a mem src n =>
    obtain ⟨bs1, cmds1, dests1, hT1, hc, hd⟩ := tracks_forLoop_dep st0 _
      (fun s i => cmdWrite8 (a + i)
        (rd8 (applyStores mem (s.stores.drop st.stores.length)) (src + i)))
      (fun _ => [])
      (fun s s1 bs cmds dests i hT h => by
        obtain ⟨bs1, cmds1, dests1, c, ds, hT1, hE, hc, hd⟩ :=
          tracks_single (.write8 ((a + i) % 2 ^ 32)
            (rd8 (applyStores mem (s.stores.drop st.stores.length)) (src + i))) rfl
            st0 s s1 bs cmds dests hT h
        obtain ⟨hcc, hdd⟩ := hE
        cases hcc
        cases hdd
        rw [cmdWrite8_mod] at hc
        exact ⟨bs1, cmds1, dests1, hT1, hc, hd⟩)
      n 0 st st1 bs cmds dests hT h
    refine ⟨bs1, cmds1, dests1, _, _, hT1,
      ⟨⟨fun i => ipc_write_loaded st a mem src i, rfl⟩, rfl⟩, ?_, ?_⟩
    · simpa [ipc_write_loaded, ipc_write] using hc
    · rw [hd]
      simp
  | memset a v n =>
    obtain ⟨bs1, cmds1, dests1, hT1, hc, hd⟩ := tracks_forLoop st0 _
      (fun i => cmdWrite8 (a + i) v) (fun _ => [])
      (fun st st1 bs cmds dests i hT h => by
        obtain ⟨bs1, cmds1, dests1, c, ds, hT1, hE, hc, hd⟩ :=
          tracks_single (.write8 ((a + i) % 2 ^ 32) v) rfl st0 st st1 bs cmds dests hT h
        obtain ⟨hcc, hdd⟩ := hE
        cases hcc
        cases hdd
        rw [cmdWrite8_mod] at hc
        exact ⟨bs1, cmds1, dests1, hT1, hc, hd⟩)
      n 0 st st1 bs cmds dests hT h
    refine ⟨bs1, cmds1, dests1, _, _, hT1, ⟨rfl, rfl⟩, by simpa using hc, ?_⟩
    rw [hd]
    simp

/-- A sequence of append operations on a tracked session. -/
theorem tracks_run (st0 : Engine) : ∀ (ops : List Op) (st st1 : Engine)
    (bs : List (List Cmd × List Nat)) (cmds : List Cmd) (dests : List Nat),
    Tracks st0 st bs cmds dests → run ops st = .ok st1 →
    ∃ bs1 cmds1 dests1 cs ds, Tracks st0 st1 bs1 cmds1 dests1 ∧ RunEmits ops cs ds ∧
      allCmds bs1 cmds1 = allCmds bs cmds ++ cs ∧
      allDests bs1 dests1 = allDests bs dests ++ ds := by
  intro ops
  induction ops with
  | nil =>
    intro st st1 bs cmds dests hT h
    simp only [run] at h
    cases h
    exact ⟨bs, cmds, dests, [], [], hT, ⟨rfl, rfl⟩, by simp, by simp⟩
  | cons op ops ih =>
    intro st st1 bs cmds dests hT h
    rw [run] at h
    cases ha : op.apply st with
    | error e => simp [ha] at h
    | ok s1 =>
      simp only [ha] at h
      obtain ⟨bs1, cmds1, dests1, c1, d1, hT1, hE1, hc1, hd1⟩ :=
        tracks_apply op st0 st s1 bs cmds dests hT ha
      obtain ⟨bs2, cmds2, dests2, c2, d2, hT2, hE2, hc2, hd2⟩ :=
        ih s1 st1 bs1 cmds1 dests1 hT1 h
      exact ⟨bs2, cmds2, dests2, c1 ++ c2, d1 ++ d2, hT2, ⟨c1, d1, c2, d2, hE1, hE2, rfl, rfl⟩,
        by rw [hc2, hc1, List.append_assoc], by rw [hd2, hd1, List.append_assoc]⟩

theorem frame_drop (cmds : List Cmd) : (frame cmds).drop 4 = encodeAll cmds := by
  simp [frame, le32]

theorem sections_flatten : ∀ (l : List (List Cmd × List Nat)),
    ((l.map (fun b => frame b.1)).map (fun r => r.drop 4)).flatten =
      encodeAll ((l.map Prod.fst).flatten) := by
  intro l
  induction l with
  | nil => rfl
  | cons b bs ih =>
    simp only [List.map_cons, List.flatten_cons, frame_drop, encodeAll_append, ih]

theorem tracks_begin (st0 : Engine) : Tracks st0 (ipc_begin st0) [] [] [] :=
  ⟨building_begin st0, by simp [ipc_begin], by simp [ipc_begin], by simp⟩

/-- Flush transparency of the overflow guard.  For every sequence of append
operations after `ipc_begin` ended by a returning `ipc_send`: the requests
sent, automatic and final, are the frames of batches of whole well-formed
commands; the batches joined are exactly the commands the operations emit, in
order (for `ipc_write32` a Write32 command whose three high payload bytes are
whatever the buffer held); and the stores made went, batch by batch and in
order, through the destinations of the reads of that batch. -/
theorem flush_transparency (st0 : Engine) (ops : List Op) (st s : Engine)
    (hrun : run ops (ipc_begin st0) = .ok st) (hsend : ipc_send st = .ok s) :
    ∃ (bs : List (List Cmd × List Nat)) (cs : List Cmd) (ds : List Nat),
      RunEmits ops cs ds ∧
      (bs.map Prod.fst).flatten = cs ∧ (bs.map Prod.snd).flatten = ds ∧
      s.sent = st0.sent ++ bs.map (fun b => frame b.1) ∧
      s.stores.map Store.ptr = st0.stores.map Store.ptr ++ ds ∧
      (∀ b ∈ bs, (∀ c ∈ b.1, c.WellFormed) ∧ b.2.length = (readWidths b.1).length) ∧
      ((s.sent.drop st0.sent.length).map (fun r => r.drop 4)).flatten = encodeAll cs := by
  obtain ⟨bs, cmds, dests, cs, ds, hT, hE, hc, hd⟩ :=
    tracks_run st0 ops _ st [] [] [] (tracks_begin st0) hrun
  simp only [allCmds, allDests, List.map_nil, List.flatten_nil, List.nil_append] at hc hd
  have hB := hT.building
  rw [ipc_send_of_holds st cmds dests hB.wf hB.holds] at hsend
  split_ifs at hsend
  cases hsend
  have hsent : (sendResult st (st.net.headD Conn.refused) st.net.tail (readWidths cmds)).sent =
      st0.sent ++ (bs ++ [(cmds, dests)]).map (fun b => frame b.1) := by
    simp [sendResult, hT.sent_eq, request_building st cmds dests hB.holds]
  refine ⟨bs ++ [(cmds, dests)], cs, ds, hE, by simpa using hc, by simpa using hd, hsent, ?_, ?_, ?_⟩
  · simp only [sendResult, List.map_append, hT.stores_eq, walkStores_ptr, ← hB.count,
      Nat.zero_add, List.append_assoc]
    rw [map_range_getD _ _ hB.holds.dest_eq, ← hd]
  · intro b hb
    rcases List.mem_append.1 hb with h | h
    · exact hT.wf b h
    · rw [List.mem_singleton.1 h]
      exact ⟨hB.wf, hB.count⟩
  · rw [hsent, List.drop_left, ← hc, sections_flatten]
    simp

theorem run_append : ∀ (a b : List Op) (st : Engine),
    run (a ++ b) st = match run a st with
      | .ok s => run b s
      | .error e => .error e := by
  intro a
  induction a with
  | nil => intro b st; rfl
  | cons op ops ih =>
    intro b st
    simp only [List.cons_append, run]
    cases op.apply st with
    | error e => rfl
    | ok s => exact ih b s

theorem run_singleton (op : Op) (st : Engine) : run [op] st = op.apply st := by
  simp only [run]
  cases op.apply st <;> rfl

/-- C8 (flush transparency), evaluated at the failing input: `ipc_begin`,
108290 calls `ipc_write8(0, 0)` (the buffer is then at the threshold),
`ipc_write32(0x1000, 0x12345678)`, `ipc_send`, on zeroed buffers and with both
requests answered OK.  Two requests are sent; the command section of the second
is `06 00 10 00 00 78 04 00 00`: the three high payload bytes are bytes of
the batch flushed before (the tag and address of its second command).  The
Write32 command of the protocol is `06 00 10 00 00 78 56 34 12`, and the same
call on the fresh buffer, with no flush before it, leaves
`06 00 10 00 00 78 00 00 00`. -/
theorem write32_breaks_flush_transparency :
    ∃ s1 s2,
      run (List.replicate 108290 (.write8 0 0) ++ [.write32 0x1000 0x12345678])
        (ipc_begin demoListening) = .ok s1 ∧
      ipc_send s1 = .ok s2 ∧
      s2.sent = [frame (List.replicate 108290 (cmdWrite8 0 0)),
        [13, 0, 0, 0, 6, 0, 0x10, 0, 0, 0x78, 4, 0, 0]] ∧
      (cmdWrite32 0x1000 0x12345678).encode = [6, 0, 0x10, 0, 0, 0x78, 0x56, 0x34, 0x12] ∧
      request (final (ipc_write32 (ipc_begin demoListening) 0x1000 0x12345678)) =
        [13, 0, 0, 0, 6, 0, 0x10, 0, 0, 0x78, 0, 0, 0] := by
  have hchk : _ipc_check_overflow demoFull = .ok (ipc_begin (sendResult demoFull
      ⟨true, true, [[5, 0, 0, 0, 0]]⟩ [⟨true, true, [[5, 0, 0, 0, 0]]⟩]
      (readWidths (List.replicate 108290 (cmdWrite8 0 0))))) := by
    rw [check_overflow_above demoFull (by decide), demoFull_send]
  obtain ⟨s1, h1, hH1, hW1⟩ := ipc_write32_push demoFull _ [] [] 0x1000 0x12345678 hchk
    (holds_begin _)
  have hstale : rdN (ipc_begin (sendResult demoFull ⟨true, true, [[5, 0, 0, 0, 0]]⟩
      [⟨true, true, [[5, 0, 0, 0, 0]]⟩]
      (readWidths (List.replicate 108290 (cmdWrite8 0 0))))).ipc_buffer
      ((ipc_begin (sendResult demoFull ⟨true, true, [[5, 0, 0, 0, 0]]⟩
        [⟨true, true, [[5, 0, 0, 0, 0]]⟩]
        (readWidths (List.replicate 108290 (cmdWrite8 0 0))))).ipc_buffer_top + 6) 3 = [4, 0, 0] := by
    decide
  rw [hstale] at hH1
  have hwf : ∀ c ∈ ([] ++ [cmdWrite32Stale 0x1000 0x12345678 [4, 0, 0]] : List Cmd),
      c.WellFormed := by
    intro c hc
    simp only [List.nil_append, List.mem_singleton] at hc
    rw [hc]
    exact cmdWrite32Stale_wf _ _ _ rfl
  have hsend := ipc_send_of_holds s1 _ _ hwf hH1
  have hnet : s1.net = [⟨true, true, [[5, 0, 0, 0, 0]]⟩] := by rw [hW1.net_eq]; rfl
  have hret : s1.ipc_return_buffer = (recv [[5, 0, 0, 0, 0]] (fun _ => 0)).1 := by
    rw [hW1.ret_eq]; rfl
  have hstat : ¬ rd8 (recv [[5, 0, 0, 0, 0]] (recv [[5, 0, 0, 0, 0]] (fun _ => 0)).1).1 4 =
      IPC_FAIL := by decide
  rw [hnet, hret] at hsend
  simp only [List.headD_cons, Bool.true_eq_false, if_false, hstat] at hsend
  refine ⟨s1, _, ?_, hsend, ?_, by decide, by decide⟩
  · rw [run_append, demoFull_reached]
    exact (run_singleton _ _).trans h1
  · have hsent : s1.sent = [frame (List.replicate 108290 (cmdWrite8 0 0))] := by
      rw [hW1.sent_eq]
      simp only [ipc_begin, sendResult, request_building demoFull _ _ demoFull_holds]
      rfl
    have hreq : frame ([] ++ [cmdWrite32Stale 0x1000 0x12345678 [4, 0, 0]]) =
        [13, 0, 0, 0, 6, 0, 0x10, 0, 0, 0x78, 4, 0, 0] := by decide
    simp only [sendResult, hsent, request_building s1 _ _ hH1, hreq, List.singleton_append]

/-! ## C9: range decomposition -/

/-- C9 as stated fails on 32-bit wrap-around: `ipc_memset(0xFFFFFFFF, 0xAB, 2)`
emits two Write8 commands, the second of which targets address 0, which is
neither `0xFFFFFFFF + 1` nor in `[0xFFFFFFFF, 0xFFFFFFFF + 2)`. -/
theorem range_wraps_counterexample :
    decodeAll 2 (rdN (final (ipc_memset (ipc_begin demoIdle) 0xFFFFFFFF 0xAB 2)).ipc_buffer 4 12) =
      some [⟨MSG_WRITE8, 0xFFFFFFFF, [0xAB]⟩, ⟨MSG_WRITE8, 0, [0xAB]⟩] ∧
    (final (ipc_memset (ipc_begin demoIdle) 0xFFFFFFFF 0xAB 2)).ipc_buffer_top = 4 + 12 ∧
    ¬ (∀ c ∈ [(⟨MSG_WRITE8, 0xFFFFFFFF, [0xAB]⟩ : Cmd), ⟨MSG_WRITE8, 0, [0xAB]⟩],
        0xFFFFFFFF ≤ c.addr ∧ c.addr < 0xFFFFFFFF + 2) := by
  decide

/-- Whatever the outcome, `ipc_send` only adds to the log of stores. -/
theorem ipc_send_stores (st : Engine) : ∃ l, (final (ipc_send st)).stores = st.stores ++ l := by
  unfold ipc_send
  simp only
  split_ifs
  · exact ⟨[], by simp [final]⟩
  · exact ⟨[], by simp [final]⟩
  · exact ⟨[], by simp [final]⟩
  · split
    · exact ⟨_, rfl⟩
    · exact ⟨_, rfl⟩

theorem check_overflow_stores (st s1 : Engine) (h : _ipc_check_overflow st = .ok s1) :
    ∃ l, s1.stores = st.stores ++ l := by
  by_cases hlt : st.ipc_buffer_top < MAX_IPC_SIZE - 0x100
  · rw [check_overflow_below st hlt] at h
    cases h
    exact ⟨[], by simp⟩
  · rw [check_overflow_above st (Nat.not_lt.1 hlt)] at h
    obtain ⟨l, hl⟩ := ipc_send_stores st
    cases hs : ipc_send st with
    | error e => simp [hs] at h
    | ok s =>
      simp only [hs] at h
      cases h
      rw [hs] at hl
      exact ⟨l, hl⟩

theorem ipc_write8_stores (st st1 : Engine) (a v : Nat) (h : ipc_write8 st a v = .ok st1) :
    ∃ l, st1.stores = st.stores ++ l := by
  cases hchk : _ipc_check_overflow st with
  | error e => simp [ipc_write8, hchk] at h
  | ok s1 =>
    rw [ipc_write8_of_check st s1 a v hchk] at h
    cases h
    exact check_overflow_stores st s1 hchk

theorem forLoop_stores (body : Engine → Nat → Except Halt Engine)
    (hbody : ∀ (s s1 : Engine) (i : Nat), body s i = .ok s1 → ∃ l, s1.stores = s.stores ++ l) :
    ∀ (n i : Nat) (st st1 : Engine), forLoop body n i st = .ok st1 →
      ∃ l, st1.stores = st.stores ++ l := by
  intro n
  induction n with
  | zero =>
    intro i st st1 h
    simp only [forLoop] at h
    cases h
    exact ⟨[], by simp⟩
  | succ n ih =>
    intro i st st1 h
    rw [forLoop] at h
    cases hb : body st i with
    | error e => simp [hb] at h
    | ok s1 =>
      simp only [hb] at h
      obtain ⟨l1, h1⟩ := hbody st s1 i hb
      obtain ⟨l2, h2⟩ := ih (i + 1) s1 st1 h
      exact ⟨l1 ++ l2, by rw [h2, h1, List.append_assoc]⟩

/-- The first `m` iterations of a counted loop, then the others. -/
theorem forLoop_add (body : Engine → Nat → Except Halt Engine) :
    ∀ (m n i : Nat) (st : Engine),
      forLoop body (m + n) i st =
        match forLoop body m i st with
        | .ok s => forLoop body n (i + m) s
        | .error e => .error e := by
  intro m
  induction m with
  | zero => intro n i st; simp [forLoop]
  | succ m ih =>
    intro n i st
    rw [show m + 1 + n = (m + n) + 1 by omega, forLoop, forLoop]
    cases hb : body st i with
    | error e => rfl
    | ok s1 =>
      simp only
      rw [ih n (i + 1) s1, show i + 1 + m = i + (m + 1) by omega]

/-- A byte of the source array that no store made during `ipc_write` covers is
loaded as it was when `ipc_write` was called. -/
theorem ipc_write_loaded_entry (st st1 : Engine) (a : Nat) (mem : Bytes) (src L i : Nat)
    (h : ipc_write st a mem src L = .ok st1) (hi : i < L)
    (hfree : ∀ t ∈ st1.stores.drop st.stores.length,
      src + i < t.ptr ∨ t.ptr + t.bytes.length ≤ src + i) :
    ipc_write_loaded st a mem src i = rd8 mem (src + i) := by
  have hbody : ∀ (s s1 : Engine) (k : Nat),
      ipc_write8 s ((a + k) % 2 ^ 32)
        (rd8 (applyStores mem (s.stores.drop st.stores.length)) (src + k)) = .ok s1 →
      ∃ l, s1.stores = s.stores ++ l := fun s s1 k hk => ipc_write8_stores s s1 _ _ hk
  unfold ipc_write at h
  rw [show L = i + (L - i) by omega, forLoop_add] at h
  unfold ipc_write_loaded ipc_write
  cases hsi : forLoop (fun s k => ipc_write8 s ((a + k) % 2 ^ 32)
      (rd8 (applyStores mem (s.stores.drop st.stores.length)) (src + k))) i 0 st with
  | error e =>
    rw [hsi] at h
    cases h
  | ok si =>
    simp only [hsi] at h
    obtain ⟨l1, h1⟩ := forLoop_stores _ hbody i 0 st si hsi
    obtain ⟨l2, h2⟩ := forLoop_stores _ hbody (L - i) (0 + i) si st1 h
    simp only [final]
    rw [h1, List.drop_left]
    apply applyStores_frame
    intro t ht
    apply hfree t
    rw [h2, h1, List.append_assoc, List.drop_left]
    exact List.mem_append_left _ ht

theorem rd8_mod (m : Bytes) (i : Nat) : rd8 m i % 256 = rd8 m i := by
  simp [rd8]

/-- C9 (range decomposition, amended).  On a batch under construction, for
every 32-bit start address `s` and length `L`: `ipc_read(d, s, L)`,
`ipc_write(s, src, L)` and `ipc_memset(s, v, L)`, when they return, have
emitted (into the requests flushed on the way and the buffer) exactly `L`
commands more, all Read8, Write8 and Write8 respectively, the `i`-th of which
targets address `(s + i) mod 2^32`; the reads have recorded exactly the
destinations `d + i` in order and every fill command carries `v`.  The `i`-th
write carries the byte `src[i]` holds when iteration `i` loads it, that is
after the stores of the flushes made by the earlier iterations; this is the
byte `src[i]` held when `ipc_write` was called whenever no store made during
the call covers it.  The addresses are pairwise distinct, and when
`s + L ≤ 2^32` they are `s + i`, that is exactly `[s, s + L)`. -/
theorem range_decomposition (st : Engine) (cmds : List Cmd) (dests : List Nat)
    (d s v L : Nat) (mem : Bytes) (src : Nat)
    (hB : Building st cmds dests) (hL : L < 2 ^ 32) :
    (∀ st1, ipc_read st d s L = .ok st1 →
      emittedBytes st1 = emittedBytes st ++
        encodeAll ((List.range L).map (fun i => ⟨MSG_READ8, (s + i) % 2 ^ 32, []⟩)) ∧
      emittedDests st1 = emittedDests st ++ (List.range L).map (fun i => d + i)) ∧
    (∀ st1, ipc_write st s mem src L = .ok st1 →
      emittedBytes st1 = emittedBytes st ++
        encodeAll ((List.range L).map
          (fun i => ⟨MSG_WRITE8, (s + i) % 2 ^ 32, [ipc_write_loaded st s mem src i]⟩)) ∧
      emittedDests st1 = emittedDests st ∧
      (∀ i, i < L →
        (∀ t ∈ st1.stores.drop st.stores.length,
          src + i < t.ptr ∨ t.ptr + t.bytes.length ≤ src + i) →
        ipc_write_loaded st s mem src i = rd8 mem (src + i))) ∧
    (∀ st1, ipc_memset st s v L = .ok st1 →
      emittedBytes st1 = emittedBytes st ++
        encodeAll ((List.range L).map (fun i => ⟨MSG_WRITE8, (s + i) % 2 ^ 32, [v % 256]⟩)) ∧
      emittedDests st1 = emittedDests st) ∧
    (∀ i j, i < L → j < L → (s + i) % 2 ^ 32 = (s + j) % 2 ^ 32 → i = j) ∧
    (s + L ≤ 2 ^ 32 → ∀ i, i < L → (s + i) % 2 ^ 32 = s + i) := by
  refine ⟨?_, ?_, ?_, ?_, ?_⟩
  · intro st1 h
    obtain ⟨_, _, cs, ds, _, hE, hb, hd⟩ := apply_building (.read d s L) st st1 cmds dests hB h
    obtain ⟨rfl, rfl⟩ := hE
    exact ⟨hb, hd⟩
  · intro st1 h
    obtain ⟨_, _, _, hb, hd⟩ := ipc_write_building st st1 cmds dests s mem src L hB h
    refine ⟨?_, hd, fun i hi hfree =>
      ipc_write_loaded_entry st st1 s mem src L i h hi hfree⟩
    rw [hb]
    congr 2
    apply List.map_congr_left
    intro i _
    simp only [cmdWrite8]
    rw [show ipc_write_loaded st s mem src i % 256 = ipc_write_loaded st s mem src i from
      rd8_mod _ _]
  · intro st1 h
    obtain ⟨_, _, cs, ds, _, hE, hb, hd⟩ := apply_building (.memset s v L) st st1 cmds dests hB h
    obtain ⟨rfl, rfl⟩ := hE
    exact ⟨hb, by simpa using hd⟩
  · intro i j hi hj h
    norm_num at hL h
    omega
  · intro h i hi
    apply Nat.mod_eq_of_lt
    omega

/-- Instance of `range_decomposition`: at the wrap-around a fill of 2 bytes from
`0xFFFFFFFF` emits `Write8(0xFFFFFFFF)` then `Write8(0)`; and `ipc_write` of the
two bytes `AA BB` at address 5000 of the caller's memory emits `Write8(0x2000,
0xAA)` then `Write8(0x2001, 0xBB)`. -/
theorem range_decomposition_witness :
    (emittedBytes (final (ipc_memset (ipc_begin demoIdle) 0xFFFFFFFF 0xAB 2)) =
      emittedBytes (ipc_begin demoIdle) ++
        encodeAll ((List.range 2).map
          (fun i => ⟨MSG_WRITE8, (0xFFFFFFFF + i) % 2 ^ 32, [0xAB % 256]⟩)) ∧
    emittedDests (final (ipc_memset (ipc_begin demoIdle) 0xFFFFFFFF 0xAB 2)) =
      emittedDests (ipc_begin demoIdle)) ∧
    emittedBytes
        (final (ipc_write (ipc_begin demoIdle) 0x2000 (wrN (fun _ => 0) 5000 [0xAA, 0xBB]) 5000 2)) =
      emittedBytes (ipc_begin demoIdle) ++
        encodeAll ((List.range 2).map (fun i => ⟨MSG_WRITE8, (0x2000 + i) % 2 ^ 32,
          [ipc_write_loaded (ipc_begin demoIdle) 0x2000
            (wrN (fun _ => 0) 5000 [0xAA, 0xBB]) 5000 i]⟩)) ∧
    ipc_write_loaded (ipc_begin demoIdle) 0x2000 (wrN (fun _ => 0) 5000 [0xAA, 0xBB]) 5000 0 =
      0xAA ∧
    ipc_write_loaded (ipc_begin demoIdle) 0x2000 (wrN (fun _ => 0) 5000 [0xAA, 0xBB]) 5000 1 =
      0xBB :=
  have h := range_decomposition (ipc_begin demoIdle) [] [] 500 0xFFFFFFFF 0xAB 2 (fun _ => 0) 0
    (building_begin demoIdle) (by decide)
  have hw := range_decomposition (ipc_begin demoIdle) [] [] 500 0x2000 0xAB 2
    (wrN (fun _ => 0) 5000 [0xAA, 0xBB]) 5000 (building_begin demoIdle) (by decide)
  ⟨h.2.2.1 _ rfl, (hw.2.1 _ rfl).1, by decide, by decide⟩

/-! ## C10: remote failure -/

theorem rd32_wrN_take4 (ret : Bytes) (resp : List Nat) (h : 4 ≤ resp.length) :
    rd32 (wrN ret 0 (resp.take 4)) 0 = u32le resp := by
  match resp, h with
  | a :: b :: c :: d :: rest, _ =>
    simp [rd32, wrN, u32le, rd8_wr8_same, rd8_wr8_ne]

theorem rd8_wrN_mid (m : Bytes) : ∀ (bs : List Nat) (i j : Nat), i ≤ j → j < i + bs.length →
    rd8 (wrN m i bs) j = bs.getD (j - i) 0 % 256 := by
  intro bs
  induction bs generalizing m with
  | nil => intro i j h1 h2; simp at h2; omega
  | cons b bs ih =>
    intro i j h1 h2
    simp only [List.length_cons] at h2
    by_cases hij : j = i
    · subst hij
      rw [wrN, rd8_wrN_lt _ _ _ _ (by omega), rd8_wr8_same]
      simp
    · rw [wrN, ih _ _ _ (by omega) (by omega)]
      have : j - i = (j - (i + 1)) + 1 := by omega
      rw [this, List.getD_cons_succ]

/-- The return buffer after a response has arrived whole: the response sits at
its start. -/
theorem recv_whole (segs : List (List Nat)) (ret : Bytes) (resp : List Nat)
    (hne : ∀ s ∈ segs, s ≠ []) (hflat : segs.flatten = resp)
    (hsize : u32le resp = resp.length) (h4 : 4 ≤ resp.length)
    (hmax : resp.length ≤ MAX_IPC_RETURN_SIZE) :
    recv segs ret = (wrN ret 0 resp, resp.length) := by
  have h := recv_complete segs ret resp.length hne
    (by rw [hflat, rd32_wrN_take4 _ _ h4, hsize]) h4 hmax (by rw [hflat])
  rw [h, hflat, List.take_of_length_le (le_refl _)]

/-- C10 (remote failure).  For every engine state, batch included, and every
response that arrives whole (cut into reads in any way) with status byte
`0xFF` at offset 4, whatever its other bytes: `ipc_send`, once connected and
the request written, exits with the `IPC_FAIL` diagnostic and has made no
store through any destination. -/
theorem remote_failure (st : Engine) (conn : Conn) (rest : List Conn) (resp : List Nat)
    (hnet : st.net = conn :: rest) (hc : conn.connectOk = true) (hw : conn.writeOk = true)
    (hne : ∀ s ∈ conn.reads, s ≠ []) (hflat : conn.reads.flatten = resp)
    (hsize : u32le resp = resp.length) (h5 : 5 ≤ resp.length)
    (hmax : resp.length ≤ MAX_IPC_RETURN_SIZE) (hstat : resp.getD 4 0 = IPC_FAIL) :
    fatal (ipc_send st) = some Fatal.remoteFail ∧
      (final (ipc_send st)).stores = st.stores ∧
      (final (ipc_send st)).sent = st.sent ++ [request st] := by
  have hrecv := recv_whole conn.reads st.ipc_return_buffer resp hne hflat hsize (by omega) hmax
  have hbyte : rd8 (recv conn.reads st.ipc_return_buffer).1 4 = IPC_FAIL := by
    rw [hrecv]
    simp only
    rw [rd8_wrN_mid _ _ _ _ (by omega) (by omega), Nat.sub_zero, hstat]
    rfl
  unfold ipc_send
  simp only [hnet, List.headD_cons, List.tail_cons, hc, hw, Bool.true_eq_false, if_false, hbyte,
    if_true]
  exact ⟨rfl, rfl, rfl⟩

/-- Instance of `remote_failure`: a batch with two reads, answered
`07 00 00 00 FF 01 02`. -/
theorem remote_failure_witness :
    fatal (ipc_send demoFailState) = some Fatal.remoteFail ∧
      (final (ipc_send demoFailState)).stores = demoFailState.stores ∧
      (final (ipc_send demoFailState)).sent = demoFailState.sent ++ [request demoFailState] :=
  remote_failure demoFailState ⟨true, true, [[7, 0, 0], [0, 0xFF, 1, 2]]⟩ [] [7, 0, 0, 0, 0xFF, 1, 2]
    rfl rfl rfl (by decide) (by decide) (by decide) (by decide) (by decide) (by decide)

/-! ## The iteration bounds are never reached -/

/-- More iterations than `top - cur` change nothing to the walk: every iteration
advances `cur`, so the bound given in `demux` is never what stops it. -/
theorem demuxLoop_fuel (buf : Bytes) (top : Nat) (ret : Bytes) (dest : Nat → Nat) :
    ∀ (f1 f2 : Nat) (w : Walk), top - w.cur ≤ f1 → top - w.cur ≤ f2 →
      demuxLoop buf top ret dest f1 w = demuxLoop buf top ret dest f2 w := by
  intro f1
  induction f1 with
  | zero =>
    intro f2 w h1 _
    have hge : ¬ w.cur < top := by omega
    cases f2 with
    | zero => rfl
    | succ f2 => simp [demuxLoop, hge]
  | succ f1 ih =>
    intro f2 w h1 h2
    by_cases hlt : w.cur < top
    · obtain ⟨g2, rfl⟩ : ∃ g, f2 = g + 1 := ⟨f2 - 1, by omega⟩
      rw [demuxLoop, demuxLoop]
      simp only [hlt, if_true]
      split <;> first
        | exact ih _ _ (by simp; omega) (by simp; omega)
        | rfl
        | (split <;> first
            | exact ih _ _ (by simp; omega) (by simp; omega)
            | rfl)
    · cases f2 with
      | zero => simp [demuxLoop, hlt]
      | succ f2 => simp [demuxLoop, hlt]

theorem sockRead_some (segs : List (List Nat)) (n : Nat) (data : List Nat)
    (rest : List (List Nat)) (hn : 0 < n) (h : sockRead segs n = (some data, rest)) :
    0 < data.length ∧ data.length ≤ n := by
  match segs, h with
  | (b :: bs) :: tl, h =>
    rw [sockRead] at h
    split_ifs at h with hle
    · cases h
      exact ⟨by simp, hle⟩
    · cases h
      rw [List.length_take]
      simp only [List.length_cons] at hle ⊢
      omega

/-- More iterations than `recvFuel` change nothing to the receive loop: every
iteration that stays in the loop has received at least one byte, four bytes
at most come before the declared size is known, and the loop goes on only for
a declared size of at most `MAX_IPC_RETURN_SIZE`. -/
theorem recvLoop_fuel : ∀ (f1 f2 : Nat) (segs : List (List Nat)) (ret : Bytes) (rs es : Nat),
    (es = 4 → MAX_IPC_RETURN_SIZE + 4 - rs ≤ f1 ∧ MAX_IPC_RETURN_SIZE + 4 - rs ≤ f2) →
    (es ≠ 4 → es - rs ≤ f1 ∧ es - rs ≤ f2) →
    recvLoop f1 segs ret rs es = recvLoop f2 segs ret rs es := by
  intro f1
  induction f1 with
  | zero =>
    intro f2 segs ret rs es h4 hne
    have hge : ¬ rs < es := by
      by_cases he : es = 4
      · have := (h4 he).1
        simp only [MAX_IPC_RETURN_SIZE] at this
        omega
      · have := (hne he).1
        omega
    cases f2 with
    | zero => rfl
    | succ f2 => simp [recvLoop, hge]
  | succ f1 ih =>
    intro f2 segs ret rs es h4 hne
    by_cases hlt : rs < es
    · obtain ⟨g2, rfl⟩ : ∃ g, f2 = g + 1 := by
        refine ⟨f2 - 1, ?_⟩
        by_cases he : es = 4
        · have := (h4 he).2
          simp only [MAX_IPC_RETURN_SIZE] at this
          omega
        · have := (hne he).2
          omega
      rw [recvLoop, recvLoop]
      simp only [hlt, if_true]
      cases hr : sockRead segs (es - rs) with
      | mk od rest =>
        cases od with
        | none => rfl
        | some data =>
          obtain ⟨hpos, hle⟩ := sockRead_some segs (es - rs) data rest (by omega) hr
          simp only
          by_cases he : es = 4
          · have hf := h4 he
            simp only [MAX_IPC_RETURN_SIZE] at hf
            by_cases hdone : rs + data.length ≥ 4
            · simp only [he, hdone, and_self, if_true]
              split_ifs with hbig
              · rfl
              · apply ih
                · intro h
                  simp only [MAX_IPC_RETURN_SIZE]
                  omega
                · intro h
                  simp only [MAX_IPC_RETURN_SIZE] at hbig
                  omega
            · simp only [he, hdone, and_false, if_false, true_and]
              apply ih
              · intro _
                simp only [MAX_IPC_RETURN_SIZE]
                omega
              · intro h
                exact absurd rfl h
          · have hf := hne he
            simp only [he, false_and, if_false]
            apply ih
            · intro h
              exact absurd h he
            · intro _
              omega
    · cases f2 with
      | zero => simp [recvLoop, hlt]
      | succ f2 => simp [recvLoop, hlt]

/-- The bound `recvFuel` is never what stops the receive phase. -/
theorem recv_fuel (f : Nat) (hf : recvFuel ≤ f) (segs : List (List Nat)) (ret : Bytes) :
    recvLoop f segs ret 0 4 = recv segs ret := by
  unfold recv
  apply recvLoop_fuel
  · intro _
    simp only [recvFuel] at hf ⊢
    omega
  · intro h
    exact absurd rfl h

/-- The bound given in `demux` is never what stops the walk. -/
theorem demux_fuel (st : Engine) (f : Nat) (hf : st.ipc_buffer_top - 4 ≤ f) :
    demuxLoop st.ipc_buffer st.ipc_buffer_top st.ipc_return_buffer st.ipc_dest_buffer f
      ⟨4, 0, 4 + 1, []⟩ = demux st :=
  demuxLoop_fuel _ _ _ _ _ _ _ hf (le_refl _)

/-! ## Properties kept along a session -/

theorem kept_check (J : Engine → List Cmd → List Nat → Prop) (hK : Kept J) (st s1 : Engine)
    (cmds : List Cmd) (dests : List Nat) (hB : Building st cmds dests) (hJ : J st cmds dests)
    (hchk : _ipc_check_overflow st = .ok s1) :
    ∃ cmds1 dests1, Building s1 cmds1 dests1 ∧ J s1 cmds1 dests1 ∧
      s1.ipc_buffer_top < FLUSH_AT := by
  by_cases hlt : st.ipc_buffer_top < MAX_IPC_SIZE - 0x100
  · rw [check_overflow_below st hlt] at hchk
    cases hchk
    exact ⟨cmds, dests, hB, hJ, hlt⟩
  · rw [check_overflow_above st (Nat.not_lt.1 hlt), ipc_send_of_holds st cmds dests hB.wf hB.holds]
      at hchk
    split_ifs at hchk
    simp only at hchk
    cases hchk
    exact ⟨[], [], building_begin _, hK.flush st cmds dests _ _ hB hJ,
      by simp [ipc_begin, FLUSH_AT, MAX_IPC_SIZE]⟩

theorem wr8_outside (m : Bytes) (i j v : Nat) (h : j ≠ i) : wr8 m i v j = m j := by
  simp [wr8, h]

theorem wr32_outside (m : Bytes) (i j v : Nat) (h : j < i ∨ i + 4 ≤ j) : wr32 m i v j = m j := by
  unfold wr32
  rw [wr8_outside _ _ _ _ (by omega), wr8_outside _ _ _ _ (by omega),
    wr8_outside _ _ _ _ (by omega), wr8_outside _ _ _ _ (by omega)]

theorem ipc_read8_untouched (st s1 st1 : Engine) (d a : Nat)
    (hchk : _ipc_check_overflow st = .ok s1) (h : ipc_read8 st d a = .ok st1) :
    Untouched s1 st1 := by
  simp only [ipc_read8, hchk] at h
  cases h
  refine ⟨fun j hj => ?_, fun i hi => ?_⟩
  · simp only at hj ⊢
    rw [wr32_outside _ _ _ _ (by omega), wr8_outside _ _ _ _ (by omega)]
  · simp only at hi ⊢
    rw [if_neg (by omega)]

theorem ipc_write8_untouched (st s1 st1 : Engine) (a v : Nat)
    (hchk : _ipc_check_overflow st = .ok s1) (h : ipc_write8 st a v = .ok st1) :
    Untouched s1 st1 := by
  simp only [ipc_write8, hchk] at h
  cases h
  refine ⟨fun j hj => ?_, fun i _ => rfl⟩
  simp only at hj ⊢
  rw [wr8_outside _ _ _ _ (by omega), wr32_outside _ _ _ _ (by omega),
    wr8_outside _ _ _ _ (by omega)]

theorem ipc_write32_untouched (st s1 st1 : Engine) (a v : Nat)
    (hchk : _ipc_check_overflow st = .ok s1) (h : ipc_write32 st a v = .ok st1) :
    Untouched s1 st1 := by
  simp only [ipc_write32, hchk] at h
  cases h
  refine ⟨fun j hj => ?_, fun i _ => rfl⟩
  simp only at hj ⊢
  rw [wr8_outside _ _ _ _ (by omega), wr32_outside _ _ _ _ (by omega),
    wr8_outside _ _ _ _ (by omega)]

theorem kept_read8 (J : Engine → List Cmd → List Nat → Prop) (hK : Kept J) (st st1 : Engine)
    (cmds : List Cmd) (dests : List Nat) (d a : Nat) (hB : Building st cmds dests)
    (hJ : J st cmds dests) (h : ipc_read8 st d a = .ok st1) :
    ∃ cmds1 dests1, Building st1 cmds1 dests1 ∧ J st1 cmds1 dests1 := by
  cases hchk : _ipc_check_overflow st with
  | error e => simp [ipc_read8, hchk] at h
  | ok s1 =>
    obtain ⟨cmds1, dests1, hB1, hJ1, hlt⟩ := kept_check J hK st s1 cmds dests hB hJ hchk
    have hU := ipc_read8_untouched st s1 st1 d a hchk h
    obtain ⟨s2, h2, hH2, hW2⟩ := ipc_read8_push st s1 cmds1 dests1 d a hchk hB1.holds
    rw [h2] at h
    cases h
    obtain ⟨hB2, -, -⟩ := push_building s1 _ cmds1 dests1 _ [d] hB1 hlt hH2 hW2
      (cmdRead8_wf a) (by simp [cmdRead8]) (by simp [readWidths, cmdRead8, MSG_READ8])
    exact ⟨_, _, hB2,
      hK.push s1 _ cmds1 dests1 _ _ hB1 hJ1 hlt hB2 hW2 hU (Or.inl ⟨d, a, rfl, rfl⟩)⟩

theorem kept_write8 (J : Engine → List Cmd → List Nat → Prop) (hK : Kept J) (st st1 : Engine)
    (cmds : List Cmd) (dests : List Nat) (a v : Nat) (hB : Building st cmds dests)
    (hJ : J st cmds dests) (h : ipc_write8 st a v = .ok st1) :
    ∃ cmds1 dests1, Building st1 cmds1 dests1 ∧ J st1 cmds1 dests1 := by
  cases hchk : _ipc_check_overflow st with
  | error e => simp [ipc_write8, hchk] at h
  | ok s1 =>
    obtain ⟨cmds1, dests1, hB1, hJ1, hlt⟩ := kept_check J hK st s1 cmds dests hB hJ hchk
    have hU := ipc_write8_untouched st s1 st1 a v hchk h
    obtain ⟨s2, h2, hH2, hW2⟩ := ipc_write8_push st s1 cmds1 dests1 a v hchk hB1.holds
    rw [h2] at h
    cases h
    obtain ⟨hB2, -, -⟩ := push_building s1 _ cmds1 dests1 _ [] hB1 hlt
      (by simpa using hH2) hW2
      (cmdWrite8_wf a v) (by simp [cmdWrite8]) (by simp [readWidths, cmdWrite8, MSG_WRITE8])
    have hJ2 := hK.push s1 _ cmds1 dests1 _ _ hB1 hJ1 hlt hB2 hW2 hU
      (Or.inr (Or.inl ⟨a, v, rfl, rfl⟩))
    rw [List.append_nil] at hB2 hJ2
    exact ⟨_, _, hB2, hJ2⟩

theorem kept_write32 (J : Engine → List Cmd → List Nat → Prop) (hK : Kept J) (st st1 : Engine)
    (cmds : List Cmd) (dests : List Nat) (a v : Nat) (hB : Building st cmds dests)
    (hJ : J st cmds dests) (h : ipc_write32 st a v = .ok st1) :
    ∃ cmds1 dests1, Building st1 cmds1 dests1 ∧ J st1 cmds1 dests1 := by
  cases hchk : _ipc_check_overflow st with
  | error e => simp [ipc_write32, hchk] at h
  | ok s1 =>
    obtain ⟨cmds1, dests1, hB1, hJ1, hlt⟩ := kept_check J hK st s1 cmds dests hB hJ hchk
    have hU := ipc_write32_untouched st s1 st1 a v hchk h
    obtain ⟨s2, h2, hH2, hW2⟩ := ipc_write32_push st s1 cmds1 dests1 a v hchk hB1.holds
    rw [h2] at h
    cases h
    obtain ⟨hB2, -, -⟩ := push_building s1 _ cmds1 dests1 _ [] hB1 hlt
      (by simpa using hH2) hW2
      (cmdWrite32Stale_wf a v _ (rdN_length _ _ _)) (by simp [cmdWrite32Stale, rdN_length])
      (by simp [readWidths, cmdWrite32Stale, MSG_WRITE32])
    have hJ2 := hK.push s1 _ cmds1 dests1 _ _ hB1 hJ1 hlt hB2 hW2 hU
      (Or.inr (Or.inr ⟨a, v, _, rdN_length _ _ 3, rfl, rfl⟩))
    rw [List.append_nil] at hB2 hJ2
    exact ⟨_, _, hB2, hJ2⟩

theorem kept_forLoop (J : Engine → List Cmd → List Nat → Prop)
    (body : Engine → Nat → Except Halt Engine)
    (hbody : ∀ (st st1 : Engine) (cmds : List Cmd) (dests : List Nat) (i : Nat),
      Building st cmds dests → J st cmds dests → body st i = .ok st1 →
      ∃ cmds1 dests1, Building st1 cmds1 dests1 ∧ J st1 cmds1 dests1) :
    ∀ (n i : Nat) (st st1 : Engine) (cmds : List Cmd) (dests : List Nat),
      Building st cmds dests → J st cmds dests → forLoop body n i st = .ok st1 →
      ∃ cmds1 dests1, Building st1 cmds1 dests1 ∧ J st1 cmds1 dests1 := by
  intro n
  induction n with
  | zero =>
    intro i st st1 cmds dests hB hJ h
    simp only [forLoop] at h
    cases h
    exact ⟨cmds, dests, hB, hJ⟩
  | succ n ih =>
    intro i st st1 cmds dests hB hJ h
    rw [forLoop] at h
    cases hb : body st i with
    | error e => simp [hb] at h
    | ok s1 =>
      simp only [hb] at h
      obtain ⟨cmds1, dests1, hB1, hJ1⟩ := hbody st s1 cmds dests i hB hJ hb
      exact ih (i + 1) s1 st1 cmds1 dests1 hB1 hJ1 h

theorem kept_apply (J : Engine → List Cmd → List Nat → Prop) (hK : Kept J) (op : Op)
    (st st1 : Engine) (cmds : List Cmd) (dests : List Nat) (hB : Building st cmds dests)
    (hJ : J st cmds dests) (h : op.apply st = .ok st1) :
    ∃ cmds1 dests1, Building st1 cmds1 dests1 ∧ J st1 cmds1 dests1 := by
  cases op with
  | read8 d a => exact kept_read8 J hK st st1 cmds dests d a hB hJ h
  | write8 a v => exact kept_write8 J hK st st1 cmds dests a v hB hJ h
  | write32 a v => exact kept_write32 J hK st st1 cmds dests a v hB hJ h
  | read d s n =>
    exact kept_forLoop J _ (fun st st1 cmds dests i hB hJ h =>
      kept_read8 J hK st st1 cmds dests _ _ hB hJ h) n 0 st st1 cmds dests hB hJ h
  | write a mem src n =>
    exact kept_forLoop J _ (fun st st1 cmds dests i hB hJ h =>
      kept_write8 J hK st st1 cmds dests _ _ hB hJ h) n 0 st st1 cmds dests hB hJ h
  | memset a v n =>
    exact kept_forLoop J _ (fun st st1 cmds dests i hB hJ h =>
      kept_write8 J hK st st1 cmds dests _ _ hB hJ h) n 0 st st1 cmds dests hB hJ h

/-- A kept property holds in every state a sequence of append operations
reaches from a state where it holds. -/
theorem kept_run (J : Engine → List Cmd → List Nat → Prop) (hK : Kept J) :
    ∀ (ops : List Op) (st st1 : Engine) (cmds : List Cmd) (dests : List Nat),
      Building st cmds dests → J st cmds dests → run ops st = .ok st1 →
      ∃ cmds1 dests1, Building st1 cmds1 dests1 ∧ J st1 cmds1 dests1 := by
  intro ops
  induction ops with
  | nil =>
    intro st st1 cmds dests hB hJ h
    simp only [run] at h
    cases h
    exact ⟨cmds, dests, hB, hJ⟩
  | cons op ops ih =>
    intro st st1 cmds dests hB hJ h
    rw [run] at h
    cases ha : op.apply st with
    | error e => simp [ha] at h
    | ok s1 =>
      simp only [ha] at h
      obtain ⟨cmds1, dests1, hB1, hJ1⟩ := kept_apply J hK op st s1 cmds dests hB hJ ha
      exact ih s1 st1 cmds1 dests1 hB1 hJ1 h

/-! ## C11, C12: failures of the receive loop -/

/-- C11 (short read is fatal), evaluated at the failing input: two batches
`ipc_begin; ipc_read8(&x, a); ipc_send` with destinations 1000 and 2000; the
first is answered `06 00 00 00 00 7F`, the response to the second stops after
its four size bytes `06 00 00 00` (the next `read` returns 0).  The receive
loop of the second `ipc_send` takes its failure branch (`receive_size = 0`),
and `ipc_send` does not exit: it returns normally, and it has stored through
the second destination the byte `7F` that the first response left at offset 5
of the return buffer.  The same happens on zeroed buffers when the very first
`read` returns 0: the batch returns and stores `00`. -/
theorem short_read_not_fatal :
    (recv [[6, 0, 0, 0], []] (final (batchRead8 demoShortRead 1000 0x10)).ipc_return_buffer).2 = 0 ∧
    fatal (batchRead8 demoShortRead 1000 0x10 >>= fun s => batchRead8 s 2000 0x20) = none ∧
    (final (batchRead8 demoShortRead 1000 0x10 >>= fun s => batchRead8 s 2000 0x20)).stores =
      [⟨1000, [0x7F]⟩, ⟨2000, [0x7F]⟩] ∧
    (final (batchRead8 demoShortRead 1000 0x10 >>= fun s => batchRead8 s 2000 0x20)).sent =
      [[9, 0, 0, 0, 0, 0x10, 0, 0, 0], [9, 0, 0, 0, 0, 0x20, 0, 0, 0]] ∧
    (recv [] (fun _ => 0)).2 = 0 ∧
    fatal (batchRead8 { demoIdle with net := [⟨true, true, []⟩] } 2000 0x20) = none ∧
    (final (batchRead8 { demoIdle with net := [⟨true, true, []⟩] } 2000 0x20)).stores =
      [⟨2000, [0]⟩] := by
  decide

/-- C12 (oversized response is fatal), evaluated at the failing input: two
batches `ipc_begin; ipc_read8(&x, a); ipc_send` with destinations 1000 and
2000; the first is answered `06 00 00 00 00 7F`, the response to the second
declares 450001 bytes (`D1 DD 06 00`).  The receive loop makes one `read` (4
bytes at offset 0), takes its "Response too big" branch (`receive_size = 0`)
and reads nothing more; `ipc_send` does not exit: it returns normally, and it
has stored through the second destination the byte `7F` that the first
response left at offset 5 of the return buffer. -/
theorem oversized_response_not_fatal :
    rd32 (wrN (fun _ => 0) 0 [0xD1, 0xDD, 0x06, 0x00]) 0 = MAX_IPC_RETURN_SIZE + 1 ∧
    (recvTrace recvFuel [[0xD1, 0xDD, 0x06, 0x00], [0, 0x2A]]
      (final (batchRead8 demoOversized 1000 0x10)).ipc_return_buffer 0 4).2 = [(0, 4)] ∧
    (recv [[0xD1, 0xDD, 0x06, 0x00], [0, 0x2A]]
      (final (batchRead8 demoOversized 1000 0x10)).ipc_return_buffer).2 = 0 ∧
    fatal (batchRead8 demoOversized 1000 0x10 >>= fun s => batchRead8 s 2000 0x20) = none ∧
    (final (batchRead8 demoOversized 1000 0x10 >>= fun s => batchRead8 s 2000 0x20)).stores =
      [⟨1000, [0x7F]⟩, ⟨2000, [0x7F]⟩] ∧
    (final (batchRead8 demoOversized 1000 0x10 >>= fun s => batchRead8 s 2000 0x20)).sent =
      [[9, 0, 0, 0, 0, 0x10, 0, 0, 0], [9, 0, 0, 0, 0, 0x20, 0, 0, 0]] := by
  decide

/-! ## C13: the framed receive -/

/-- The loop `recvTrace` is `recvLoop` with a record added. -/
theorem recvTrace_fst : ∀ (fuel : Nat) (segs : List (List Nat)) (ret : Bytes) (rs es : Nat),
    (recvTrace fuel segs ret rs es).1 = recvLoop fuel segs ret rs es := by
  intro fuel
  induction fuel with
  | zero => intro segs ret rs es; rfl
  | succ f ih =>
    intro segs ret rs es
    rw [recvTrace, recvLoop]
    split_ifs with hlt
    · cases hr : sockRead segs (es - rs) with
      | mk od rest =>
        cases od with
        | none => rfl
        | some data =>
          simp only
          split_ifs
          · rfl
          · exact ih _ _ _ _
          · exact ih _ _ _ _
    · rfl

/-- Second phase of the receive loop: every `read` asks for the bytes up to
`end_size`. -/
theorem recvTrace_body : ∀ (fuel : Nat) (segs : List (List Nat)) (ret : Bytes) (rs es : Nat),
    es ≠ 4 → ∀ c ∈ (recvTrace fuel segs ret rs es).2, 0 < c.2 ∧ c.1 + c.2 = es := by
  intro fuel
  induction fuel with
  | zero => intro segs ret rs es _ c hc; simp [recvTrace] at hc
  | succ f ih =>
    intro segs ret rs es hes c hc
    rw [recvTrace] at hc
    split_ifs at hc with hlt
    · cases hr : sockRead segs (es - rs) with
      | mk od rest =>
        rw [hr] at hc
        cases od with
        | none =>
          simp only [List.mem_singleton] at hc
          subst hc
          exact ⟨by simp; omega, by simp; omega⟩
        | some data =>
          simp only [hes, false_and, if_false, List.mem_cons] at hc
          rcases hc with hc | hc
          · subst hc
            exact ⟨by simp; omega, by simp; omega⟩
          · exact ih _ _ _ _ hes c hc
    · simp at hc

/-- First phase of the receive loop on a stream that declares the size `n`:
every `read` asks for the bytes up to offset 4, then up to offset `n`. -/
theorem recvTrace_header (fuel : Nat) : ∀ (segs : List (List Nat)) (ret : Bytes) (rs n : Nat),
    (∀ s ∈ segs, s ≠ []) → rs < 4 → 4 - rs ≤ segs.flatten.length →
    rd32 (wrN ret rs (segs.flatten.take (4 - rs))) 0 = n → 5 ≤ n →
    ∀ c ∈ (recvTrace fuel segs ret rs 4).2, 0 < c.2 ∧ (c.1 + c.2 = 4 ∨ c.1 + c.2 = n) := by
  induction fuel with
  | zero => intro segs ret rs n _ _ _ _ _ c hc; simp [recvTrace] at hc
  | succ f ih =>
    intro segs ret rs n hne hrs hlen4 hn hn5 c hc
    rw [recvTrace] at hc
    have hj : segs.flatten ≠ [] := by
      intro h0
      rw [h0] at hlen4
      simp at hlen4
      omega
    obtain ⟨data, segs1, hread, hpos, hdl, hcat, hne1⟩ :=
      sockRead_spec segs (4 - rs) hne (by omega) hj
    have hJ := congrArg List.length hcat
    simp only [List.length_append] at hJ
    simp only [hrs, if_true, hread, true_and] at hc
    by_cases hdone : rs + data.length ≥ 4
    · have h4 : rd32 (wrN ret rs data) 0 = n := by
        rw [← hn, ← hcat, List.take_left' (by omega)]
      simp only [hdone, if_true, h4] at hc
      split_ifs at hc with hbig
      · simp only [List.mem_singleton] at hc
        subst hc
        exact ⟨by simp; omega, Or.inl (by simp; omega)⟩
      · simp only [List.mem_cons] at hc
        rcases hc with hc | hc
        · subst hc
          exact ⟨by simp; omega, Or.inl (by simp; omega)⟩
        · have := recvTrace_body f segs1 _ _ n (by omega) c hc
          exact ⟨this.1, Or.inr this.2⟩
    · simp only [hdone, if_false, List.mem_cons] at hc
      rcases hc with hc | hc
      · subst hc
        exact ⟨by simp; omega, Or.inl (by simp; omega)⟩
      · have hn1 : rd32 (wrN (wrN ret rs data) (rs + data.length)
            (segs1.flatten.take (4 - (rs + data.length)))) 0 = n := by
          rw [show 4 - (rs + data.length) = (4 - rs) - data.length by omega,
            wrN_take_step _ _ _ _ _ hdl, hcat, hn]
        exact ih segs1 _ _ n hne1 (by omega) (by omega) hn1 hn5 c hc

theorem wrN_outside (m : Bytes) : ∀ (bs : List Nat) (i j : Nat), j < i ∨ i + bs.length ≤ j →
    wrN m i bs j = m j := by
  intro bs
  induction bs generalizing m with
  | nil => intro i j _; rfl
  | cons b bs ih =>
    intro i j h
    simp only [List.length_cons] at h
    rw [wrN, ih _ _ _ (by omega)]
    simp only [wr8]
    rw [if_neg (by omega)]

theorem rdN_wrN_bytes (m : Bytes) (bs : List Nat) (i : Nat) (hb : ∀ b ∈ bs, b < 256) :
    rdN (wrN m i bs) i bs.length = bs := by
  rw [rdN_wrN]
  conv_rhs => rw [← List.map_id bs]
  exact List.map_congr_left (fun b hb1 => Nat.mod_eq_of_lt (hb b hb1))

/-- C13 (framed receive tolerates partial reads).  For every response stream of
bytes whose first four bytes declare a size `n` with `5 ≤ n ≤
MAX_IPC_RETURN_SIZE` and which holds at least `n` bytes, and every cut of it
into non-empty reads: the receive loop of `ipc_send` ends by itself (no
iteration bound above `recvFuel` changes its result) with `receive_size = n`,
the first `n` bytes of the stream at offsets `[0, n)` of the return buffer and
every byte from offset `n` on as it was; each of its `read` calls asks for at
least one byte and for none beyond offset `n`; and the outcome is the same for
every other cut of the same stream. -/
theorem framed_receive (stream : List Nat) (n : Nat) (segs : List (List Nat)) (ret : Bytes)
    (hbytes : ∀ b ∈ stream, b < 256) (hdecl : u32le stream = n) (h5 : 5 ≤ n)
    (hmax : n ≤ MAX_IPC_RETURN_SIZE) (hlen : n ≤ stream.length)
    (hsplit : segs.flatten = stream) (hne : ∀ s ∈ segs, s ≠ []) :
    (∀ fuel, recvFuel ≤ fuel → recvLoop fuel segs ret 0 4 = recv segs ret) ∧
    (recv segs ret).2 = n ∧
    rdN (recv segs ret).1 0 n = stream.take n ∧
    (∀ j, n ≤ j → (recv segs ret).1 j = ret j) ∧
    (recvTrace recvFuel segs ret 0 4).1 = recv segs ret ∧
    (∀ c ∈ (recvTrace recvFuel segs ret 0 4).2, 0 < c.2 ∧ c.1 + c.2 ≤ n) ∧
    (∀ segs2 : List (List Nat), segs2.flatten = stream → (∀ s ∈ segs2, s ≠ []) →
      recv segs2 ret = recv segs ret) := by
  have hhead : ∀ sg : List (List Nat), sg.flatten = stream →
      rd32 (wrN ret 0 (sg.flatten.take 4)) 0 = n := by
    intro sg hsg
    rw [hsg, rd32_wrN_take4 _ _ (by omega), hdecl]
  have hrecv : ∀ sg : List (List Nat), sg.flatten = stream → (∀ s ∈ sg, s ≠ []) →
      recv sg ret = (wrN ret 0 (stream.take n), n) := by
    intro sg hsg hsne
    have := recv_complete sg ret n hsne (hhead sg hsg) (by omega) hmax (by rw [hsg]; exact hlen)
    rw [this, hsg]
  have htl : (stream.take n).length = n := by
    rw [List.length_take]
    omega
  refine ⟨fun fuel hf => recv_fuel fuel hf segs ret, ?_, ?_, ?_, ?_, ?_, ?_⟩
  · rw [hrecv segs hsplit hne]
  · rw [hrecv segs hsplit hne]
    have := rdN_wrN_bytes ret (stream.take n) 0 (fun b hb => hbytes b (List.mem_of_mem_take hb))
    rw [htl] at this
    exact this
  · intro j hj
    rw [hrecv segs hsplit hne]
    exact wrN_outside ret _ 0 j (Or.inr (by rw [htl]; omega))
  · rw [recvTrace_fst]
    rfl
  · intro c hc
    have := recvTrace_header recvFuel segs ret 0 n hne (by omega) (by rw [hsplit]; omega)
      (hhead segs hsplit) h5 c hc
    omega
  · intro segs2 h2 hne2
    rw [hrecv segs hsplit hne, hrecv segs2 h2 hne2]

/-- Instance of `framed_receive`: the response `06 00 00 00 00 7F` delivered in
two reads of three bytes; the loop asks for 4 bytes at offset 0, for 1 at
offset 3 and for 2 at offset 4. -/
theorem framed_receive_witness :
    (recvTrace recvFuel [[6, 0, 0], [0, 0, 0x7F]] (fun _ => 0) 0 4).2 = [(0, 4), (3, 1), (4, 2)] ∧
    (∀ c ∈ (recvTrace recvFuel [[6, 0, 0], [0, 0, 0x7F]] (fun _ => 0) 0 4).2,
      0 < c.2 ∧ c.1 + c.2 ≤ 6) ∧
    rdN (recv [[6, 0, 0], [0, 0, 0x7F]] (fun _ => 0)).1 0 6 = [6, 0, 0, 0, 0, 0x7F] ∧
    recv [[6], [0, 0, 0, 0], [0x7F]] (fun _ => 0) = recv [[6, 0, 0], [0, 0, 0x7F]] (fun _ => 0) :=
  have h := framed_receive [6, 0, 0, 0, 0, 0x7F] 6 [[6, 0, 0], [0, 0, 0x7F]] (fun _ => 0)
    (by decide) (by decide) (by decide) (by decide) (by decide) (by decide) (by decide)
  ⟨by decide, h.2.2.2.2.2.1, h.2.2.1, h.2.2.2.2.2.2 [[6], [0, 0, 0, 0], [0x7F]] (by decide) (by decide)⟩

/-! ## C14: no protocol desync -/

/-- The walk `demuxTrace` is `demuxLoop` with a record added. -/
theorem demuxTrace_fst (buf : Bytes) (top : Nat) (ret : Bytes) (dest : Nat → Nat) :
    ∀ (fuel : Nat) (w : Walk),
      (demuxTrace buf top ret dest fuel w).1 = demuxLoop buf top ret dest fuel w := by
  intro fuel
  induction fuel with
  | zero => intro w; rfl
  | succ f ih =>
    intro w
    rw [demuxTrace, demuxLoop]
    split_ifs with hlt
    · simp only
      split <;> first
        | exact ih _
        | rfl
        | (split <;> first | exact ih _ | rfl)
    · rfl

/-- Over a buffer that holds well-formed commands from `cur` to `top`, the bytes
the walk takes as tags are the tag bytes of these commands. -/
theorem demuxTrace_encodeAll (buf : Bytes) (top : Nat) (ret : Bytes) (dest : Nat → Nat) :
    ∀ (cmds : List Cmd) (fuel : Nat) (w : Walk),
      (∀ c ∈ cmds, c.WellFormed) →
      rdN buf w.cur (top - w.cur) = encodeAll cmds → w.cur ≤ top → top - w.cur ≤ fuel →
      (demuxTrace buf top ret dest fuel w).2 = tagOffsets cmds w.cur := by
  intro cmds
  induction cmds with
  | nil =>
    intro fuel w _ hbuf hle _
    have hlen := congrArg List.length hbuf
    simp [rdN_length, encodeAll] at hlen
    have hcur : ¬ w.cur < top := by omega
    cases fuel with
    | zero => simp [demuxTrace, tagOffsets]
    | succ f => simp [demuxTrace, tagOffsets, hcur]
  | cons c cs ih =>
    intro fuel w hwf hbuf hle hfuel
    obtain ⟨htag, _, hpay⟩ := hwf c (List.mem_cons_self _ _)
    have hwfs : ∀ c ∈ cs, c.WellFormed := fun x hx => hwf x (List.mem_cons_of_mem _ hx)
    have hlen := congrArg List.length hbuf
    simp only [rdN_length, encodeAll, List.length_append, encode_length] at hlen
    have hsplit : top - w.cur = (5 + c.payload.length) + (top - (w.cur + (5 + c.payload.length))) := by
      omega
    rw [hsplit, rdN_add] at hbuf
    have hparts := List.append_inj hbuf (by simp [rdN_length, encode_length])
    obtain ⟨hhead, hrest⟩ := hparts
    have hflag : rd8 buf w.cur = c.tag := by
      rw [show 5 + c.payload.length = (c.payload.length + 4) + 1 by omega, rdN_succ_left] at hhead
      simp only [Cmd.encode] at hhead
      exact (List.cons.inj hhead).1
    obtain ⟨f, rfl⟩ : ∃ f, fuel = f + 1 := ⟨fuel - 1, by omega⟩
    have hlt : w.cur < top := by omega
    obtain ⟨tag, addr, payload⟩ := c
    simp only at htag hpay hflag hrest hlen
    interval_cases tag
    all_goals
      simp only [tagWidth] at hpay
      norm_num at hpay
      rw [demuxTrace]
      simp only [hlt, if_true, hflag, _ipc_payload_size]
      rw [ih f _ hwfs (by simpa [hpay, Nat.add_assoc] using hrest) (by simp; omega) (by simp; omega)]
      simp [tagOffsets, encode_length, hpay, Nat.add_assoc, Nat.add_comm, Nat.add_left_comm]

theorem walkStores_length (dest : Nat → Nat) (ret : Bytes) (ws : List Nat) (k off : Nat) :
    (walkStores dest ret ws k off).length = ws.length := by
  rw [walkStores_eq_map]
  simp

/-- On a buffer that holds well-formed commands `ipc_send` never exits from
its walk. -/
theorem ipc_send_no_walk_exit (st : Engine) (cmds : List Cmd) (dests : List Nat)
    (hwf : ∀ c ∈ cmds, c.WellFormed) (hH : Holds st cmds dests) :
    fatal (ipc_send st) ≠ some Fatal.corrupted ∧ fatal (ipc_send st) ≠ some Fatal.invalidFlag := by
  rw [ipc_send_of_holds st cmds dests hwf hH]
  split_ifs <;> simp [fatal]

/-- C14 (no protocol desync).  In every state reached from `ipc_begin` by a
finite sequence of append operations, and whatever the return buffer holds
when the walk of `ipc_send` starts: the buffer from offset 4 to the write
cursor holds commands `cmds`, the last of the commands the operations emitted
(`flushed` being those of the batches flushed on the way); the walk returns
without reaching either of its exits ("Corrupted command buffer", "Invalid
flag"); the bytes it takes as tags are exactly the tag bytes of `cmds`, at
their offsets; the command cursor ends at the write cursor; the destination
cursor ends at the number of recorded destinations, which is the number of
Read commands of `cmds`; one store is made per Read command and the return
cursor ends at 5 plus the sum of their widths. -/
theorem no_desync (st0 : Engine) (ops : List Op) (st : Engine) (ret : Bytes)
    (h : run ops (ipc_begin st0) = .ok st) :
    ∃ (flushed cmds cs : List Cmd) (ds : List Nat),
      RunEmits ops cs ds ∧ flushed ++ cmds = cs ∧
      rdN st.ipc_buffer 4 (st.ipc_buffer_top - 4) = encodeAll cmds ∧
      demuxTrace (wr32 st.ipc_buffer 0 st.ipc_buffer_top) st.ipc_buffer_top ret
          st.ipc_dest_buffer (st.ipc_buffer_top - 4) ⟨4, 0, 4 + 1, []⟩ =
        (.ok ⟨st.ipc_buffer_top, st.ipc_dest_buffer_top, 5 + (readWidths cmds).sum,
            walkStores st.ipc_dest_buffer ret (readWidths cmds) 0 5⟩, tagOffsets cmds 4) ∧
      demux { st with ipc_buffer := wr32 st.ipc_buffer 0 st.ipc_buffer_top,
                      ipc_return_buffer := ret } =
        .ok ⟨st.ipc_buffer_top, st.ipc_dest_buffer_top, 5 + (readWidths cmds).sum,
            walkStores st.ipc_dest_buffer ret (readWidths cmds) 0 5⟩ ∧
      (walkStores st.ipc_dest_buffer ret (readWidths cmds) 0 5).length =
        (cmds.filter Cmd.isRead).length ∧
      st.ipc_dest_buffer_top = (cmds.filter Cmd.isRead).length ∧
      (readWidths cmds).length = (cmds.filter Cmd.isRead).length ∧
      fatal (ipc_send st) ≠ some Fatal.corrupted ∧
      fatal (ipc_send st) ≠ some Fatal.invalidFlag := by
  obtain ⟨bs, cmds, dests, cs, ds, hT, hE, hc, -⟩ :=
    tracks_run st0 ops _ st [] [] [] (tracks_begin st0) h
  simp only [allCmds, List.map_nil, List.flatten_nil, List.nil_append] at hc
  have hB := hT.building
  have hH4 : Holds { st with ipc_buffer := wr32 st.ipc_buffer 0 st.ipc_buffer_top,
                             ipc_return_buffer := ret } cmds dests :=
    ⟨hB.holds.top_eq, by simpa [rdN_header] using hB.holds.buf_eq, hB.holds.dest_top,
      hB.holds.dest_eq⟩
  have hd := demux_holds _ cmds dests hB.wf hH4
  have hdt : st.ipc_dest_buffer_top = (readWidths cmds).length := by
    rw [hB.holds.dest_top, hB.count]
  have htop := hB.holds.top_eq
  have hbuf4 : rdN (wr32 st.ipc_buffer 0 st.ipc_buffer_top) 4 (st.ipc_buffer_top - 4) =
      encodeAll cmds := by
    rw [rdN_header, htop]
    simpa using hB.holds.buf_eq
  have hbuf : rdN st.ipc_buffer 4 (st.ipc_buffer_top - 4) = encodeAll cmds := by
    rw [htop]
    simpa using hB.holds.buf_eq
  have htr := demuxTrace_encodeAll (wr32 st.ipc_buffer 0 st.ipc_buffer_top) st.ipc_buffer_top ret
    st.ipc_dest_buffer cmds (st.ipc_buffer_top - 4) ⟨4, 0, 4 + 1, []⟩ hB.wf hbuf4
    (by simp; omega) (le_refl _)
  have hfst := demuxTrace_fst (wr32 st.ipc_buffer 0 st.ipc_buffer_top) st.ipc_buffer_top ret
    st.ipc_dest_buffer (st.ipc_buffer_top - 4) ⟨4, 0, 4 + 1, []⟩
  have hd2 : demux { st with ipc_buffer := wr32 st.ipc_buffer 0 st.ipc_buffer_top,
                             ipc_return_buffer := ret } =
      .ok ⟨st.ipc_buffer_top, st.ipc_dest_buffer_top, 5 + (readWidths cmds).sum,
            walkStores st.ipc_dest_buffer ret (readWidths cmds) 0 5⟩ := by
    rw [hd, hdt]
  refine ⟨(bs.map Prod.fst).flatten, cmds, cs, ds, hE, hc, hbuf, ?_, hd2, ?_, ?_, ?_,
    ipc_send_no_walk_exit st cmds dests hB.wf hB.holds⟩
  · apply Prod.ext
    · rw [hfst, ← hd2]
      rfl
    · exact htr
  · rw [walkStores_length, filter_isRead_length]
  · rw [hdt, filter_isRead_length]
  · rw [filter_isRead_length]

/-- Instance of `no_desync` on a short sequence of appends, with a zeroed
return buffer. -/
theorem no_desync_witness :
    ∃ (flushed cmds cs : List Cmd) (ds : List Nat),
      RunEmits demoOps cs ds ∧ flushed ++ cmds = cs ∧
      rdN (final (run demoOps (ipc_begin demoIdle))).ipc_buffer 4
        ((final (run demoOps (ipc_begin demoIdle))).ipc_buffer_top - 4) = encodeAll cmds ∧
      demuxTrace (wr32 (final (run demoOps (ipc_begin demoIdle))).ipc_buffer 0
            (final (run demoOps (ipc_begin demoIdle))).ipc_buffer_top)
          (final (run demoOps (ipc_begin demoIdle))).ipc_buffer_top (fun _ => 0)
          (final (run demoOps (ipc_begin demoIdle))).ipc_dest_buffer
          ((final (run demoOps (ipc_begin demoIdle))).ipc_buffer_top - 4) ⟨4, 0, 4 + 1, []⟩ =
        (.ok ⟨(final (run demoOps (ipc_begin demoIdle))).ipc_buffer_top,
            (final (run demoOps (ipc_begin demoIdle))).ipc_dest_buffer_top,
            5 + (readWidths cmds).sum,
            walkStores (final (run demoOps (ipc_begin demoIdle))).ipc_dest_buffer (fun _ => 0)
              (readWidths cmds) 0 5⟩, tagOffsets cmds 4) ∧
      tagOffsets cmds 4 = [(4, 4), (10, 0), (15, 0), (20, 0), (25, 6), (34, 0)] :=
  have ⟨flushed, cmds, cs, ds, h1, h2, h3, h4, _⟩ :=
    no_desync demoIdle demoOps (final (run demoOps (ipc_begin demoIdle))) (fun _ => 0) rfl
  ⟨flushed, cmds, cs, ds, h1, h2, h3, h4, (congrArg Prod.snd h4).symm.trans (by decide)⟩

/-! ## C15: `ipc_send` and the reset -/

/-- C16, counterexample: `pcxmemsetr FFFFFFFF 0 AB` (end below start) facing a
remote that answers OK.  The size passed to `ipc_memset` is `0 - 0xFFFFFFFF = 1`
in `uint32_t` arithmetic, and the tool sends one request with one command:
`Write8(0xFFFFFFFF, 0xAB)`. -/
theorem range_fill_end_below_start :
    fatal (pcxmemsetr_main demoListening 0xFFFFFFFF 0 0xAB) = none ∧
    (final (pcxmemsetr_main demoListening 0xFFFFFFFF 0 0xAB)).sent =
      [[10, 0, 0, 0, 4, 0xFF, 0xFF, 0xFF, 0xFF, 0xAB]] ∧
    decodeAll 1 [4, 0xFF, 0xFF, 0xFF, 0xFF, 0xAB] = some [⟨MSG_WRITE8, 0xFFFFFFFF, [0xAB]⟩] ∧
    ¬ ((0xFFFFFFFF : Nat) ≤ 0xFFFFFFFF ∧ (0xFFFFFFFF : Nat) < 0) := by
  decide

/-- C16, amended.  For every 32-bit start address, 32-bit end address and fill
byte, when the range-fill tool returns: the requests it has sent are frames of
whole commands, and these commands, in order, are the `(end - start) mod 2^32`
commands `Write8((start + i) mod 2^32, value)`; nothing is stored (there is no
read).  When `start ≤ end` these are exactly one Write8 with the fill byte per
address of `[start, end)`, in increasing order, none when `end = start`; when
`end < start` there are `2^32 - (start - end)` of them, at least one. -/
theorem range_fill (st s : Engine) (start end_ value : Nat)
    (hs : start < 2 ^ 32) (he : end_ < 2 ^ 32) (hv : value < 256)
    (h : pcxmemsetr_main st start end_ value = .ok s) :
    (∃ batches : List (List Cmd),
      s.sent = st.sent ++ batches.map frame ∧
      batches.flatten = (List.range ((end_ + 2 ^ 32 - start) % 2 ^ 32)).map
        (fun i => ⟨MSG_WRITE8, (start + i) % 2 ^ 32, [value]⟩)) ∧
    s.stores.map Store.ptr = st.stores.map Store.ptr ∧
    (start ≤ end_ →
      (List.range ((end_ + 2 ^ 32 - start) % 2 ^ 32)).map
          (fun i => (⟨MSG_WRITE8, (start + i) % 2 ^ 32, [value]⟩ : Cmd)) =
        (List.range' start (end_ - start)).map (fun a => ⟨MSG_WRITE8, a, [value]⟩)) ∧
    (end_ < start → (end_ + 2 ^ 32 - start) % 2 ^ 32 = 2 ^ 32 - (start - end_) ∧
      0 < (end_ + 2 ^ 32 - start) % 2 ^ 32) := by
  simp only [pcxmemsetr_main, Nat.mod_eq_of_lt hs, Nat.mod_eq_of_lt he, Nat.mod_eq_of_lt hv] at h
  cases hm : ipc_memset (ipc_begin st) start value ((end_ + 2 ^ 32 - start) % 2 ^ 32) with
  | error e => rw [hm] at h; cases h
  | ok st1 =>
    rw [hm] at h
    have hsend : ipc_send st1 = .ok s := h
    have hrun : run [.memset start value ((end_ + 2 ^ 32 - start) % 2 ^ 32)] (ipc_begin st) =
        .ok st1 := by
      rw [run_singleton]
      exact hm
    obtain ⟨bs, cs, ds, hE, hcs, hds, hsent, hst, -, -⟩ :=
      flush_transparency st _ st1 s hrun hsend
    obtain ⟨c1, d1, c2, d2, ⟨hc1, hd1⟩, ⟨hc2, hd2⟩, rfl, rfl⟩ := hE
    subst hc1 hd1 hc2 hd2
    refine ⟨⟨bs.map Prod.fst, ?_, ?_⟩, ?_, ?_, ?_⟩
    · rw [hsent, List.map_map]
      rfl
    · rw [hcs, List.append_nil]
      apply List.map_congr_left
      intro i _
      simp [cmdWrite8, Nat.mod_eq_of_lt hv]
    · simpa using hst
    · intro hle
      have hsz : (end_ + 2 ^ 32 - start) % 2 ^ 32 = end_ - start := by
        rw [show end_ + 2 ^ 32 - start = (end_ - start) + 2 ^ 32 by omega, Nat.add_mod_right]
        exact Nat.mod_eq_of_lt (by omega)
      rw [hsz, List.range'_eq_map_range, List.map_map]
      apply List.map_congr_left
      intro i hi
      have hi2 := List.mem_range.1 hi
      simp only [Function.comp]
      rw [Nat.mod_eq_of_lt (by omega)]
    · intro hlt
      have hsz : (end_ + 2 ^ 32 - start) % 2 ^ 32 = 2 ^ 32 - (start - end_) := by
        rw [Nat.mod_eq_of_lt (by omega)]
        omega
      exact ⟨hsz, by omega⟩

/-- Instance of `range_fill`: `pcxmemsetr 1000 1003 AB` facing a remote that
answers OK sends one request with the three commands Write8(0x1000, 0xAB),
Write8(0x1001, 0xAB), Write8(0x1002, 0xAB). -/
theorem range_fill_witness :
    (List.range ((0x1003 + 2 ^ 32 - 0x1000) % 2 ^ 32)).map
        (fun i => (⟨MSG_WRITE8, (0x1000 + i) % 2 ^ 32, [0xAB]⟩ : Cmd)) =
      (List.range' 0x1000 (0x1003 - 0x1000)).map (fun a => ⟨MSG_WRITE8, a, [0xAB]⟩) ∧
    (final (pcxmemsetr_main demoListening 0x1000 0x1003 0xAB)).sent =
      [[22, 0, 0, 0, 4, 0, 0x10, 0, 0, 0xAB, 4, 1, 0x10, 0, 0, 0xAB, 4, 2, 0x10, 0, 0, 0xAB]] :=
  ⟨(range_fill demoListening (final (pcxmemsetr_main demoListening 0x1000 0x1003 0xAB))
    0x1000 0x1003 0xAB (by decide) (by decide) (by decide) rfl).2.2.1 (by decide), by decide⟩

/-! ## C17: capacity of the command buffer -/

theorem u32le_le32 (v : Nat) (rest : List Nat) (hv : v < 2 ^ 32) : u32le (le32 v ++ rest) = v := by
  simp only [le32, u32le, List.cons_append, List.nil_append, Nat.mod_mod]
  exact le32_decode v hv

/-- The request of a batch under construction: as long as the write cursor, and
declaring that length. -/
theorem request_size (st : Engine) (cmds : List Cmd) (dests : List Nat)
    (hB : Building st cmds dests) :
    (request st).length = st.ipc_buffer_top ∧ u32le (request st) = st.ipc_buffer_top ∧
      4 ≤ st.ipc_buffer_top ∧ st.ipc_buffer_top ≤ MAX_IPC_SIZE - 0x100 + 8 := by
  have hb := hB.bound
  have ht := hB.holds.top_eq
  simp only [FLUSH_AT, MAX_IPC_SIZE] at hb
  refine ⟨by simp [request, rdN_length], ?_, by omega, by simp only [MAX_IPC_SIZE]; omega⟩
  rw [request_holds st cmds dests hB.holds]
  exact u32le_le32 _ _ (by norm_num; omega)

theorem capacity_kept (st0 : Engine) : Kept (CapacityKept st0) := by
  refine ⟨?_, ?_⟩
  · intro st cmds dests conn rest hB hJ
    obtain ⟨hbuf, l, hl, hP⟩ := hJ
    refine ⟨fun j hj => ?_, l ++ [request st], ?_, ?_⟩
    · simp only [ipc_begin, sendResult]
      simp only [MAX_IPC_SIZE] at hj
      rw [wr32_outside _ _ _ _ (by omega)]
      exact hbuf j (by simp only [MAX_IPC_SIZE]; omega)
    · simp [ipc_begin, sendResult, hl]
    · intro r hr
      rcases List.mem_append.1 hr with h | h
      · exact hP r h
      · rw [List.mem_singleton.1 h]
        obtain ⟨h1, h2, h3, h4⟩ := request_size st cmds dests hB
        exact ⟨by omega, by omega, by rw [h2, h1]⟩
  · intro s1 st1 cmds1 dests1 c ds hB1 hJ hlt hB2 hW hU _
    obtain ⟨hbuf, l, hl, hP⟩ := hJ
    refine ⟨fun j hj => ?_, l, by rw [hW.sent_eq, hl], hP⟩
    have hb := hB2.bound
    simp only [FLUSH_AT] at hb
    rw [hU.1 j (by omega)]
    exact hbuf j hj

/-- C17 (request capacity invariant).  In every state reached from `ipc_begin`
by a finite sequence of append operations: the write cursor is at least 4 and
at most `650000 - 256 + 8`, hence at most `MAX_IPC_SIZE`; no byte of the command
buffer at or beyond offset `650000 - 256 + 8` has been written since
`ipc_begin`; every request transmitted on the way is at most `MAX_IPC_SIZE`
bytes long and declares its own length; and so does the request `ipc_send`
would transmit in that state. -/
theorem request_capacity (st0 : Engine) (ops : List Op) (st : Engine)
    (h : run ops (ipc_begin st0) = .ok st) :
    4 ≤ st.ipc_buffer_top ∧ st.ipc_buffer_top ≤ MAX_IPC_SIZE - 0x100 + 8 ∧
    st.ipc_buffer_top ≤ MAX_IPC_SIZE ∧
    (∀ j, MAX_IPC_SIZE - 0x100 + 8 ≤ j → st.ipc_buffer j = st0.ipc_buffer j) ∧
    (∃ l, st.sent = st0.sent ++ l ∧
      ∀ r ∈ l, 4 ≤ r.length ∧ r.length ≤ MAX_IPC_SIZE ∧ u32le r = r.length) ∧
    (request st).length = st.ipc_buffer_top ∧ u32le (request st) = st.ipc_buffer_top := by
  obtain ⟨cmds, dests, hB, hbuf, l, hl, hP⟩ := kept_run (CapacityKept st0) (capacity_kept st0) ops
    (ipc_begin st0) st [] [] (building_begin st0) ⟨fun _ _ => rfl, [], by simp [ipc_begin], by simp⟩ h
  obtain ⟨h1, h2, h3, h4⟩ := request_size st cmds dests hB
  refine ⟨h3, h4, ?_, hbuf, ⟨l, hl, fun r hr => ?_⟩, h1, h2⟩
  · simp only [MAX_IPC_SIZE] at h4 ⊢
    omega
  · obtain ⟨a, b, c⟩ := hP r hr
    refine ⟨a, ?_, c⟩
    simp only [MAX_IPC_SIZE] at b ⊢
    omega

/-- Instance of `request_capacity` on a short sequence of appends. -/
theorem request_capacity_witness :
    4 ≤ (final (run demoOps (ipc_begin demoIdle))).ipc_buffer_top ∧
    (final (run demoOps (ipc_begin demoIdle))).ipc_buffer_top ≤ MAX_IPC_SIZE - 0x100 + 8 ∧
    (final (run demoOps (ipc_begin demoIdle))).ipc_buffer_top ≤ MAX_IPC_SIZE :=
  have h := request_capacity demoIdle demoOps (final (run demoOps (ipc_begin demoIdle))) rfl
  ⟨h.1, h.2.1, h.2.2.1⟩

/-! ## C18: capacity of the destination list -/

/-- Every Read command takes five bytes of the buffer. -/
theorem reads_bytes : ∀ (cmds : List Cmd),
    5 * (readWidths cmds).length ≤ (encodeAll cmds).length := by
  intro cmds
  induction cmds with
  | nil => simp [readWidths, encodeAll]
  | cons c cs ih =>
    by_cases h : c.tag < 4 <;>
      simp only [readWidths, h, if_true, if_false, encodeAll, List.length_append, encode_length,
        List.length_cons] <;> omega

theorem appended_dests (c : Cmd) (ds : List Nat) (h : Appended c ds) : ds.length ≤ 1 := by
  rcases h with ⟨_, _, _, rfl⟩ | ⟨_, _, _, rfl⟩ | ⟨_, _, _, _, _, rfl⟩ <;> simp

theorem dest_capacity_kept (st0 : Engine) : Kept (DestCapacityKept st0) := by
  refine ⟨?_, ?_⟩
  · intro st cmds dests conn rest hB hJ
    exact ⟨by simp, fun i hi => hJ.2 i hi⟩
  · intro s1 st1 cmds1 dests1 c ds hB1 hJ hlt hB2 hW hU hA
    have h5 := reads_bytes cmds1
    have ht := hB1.holds.top_eq
    have hc := hB1.count
    have hd := appended_dests c ds hA
    simp only [FLUSH_AT, MAX_IPC_SIZE] at hlt
    have hlen : (dests1 ++ ds).length ≤ 129948 := by
      rw [List.length_append]
      omega
    refine ⟨hlen, fun i hi => ?_⟩
    rw [hU.2 i (by rw [hB2.holds.dest_top]; omega)]
    exact hJ.2 i hi

/-- A run of `n` calls of `ipc_read8` that stays below the threshold of the
overflow guard records `n` destinations and flushes nothing. -/
theorem reads_below_threshold : ∀ (n i d s : Nat) (st : Engine) (cmds : List Cmd)
    (dests : List Nat), Holds st cmds dests → st.ipc_buffer_top + 5 * n ≤ FLUSH_AT + 4 →
    ∃ st1 cmds1 dests1,
      forLoop (fun st k => ipc_read8 st (d + k) ((s + k) % 2 ^ 32)) n i st = .ok st1 ∧
      Holds st1 cmds1 dests1 ∧ dests1.length = dests.length + n ∧ st1.sent = st.sent := by
  intro n
  induction n with
  | zero =>
    intro i d s st cmds dests hH _
    exact ⟨st, cmds, dests, rfl, hH, rfl, rfl⟩
  | succ n ih =>
    intro i d s st cmds dests hH hb
    have hlt : st.ipc_buffer_top < MAX_IPC_SIZE - 0x100 := by
      simp only [FLUSH_AT] at hb
      omega
    obtain ⟨s1, h1, hH1, hW1⟩ := ipc_read8_push st st cmds dests (d + i) ((s + i) % 2 ^ 32)
      (check_overflow_below st hlt) hH
    have ht1 : s1.ipc_buffer_top = st.ipc_buffer_top + 5 := by
      have a := hH1.top_eq
      have b := hH.top_eq
      simp only [encodeAll_append, List.length_append, encodeAll, encode_length, cmdRead8,
        List.length_nil, List.append_nil] at a
      omega
    obtain ⟨st2, cmds2, dests2, h2, hH2, hl2, hs2⟩ := ih (i + 1) d s s1 _ _ hH1 (by omega)
    refine ⟨st2, cmds2, dests2, ?_, hH2, ?_, by rw [hs2, hW1.sent_eq]⟩
    · rw [forLoop]
      simp only [h1]
      exact h2
    · rw [hl2, List.length_append]
      simp
      omega

/-- C18 (destination list capacity).  In every state reached from `ipc_begin`
by a finite sequence of append operations the number of recorded destinations
is at most 129948, which at 8 bytes per pointer is at most 1039584 bytes, within
the `2 * MAX_IPC_SIZE` bytes of the destination list; no entry at or beyond
index 129948 has been written since `ipc_begin`.  The bound is reached:
`ipc_read` of 129948 bytes right after `ipc_begin` returns without a flush with
129948 destinations recorded. -/
theorem dest_capacity (st0 : Engine) (ops : List Op) (st : Engine)
    (h : run ops (ipc_begin st0) = .ok st) :
    st.ipc_dest_buffer_top ≤ 129948 ∧
    8 * st.ipc_dest_buffer_top ≤ 1039584 ∧
    8 * st.ipc_dest_buffer_top ≤ 2 * MAX_IPC_SIZE ∧
    (∀ i, 129948 ≤ i → st.ipc_dest_buffer i = st0.ipc_dest_buffer i) ∧
    ∃ st1, run [.read 0 0 129948] (ipc_begin st0) = .ok st1 ∧
      st1.ipc_dest_buffer_top = 129948 ∧ st1.sent = st0.sent := by
  obtain ⟨cmds, dests, hB, hlen, hbuf⟩ := kept_run (DestCapacityKept st0) (dest_capacity_kept st0)
    ops (ipc_begin st0) st [] [] (building_begin st0) ⟨by simp, fun _ _ => rfl⟩ h
  have hd := hB.holds.dest_top
  refine ⟨by omega, by omega, by simp only [MAX_IPC_SIZE]; omega, hbuf, ?_⟩
  have hfit : (ipc_begin st0).ipc_buffer_top + 5 * 129948 ≤ FLUSH_AT + 4 := by
    have h4 : (ipc_begin st0).ipc_buffer_top = 4 := rfl
    rw [h4]
    decide
  obtain ⟨st1, cmds1, dests1, h1, hH1, hl1, hs1⟩ := reads_below_threshold 129948 0 0 0
    (ipc_begin st0) [] [] (holds_begin st0) hfit
  refine ⟨st1, ?_, ?_, by rw [hs1]; rfl⟩
  · rw [run_singleton]
    simp only [Op.apply, ipc_read]
    exact h1
  · rw [hH1.dest_top, hl1]
    simp

/-- Instance of `dest_capacity` on a short sequence of appends. -/
theorem dest_capacity_witness :
    (final (run demoOps (ipc_begin demoIdle))).ipc_dest_buffer_top ≤ 129948 ∧
    8 * (final (run demoOps (ipc_begin demoIdle))).ipc_dest_buffer_top ≤ 2 * MAX_IPC_SIZE :=
  have h := dest_capacity demoIdle demoOps (final (run demoOps (ipc_begin demoIdle))) rfl
  ⟨h.1, h.2.2.1⟩

/-! ## C19: the expected response fits the return buffer -/

/-- When every read is a Read8 the widths sum to the number of reads. -/
theorem readWidths_read8 : ∀ (cmds : List Cmd), (∀ c ∈ cmds, c.tag < 4 → c.tag = MSG_READ8) →
    (readWidths cmds).sum = (readWidths cmds).length := by
  intro cmds
  induction cmds with
  | nil => intro _; rfl
  | cons c cs ih =>
    intro h
    have ihs := ih (fun x hx => h x (List.mem_cons_of_mem _ hx))
    by_cases ht : c.tag < 4
    · have h0 := h c (List.mem_cons_self _ _) ht
      simp only [MSG_READ8] at h0
      simp only [readWidths, ht, if_true, List.sum_cons, List.length_cons, ihs, h0, tagWidth]
      norm_num
      omega
    · simp only [readWidths, ht, if_false, ihs]

/-- The response to a batch under construction whose reads are all Read8 fits
the return buffer. -/
theorem building_response_fits (st : Engine) (cmds : List Cmd) (dests : List Nat)
    (hB : Building st cmds dests) (h8 : ∀ c ∈ cmds, c.tag < 4 → c.tag = MSG_READ8) :
    4 + 1 + (readWidths cmds).sum ≤ MAX_IPC_RETURN_SIZE := by
  have h1 := readWidths_read8 cmds h8
  have h2 := reads_bytes cmds
  have h3 := hB.bound
  have h4 := hB.holds.top_eq
  simp only [FLUSH_AT, MAX_IPC_SIZE] at h3
  simp only [MAX_IPC_RETURN_SIZE]
  omega

theorem appended_tag (c : Cmd) (ds : List Nat) (h : Appended c ds) : c.tag < 4 → c.tag = MSG_READ8 := by
  rcases h with ⟨_, _, rfl, _⟩ | ⟨_, _, rfl, _⟩ | ⟨_, _, _, _, rfl, _⟩ <;>
    simp [cmdRead8, cmdWrite8, cmdWrite32Stale, MSG_READ8, MSG_WRITE8, MSG_WRITE32]

theorem response_kept (st0 : Engine) : Kept (ResponseKept st0) := by
  refine ⟨?_, ?_⟩
  · intro st cmds dests conn rest hB hJ
    obtain ⟨h8, l, hl, hP⟩ := hJ
    refine ⟨by simp, l ++ [cmds], ?_, ?_⟩
    · simp [ipc_begin, sendResult, hl, request_building st cmds dests hB.holds]
    · intro b hb
      rcases List.mem_append.1 hb with h | h
      · exact hP b h
      · rw [List.mem_singleton.1 h]
        exact ⟨hB.wf, building_response_fits st cmds dests hB h8⟩
  · intro s1 st1 cmds1 dests1 c ds hB1 hJ hlt hB2 hW hU hA
    obtain ⟨h8, l, hl, hP⟩ := hJ
    refine ⟨fun x hx => ?_, l, by rw [hW.sent_eq, hl], hP⟩
    rcases List.mem_append.1 hx with h | h
    · exact h8 x h
    · rw [List.mem_singleton.1 h]
      exact appended_tag c ds hA

/-- The walk of `ipc_send` over a batch under construction, whatever the return
buffer holds. -/
theorem demux_building (st : Engine) (cmds : List Cmd) (dests : List Nat) (ret : Bytes)
    (hB : Building st cmds dests) :
    demux { st with ipc_buffer := wr32 st.ipc_buffer 0 st.ipc_buffer_top,
                    ipc_return_buffer := ret } =
      .ok ⟨st.ipc_buffer_top, st.ipc_dest_buffer_top, 5 + (readWidths cmds).sum,
        walkStores st.ipc_dest_buffer ret (readWidths cmds) 0 5⟩ := by
  have hH4 : Holds { st with ipc_buffer := wr32 st.ipc_buffer 0 st.ipc_buffer_top,
                             ipc_return_buffer := ret } cmds dests :=
    ⟨hB.holds.top_eq, by simpa [rdN_header] using hB.holds.buf_eq, hB.holds.dest_top,
      hB.holds.dest_eq⟩
  rw [demux_holds _ cmds dests hB.wf hH4, hB.holds.dest_top, hB.count]

/-- C19 (expected response always fits).  In every state reached from
`ipc_begin` by a finite sequence of append operations, the request `ipc_send`
would transmit is the frame of well-formed commands `cmds` whose reads are all
Read8, and the response to it, of `4 + 1 +` the sum of the widths of its reads
bytes, is at most `MAX_IPC_RETURN_SIZE` bytes; so is the response to every
request transmitted on the way.  Hence a response of that size that declares
its size, cut into reads in any way, is received whole by the receive loop
(which does not take its "Response too big" branch), and the walk ends with
its return cursor at that size, within the return buffer. -/
theorem response_fits (st0 : Engine) (ops : List Op) (st : Engine)
    (h : run ops (ipc_begin st0) = .ok st) :
    ∃ cmds : List Cmd,
      request st = frame cmds ∧ (∀ c ∈ cmds, c.WellFormed) ∧
      (∀ c ∈ cmds, c.tag < 4 → c.tag = MSG_READ8) ∧
      4 + 1 + (readWidths cmds).sum ≤ MAX_IPC_RETURN_SIZE ∧
      (∃ l : List (List Cmd), st.sent = st0.sent ++ l.map frame ∧
        ∀ b ∈ l, (∀ c ∈ b, c.WellFormed) ∧ 4 + 1 + (readWidths b).sum ≤ MAX_IPC_RETURN_SIZE) ∧
      (∀ (segs : List (List Nat)) (resp : List Nat) (ret : Bytes),
        segs.flatten = resp → (∀ s ∈ segs, s ≠ []) →
        resp.length = 4 + 1 + (readWidths cmds).sum → u32le resp = resp.length →
        recv segs ret = (wrN ret 0 resp, resp.length)) ∧
      (∀ ret : Bytes, ∃ w,
        demux { st with ipc_buffer := wr32 st.ipc_buffer 0 st.ipc_buffer_top,
                        ipc_return_buffer := ret } = .ok w ∧
        w.ret_cur = 4 + 1 + (readWidths cmds).sum ∧ w.ret_cur ≤ MAX_IPC_RETURN_SIZE) := by
  obtain ⟨cmds, dests, hB, h8, l, hl, hP⟩ := kept_run (ResponseKept st0) (response_kept st0) ops
    (ipc_begin st0) st [] [] (building_begin st0) ⟨by simp, [], by simp [ipc_begin], by simp⟩ h
  have hfit := building_response_fits st cmds dests hB h8
  refine ⟨cmds, request_building st cmds dests hB.holds, hB.wf, h8, hfit, ⟨l, hl, hP⟩, ?_, ?_⟩
  · intro segs resp ret hflat hne hlen hsize
    exact recv_whole segs ret resp hne hflat hsize (by omega) (by omega)
  · intro ret
    exact ⟨_, demux_building st cmds dests ret hB, rfl, by simp only; omega⟩

/-- Instance of `response_fits` on a short sequence of appends: four reads, a
response of 9 bytes. -/
theorem response_fits_witness :
    ∃ cmds : List Cmd,
      request (final (run demoOps (ipc_begin demoIdle))) = frame cmds ∧
      (∀ c ∈ cmds, c.WellFormed) ∧ (∀ c ∈ cmds, c.tag < 4 → c.tag = MSG_READ8) ∧
      4 + 1 + (readWidths cmds).sum ≤ MAX_IPC_RETURN_SIZE :=
  have ⟨cmds, h1, h2, h3, h4, _⟩ :=
    response_fits demoIdle demoOps (final (run demoOps (ipc_begin demoIdle))) rfl
  ⟨cmds, h1, h2, h3, h4⟩

/-! ## `ipc_write` from an array that a flush stores into -/

/-- Calls of `ipc_write8` that stay below the threshold of the overflow guard
append their commands and flush nothing. -/
theorem writes_below_threshold (a v : Nat) : ∀ (n : Nat) (st : Engine) (cmds : List Cmd)
    (dests : List Nat), Holds st cmds dests → st.ipc_buffer_top + 6 * n ≤ FLUSH_AT + 5 →
    ∃ st1, run (List.replicate n (.write8 a v)) st = .ok st1 ∧
      Holds st1 (cmds ++ List.replicate n (cmdWrite8 a v)) dests ∧ SameWorld st st1 ∧
      st1.ipc_buffer_top = st.ipc_buffer_top + 6 * n := by
  intro n
  induction n with
  | zero =>
    intro st cmds dests hH _
    exact ⟨st, rfl, by simpa using hH, ⟨rfl, rfl, rfl, rfl⟩, rfl⟩
  | succ n ih =>
    intro st cmds dests hH hb
    have hlt : st.ipc_buffer_top < MAX_IPC_SIZE - 0x100 := by
      simp only [FLUSH_AT] at hb
      omega
    obtain ⟨s1, h1, hH1, hW1⟩ := ipc_write8_push st st cmds dests a v
      (check_overflow_below st hlt) hH
    have ht1 : s1.ipc_buffer_top = st.ipc_buffer_top + 6 := by
      have e1 := hH1.top_eq
      have e2 := hH.top_eq
      simp only [encodeAll_append, List.length_append, encodeAll, encode_length, cmdWrite8,
        List.length_nil, List.append_nil, List.length_singleton] at e1
      omega
    obtain ⟨st2, h2, hH2, hW2, ht2⟩ := ih s1 _ dests hH1 (by omega)
    refine ⟨st2, ?_, ?_, ?_, by omega⟩
    · rw [List.replicate_succ, run]
      simp only [Op.apply, h1]
      exact h2
    · rw [List.replicate_succ, ← List.singleton_append, ← List.append_assoc]
      exact hH2
    · exact ⟨by rw [hW2.net_eq, hW1.net_eq], by rw [hW2.sent_eq, hW1.sent_eq],
        by rw [hW2.stores_eq, hW1.stores_eq], by rw [hW2.ret_eq, hW1.ret_eq]⟩

theorem readWidths_replicate_write8 (a v : Nat) : ∀ (n : Nat),
    readWidths (List.replicate n (cmdWrite8 a v)) = [] := by
  intro n
  induction n with
  | zero => rfl
  | succ n ih =>
    rw [List.replicate_succ, readWidths, ih]
    simp [cmdWrite8, MSG_WRITE8]

/-- The function `ipc_write` loads each source byte when its iteration runs.
`ipc_begin; ipc_read8(&buf[1], 0x100);` 108290 calls `ipc_write8(0, 0)` (the
cursor is then at offset 649749, past the threshold); `ipc_write(0x2000, buf,
2)` with `buf = {AA, BB}` at address 5000, the remote answering the flushed
batch with `06 00 00 00 00 7F`.  Iteration 0 loads `AA`, its overflow guard
flushes the batch and the walk stores `7F` into `buf[1]`; iteration 1 then loads
`7F`: the buffer holds `Write8(0x2000, AA); Write8(0x2001, 7F)`, where `buf[1]`
was `BB` when `ipc_write` was called. -/
theorem ipc_write_loads_after_flush :
    ∃ sb sc,
      run (.read8 5001 0x100 :: List.replicate 108290 (.write8 0 0)) (ipc_begin demoAliasing) =
        .ok sb ∧
      sb.ipc_buffer_top = 649749 ∧
      ipc_write sb 0x2000 demoSource 5000 2 = .ok sc ∧
      sc.stores = [⟨5001, [0x7F]⟩] ∧
      sc.ipc_buffer_top = 16 ∧
      rdN sc.ipc_buffer 4 12 = [4, 0, 0x20, 0, 0, 0xAA, 4, 1, 0x20, 0, 0, 0x7F] ∧
      rd8 demoSource 5000 = 0xAA ∧ rd8 demoSource 5001 = 0xBB := by
  -- the read
  obtain ⟨sr, hr, hHr, hWr⟩ := ipc_read8_push (ipc_begin demoAliasing) (ipc_begin demoAliasing)
    [] [] 5001 0x100 (check_overflow_below _ (by decide)) (holds_begin _)
  have htr : sr.ipc_buffer_top = 9 := by
    rw [hHr.top_eq]
    rfl
  -- the 108290 writes
  have hfit : sr.ipc_buffer_top + 6 * 108290 ≤ FLUSH_AT + 5 := by
    rw [htr]
    decide
  obtain ⟨sb, hb, hHb, hWb, htb⟩ := writes_below_threshold 0 0 108290 sr _ _ hHr hfit
  have htb2 : sb.ipc_buffer_top = 649749 := by
    rw [htb, htr]
  have hnet : sb.net = [⟨true, true, [[6, 0, 0, 0, 0, 0x7F]]⟩] := by
    rw [hWb.net_eq, hWr.net_eq]
    rfl
  have hret : sb.ipc_return_buffer = fun _ => 0 := by
    rw [hWb.ret_eq, hWr.ret_eq]
    rfl
  have hsto : sb.stores = [] := by
    rw [hWb.stores_eq, hWr.stores_eq]
    rfl
  have hdest : sb.ipc_dest_buffer 0 = 5001 := hHb.dest_eq 0 (by decide)
  have hwf : ∀ c ∈ ([] ++ [cmdRead8 0x100]) ++ List.replicate 108290 (cmdWrite8 0 0),
      c.WellFormed := by
    intro c hc
    rcases List.mem_append.1 hc with h | h
    · simp only [List.nil_append, List.mem_singleton] at h
      rw [h]
      exact cmdRead8_wf _
    · rw [List.eq_of_mem_replicate h]
      exact cmdWrite8_wf _ _
  have hws : readWidths (([] ++ [cmdRead8 0x100]) ++ List.replicate 108290 (cmdWrite8 0 0)) =
      [1] := by
    rw [readWidths_append, readWidths_replicate_write8]
    rfl
  -- the flush
  have hsend := ipc_send_of_holds sb _ _ hwf hHb
  have hstat : ¬ rd8 (recv [[6, 0, 0, 0, 0, 0x7F]] (fun _ => 0)).1 4 = IPC_FAIL := by decide
  rw [hnet, hret, hws] at hsend
  simp only [List.headD_cons, Bool.true_eq_false, if_false, hstat, List.tail_cons] at hsend
  have hchk : _ipc_check_overflow sb =
      .ok (ipc_begin (sendResult sb ⟨true, true, [[6, 0, 0, 0, 0, 0x7F]]⟩ [] [1])) := by
    rw [check_overflow_above sb (by rw [htb2]; decide), hsend]
  -- iteration 0: loads buf[0], flushes, appends
  have hv0 : rd8 (applyStores demoSource (sb.stores.drop sb.stores.length)) (5000 + 0) = 0xAA := by
    rw [List.drop_length]
    decide
  obtain ⟨s0, h0, hH0, hW0⟩ := ipc_write8_push sb _ [] [] ((0x2000 + 0) % 2 ^ 32)
    (rd8 (applyStores demoSource (sb.stores.drop sb.stores.length)) (5000 + 0)) hchk (holds_begin _)
  have hs0 : s0.stores = [⟨5001, [0x7F]⟩] := by
    rw [hW0.stores_eq]
    simp only [ipc_begin, sendResult, hsto, hret, hdest, walkStores, List.nil_append]
    decide
  have ht0 : s0.ipc_buffer_top = 10 := by
    rw [hH0.top_eq]
    rfl
  -- iteration 1: loads buf[1] after the store of the flush
  have hv1 : rd8 (applyStores demoSource (s0.stores.drop sb.stores.length)) (5000 + (0 + 1)) =
      0x7F := by
    rw [hs0, hsto]
    decide
  obtain ⟨sc, h1, hH1, hW1⟩ := ipc_write8_push s0 s0 _ _ ((0x2000 + (0 + 1)) % 2 ^ 32)
    (rd8 (applyStores demoSource (s0.stores.drop sb.stores.length)) (5000 + (0 + 1)))
    (check_overflow_below s0 (by rw [ht0]; decide)) hH0
  rw [hv0, hv1] at hH1
  have henc : encodeAll (([] ++ [cmdWrite8 ((0x2000 + 0) % 2 ^ 32) 0xAA]) ++
      [cmdWrite8 ((0x2000 + (0 + 1)) % 2 ^ 32) 0x7F]) =
      [4, 0, 0x20, 0, 0, 0xAA, 4, 1, 0x20, 0, 0, 0x7F] := by decide
  refine ⟨sb, sc, ?_, htb2, ?_, by rw [hW1.stores_eq, hs0], ?_, ?_, by decide, by decide⟩
  · rw [run]
    simp only [Op.apply, hr]
    exact hb
  · unfold ipc_write
    rw [forLoop, h0]
    simp only
    rw [forLoop, h1]
    rfl
  · rw [hH1.top_eq, henc]
    rfl
  · have hbuf := hH1.buf_eq
    rw [henc] at hbuf
    exact hbuf

end PcsxIpc
